import Mathlib

/-!
# Transport planner: graph store and path finder

A shallow embedding of `src/source/main.cpp` (class `TransportSystem`) and
the properties of its shortest-path search and of its interactive mutations.

Modelling conventions.

* A finite `double` is the integer number of units of `2⁻¹⁰⁷⁴` it holds
  (the two zeros are one value); every finite `double` is such a number,
  and `whole n` is the number of the double `n.0`. A connection weight is
  stored as this `Int`: the weights that `operator>>` stores, from `cin` or
  from a file, are finite. An `Int` of more than 53 significant bits, or of
  `2 ^ 2098` units and more, is the weight of no stored connection; the
  theorems hold for such numbers as well, and the example stores hold none.
* A cost computed by the search or by `calculate_path_cost` is a `Double`:
  finite, or one of the two infinities. `Double.add` is the IEEE 754 sum in
  the default rounding mode: the exact sum rounded to the nearest value of
  53 significant bits, ties to even, and to infinity from `2 ^ 1024` on.
  The sum of a cost and a finite weight is never a NaN.
* Coordinates are only read, compared with integer bounds and stored; they
  are integers (`Int`).
* `std::unordered_map<string, V>` is an association list `UMap V` that is
  only accessed through `find`, `assign`, `touch`, `get` and `erase`, the
  counterparts of `find`/`at`, `m[k] = v`, `m[k]` and `erase`.
* `std::priority_queue` is the list of the nodes it holds; which of several
  nodes of equal least cost `top` returns is left to a `PopPolicy`, and the
  theorems hold for every lawful policy.
* A `std::out_of_range` thrown by `at` and a loop that has not finished
  within the given number of iterations are results of type `Failure`.
-/

namespace TransportPlanner

set_option maxRecDepth 4096

/-! ## Data model -/

/-- The record `struct Station`. -/
structure Station where
  id : String
  name : String
  lat : Int
  lon : Int
deriving DecidableEq

/-- The record `struct Connection`; `to_id` is its field `to`, and `weight`
is a finite `double` in units of `2⁻¹⁰⁷⁴`. -/
structure Connection where
  to_id : String
  weight : Int
  transport_type : String
deriving DecidableEq

/-- An `unordered_map<string, V>`: keys with their values. -/
abbrev UMap (V : Type) := List (String × V)

namespace UMap

/-- The lookup `m.find(k)`: the value stored under `k`, if any. -/
def find {V : Type} : UMap V → String → Option V
  | [], _ => none
  | (k', v) :: rest, k => if k' = k then some v else find rest k

/-- The assignment `m[k] = v`: overwrite the value under `k`, or add the key. -/
def assign {V : Type} : UMap V → String → V → UMap V
  | [], k, v => [(k, v)]
  | (k', v') :: rest, k, v =>
    if k' = k then (k', v) :: rest else (k', v') :: assign rest k v

/-- The side effect of reading `m[k]`: an absent key is added with the
value-initialised default. -/
def touch {V : Type} (m : UMap V) (k : String) (dflt : V) : UMap V :=
  match find m k with
  | some _ => m
  | none => assign m k dflt

/-- The value read by `m[k]`. -/
def get {V : Type} (m : UMap V) (k : String) (dflt : V) : V :=
  match find m k with
  | some v => v
  | none => dflt

/-- The removal `m.erase(k)`. -/
def erase {V : Type} : UMap V → String → UMap V
  | [], _ => []
  | (k', v) :: rest, k => if k' = k then erase rest k else (k', v) :: erase rest k

end UMap

/-- The two maps of `class TransportSystem`. -/
structure TransportSystem where
  stations : UMap Station
  adjacency_list : UMap (List Connection)
deriving DecidableEq

/-- What a call can end with instead of a value. -/
inductive Failure where
  | out_of_range
  | out_of_fuel
  | undefined_behaviour
deriving DecidableEq

/-- The result of a call: a value, or a `Failure`. -/
inductive Outcome (α : Type) where
  | ok (value : α)
  | fail (why : Failure)
deriving DecidableEq

/-! ## Doubles -/

/-- The spacing of the doubles around `n` units, in units: the least power
of two `u` with `n / u < 2 ^ 53`, found by dividing `n` by `2 ^ 64` while at
least 53 bits are left and then by 2, in at most `fuel` steps. -/
def ulp_loop : Nat → Nat → Nat
  | 0, _ => 1
  | fuel + 1, n =>
    if n < 2 ^ 53 then 1
    else if n / 2 ^ 64 < 2 ^ 52 then 2 * ulp_loop fuel (n / 2)
    else 2 ^ 64 * ulp_loop fuel (n / 2 ^ 64)

/-- The spacing of the doubles around `n` units. -/
def ulp (n : Nat) : Nat := ulp_loop n n

/-- The multiple of `u` nearest to `n`, the even one of two equally near. -/
def round_to (u n : Nat) : Nat :=
  if 2 * (n % u) < u then n / u * u
  else if u < 2 * (n % u) then (n / u + 1) * u
  else if n / u % 2 = 0 then n / u * u else (n / u + 1) * u

/-- The magnitude `n`, in units, rounded to 53 significant bits, to the
nearest and ties to even. -/
def round_nat (n : Nat) : Nat := round_to (ulp n) n

/-- The least magnitude that is no finite double: `2 ^ 1024`, which is
`2 ^ 2098` units. -/
def overflow_bound : Nat := (2 ^ 256) ^ 8 * 2 ^ 50

/-- A value of type `double` other than a NaN. -/
inductive Double where
  | finite (units : Int)
  | pos_inf
  | neg_inf
deriving DecidableEq

/-- The double nearest to the real number of `x` units: the rounding of
IEEE 754 in the default mode. -/
def Double.round (x : Int) : Double :=
  if 0 ≤ x then
    if round_nat x.toNat < overflow_bound then Double.finite (round_nat x.toNat)
    else Double.pos_inf
  else
    if round_nat (-x).toNat < overflow_bound then Double.finite (-(round_nat (-x).toNat))
    else Double.neg_inf

/-- The sum `c + w` of a double and a finite double. -/
def Double.add : Double → Int → Double
  | Double.finite x, w => Double.round (x + w)
  | Double.pos_inf, _ => Double.pos_inf
  | Double.neg_inf, _ => Double.neg_inf

/-- The comparison `a < b` of doubles. -/
def Double.lt : Double → Double → Bool
  | Double.finite x, Double.finite y => decide (x < y)
  | Double.finite _, Double.pos_inf => true
  | Double.neg_inf, Double.finite _ => true
  | Double.neg_inf, Double.pos_inf => true
  | _, _ => false

/-- The order `a ≤ b` of doubles. -/
def Double.le (a b : Double) : Prop := Double.lt b a = false

/-- The double of the integer `n`, in units: `n · 2 ^ 1074`. -/
def whole (n : Int) : Int := n * (((2 ^ 256) ^ 4 * 2 ^ 50 : Nat) : Int)

/-- The method `station_exists`. -/
def station_exists (ts : TransportSystem) (id : String) : Bool :=
  (UMap.find ts.stations id).isSome

/-! ## Path finder -/

/-- The local `struct QueueNode` of `find_shortest_path`. -/
structure QueueNode where
  cost : Double
  id : String
deriving DecidableEq

/-- The pair `pq.top(); pq.pop()`: the node taken out and the nodes left,
`none` on an empty queue. -/
abbrev PopPolicy := List QueueNode → Option (QueueNode × List QueueNode)

/-- A policy that takes out a node of least cost and keeps all the others. -/
structure LawfulPop (pop : PopPolicy) : Prop where
  empty : pop [] = none
  nonempty : ∀ q : List QueueNode, q ≠ [] →
    ∃ n rest, pop q = some (n, rest) ∧ List.Perm q (n :: rest) ∧
      ∀ m ∈ q, Double.le n.cost m.cost

/-- The first node of least cost among `n` and `q`. -/
def first_min : QueueNode → List QueueNode → QueueNode
  | n, [] => n
  | n, m :: q => if Double.lt m.cost n.cost then first_min m q else first_min n q

/-- The policy that takes out the first node of least cost. -/
def pop_first_min : PopPolicy
  | [] => none
  | n :: q => some (first_min n q, (n :: q).erase (first_min n q))

/-- The locals `pq`, `distances`, `previous` of `find_shortest_path`. -/
structure SearchState where
  pq : List QueueNode
  distances : UMap Double
  previous : UMap String
deriving DecidableEq

/-- The loop `for (const auto& [id, _] : stations) distances[id] = ∞`. -/
def init_distances : UMap Station → UMap Double → UMap Double
  | [], d => d
  | (id, _) :: rest, d => init_distances rest (UMap.assign d id Double.pos_inf)

/-- The state before the `while` loop (lines 111-119). -/
def init_state (ts : TransportSystem) (start : String) : SearchState :=
  { pq := [⟨Double.finite 0, start⟩]
    distances := UMap.assign (init_distances ts.stations []) start (Double.finite 0)
    previous := [] }

/-- The inner loop over the connections of `current_id` (lines 128-135);
reading `distances[conn.to]` adds an absent key with the value `0.0`. -/
def relax (current_cost : Double) (current_id : String) :
    List Connection → SearchState → SearchState
  | [], st => st
  | conn :: rest, st =>
    let new_cost := Double.add current_cost conn.weight
    let distances := UMap.touch st.distances conn.to_id (Double.finite 0)
    if Double.lt new_cost (UMap.get distances conn.to_id (Double.finite 0)) then
      relax current_cost current_id rest
        { pq := ⟨new_cost, conn.to_id⟩ :: st.pq
          distances := UMap.assign distances conn.to_id new_cost
          previous := UMap.assign st.previous conn.to_id current_id }
    else
      relax current_cost current_id rest { st with distances := distances }

/-- The loop `while (!pq.empty())` (lines 121-136), at most `fuel`
iterations. -/
def search_loop (pop : PopPolicy) (ts : TransportSystem) (end_id : String) :
    Nat → SearchState → Outcome SearchState
  | 0, _ => Outcome.fail Failure.out_of_fuel
  | fuel + 1, st =>
    match pop st.pq with
    | none => Outcome.ok st
    | some (node, pq) =>
      if node.id = end_id then Outcome.ok { st with pq := pq }
      else
        let distances := UMap.touch st.distances node.id (Double.finite 0)
        if Double.lt (UMap.get distances node.id (Double.finite 0)) node.cost then
          search_loop pop ts end_id fuel { st with pq := pq, distances := distances }
        else
          match UMap.find ts.adjacency_list node.id with
          | none => Outcome.fail Failure.out_of_range
          | some conns =>
            search_loop pop ts end_id fuel
              (relax node.cost node.id conns
                { st with pq := pq, distances := distances })

/-- The loop `while (!current.empty())` (lines 145-149), at most `fuel`
iterations; `path` grows at its back. -/
def walk_back (previous : UMap String) :
    Nat → String → List String → Outcome (List String)
  | 0, _, _ => Outcome.fail Failure.out_of_fuel
  | fuel + 1, current, path =>
    if current = "" then Outcome.ok path
    else
      match UMap.find previous current with
      | none => Outcome.ok (path ++ [current])
      | some p => walk_back previous fuel p (path ++ [current])

/-- The method `find_shortest_path` (lines 104-153). -/
def find_shortest_path (pop : PopPolicy) (fuel : Nat) (ts : TransportSystem)
    (start end_id : String) : Outcome (List String) :=
  match search_loop pop ts end_id fuel (init_state ts start) with
  | Outcome.fail why => Outcome.fail why
  | Outcome.ok st =>
    if (UMap.find st.previous end_id).isNone ∧ end_id ≠ start then Outcome.ok []
    else
      match walk_back st.previous fuel end_id [] with
      | Outcome.fail why => Outcome.fail why
      | Outcome.ok path => Outcome.ok path.reverse

/-- The first connection of a list that leads to `target`. -/
def first_match (target : String) : List Connection → Option Connection
  | [] => none
  | conn :: rest => if conn.to_id = target then some conn else first_match target rest

/-- The outer loop of `calculate_path_cost`: `cur` is `path[i]` and the
list holds `path[i+1]` onwards. -/
def cost_loop (ts : TransportSystem) :
    String → List String → Double → Outcome Double
  | _, [], total => Outcome.ok total
  | cur, next :: rest, total =>
    match UMap.find ts.adjacency_list cur with
    | none => Outcome.fail Failure.out_of_range
    | some conns =>
      match first_match next conns with
      | some conn => cost_loop ts next rest (Double.add total conn.weight)
      | none => cost_loop ts next rest total

/-- The method `calculate_path_cost` (lines 155-166). On an empty path the
bound `path.size() - 1` wraps around and `path[0]` is read out of bounds. -/
def calculate_path_cost (ts : TransportSystem) : List String → Outcome Double
  | [] => Outcome.fail Failure.undefined_behaviour
  | first :: rest => cost_loop ts first rest (Double.finite 0)

/-! ## Example stores -/

/-- A station record with the given id. -/
def mk_station (id : String) : Station := ⟨id, id, 0, 0⟩

/-- The example of the specification: `A→B` (5), `B→C` (3), `A→C` (10). -/
def example_abc : TransportSystem :=
  { stations := [("A", mk_station "A"), ("B", mk_station "B"), ("C", mk_station "C")]
    adjacency_list :=
      [("A", [⟨"B", whole 5, "bus"⟩, ⟨"C", whole 10, "train"⟩]), ("B", [⟨"C", whole 3, "bus"⟩])] }

/-! ## Interactive mutations

The interactive methods read from `cin`. Each prompt that is repeated until
its input is accepted receives the list of the values extracted at that
prompt, in order; a failed numeric extraction is `none`. When the list runs
out before a value is accepted the method never returns, which is the result
`none`. -/

/-- The method `is_valid_id` (lines 33-38). An id that passes consists of
ASCII characters, for which the number of characters is the number of bytes
that `length()` counts. -/
def is_valid_id (id : String) : Bool :=
  if id.data.isEmpty || id.length > 10 then false
  else id.data.all (fun c => c.isAlphanum || c == '_')

/-- The loop that reads the station id (lines 172-186). -/
def read_station_id (ts : TransportSystem) : List String → Option String
  | [] => none
  | id :: rest =>
    if !is_valid_id id then read_station_id ts rest
    else if station_exists ts id then read_station_id ts rest
    else some id

/-- The loop that reads the latitude (lines 193-197). -/
def read_latitude : List (Option Int) → Option Int
  | [] => none
  | none :: rest => read_latitude rest
  | some lat :: rest =>
    if lat < -90 || lat > 90 then read_latitude rest else some lat

/-- The loop that reads the longitude (lines 200-204). -/
def read_longitude : List (Option Int) → Option Int
  | [] => none
  | none :: rest => read_longitude rest
  | some lon :: rest =>
    if lon < -180 || lon > 180 then read_longitude rest else some lon

/-- The method `add_station_interactive` (lines 168-208). -/
def add_station_interactive (ts : TransportSystem) (ids : List String)
    (name : String) (lats lons : List (Option Int)) : Option TransportSystem :=
  match read_station_id ts ids with
  | none => none
  | some id =>
    match read_latitude lats with
    | none => none
    | some lat =>
      match read_longitude lons with
      | none => none
      | some lon =>
        some { ts with stations := UMap.assign ts.stations id ⟨id, name, lat, lon⟩ }

/-- The loops that read the FROM and the TO station id (lines 216-236). -/
def read_existing_id (ts : TransportSystem) : List String → Option String
  | [] => none
  | id :: rest => if !station_exists ts id then read_existing_id ts rest else some id

/-- The loop that reads the weight (lines 242-246). -/
def read_weight : List (Option Int) → Option Int
  | [] => none
  | none :: rest => read_weight rest
  | some weight :: rest => if weight ≤ 0 then read_weight rest else some weight

/-- The statement `adjacency_list[from].push_back(conn)`. -/
def push_connection (adjacency_list : UMap (List Connection)) (from_id : String)
    (conn : Connection) : UMap (List Connection) :=
  let touched := UMap.touch adjacency_list from_id []
  UMap.assign touched from_id (UMap.get touched from_id [] ++ [conn])

/-- The method `add_connection_interactive` (lines 210-250). -/
def add_connection_interactive (ts : TransportSystem) (froms tos : List String)
    (transport : String) (weights : List (Option Int)) : Option TransportSystem :=
  match read_existing_id ts froms with
  | none => none
  | some from_id =>
    match read_existing_id ts tos with
    | none => none
    | some to_id =>
      match read_weight weights with
      | none => none
      | some weight =>
        some { ts with adjacency_list :=
          push_connection ts.adjacency_list from_id ⟨to_id, weight, transport⟩ }

/-- The call `connections.erase(remove_if(..., c.to == id), connections.end())`. -/
def remove_to (id : String) : List Connection → List Connection
  | [] => []
  | c :: rest => if c.to_id = id then remove_to id rest else c :: remove_to id rest

/-- The loop over all adjacency lists of `delete_station_interactive`
(lines 323-329). -/
def remove_to_everywhere (id : String) :
    UMap (List Connection) → UMap (List Connection)
  | [] => []
  | (k, connections) :: rest => (k, remove_to id connections) :: remove_to_everywhere id rest

/-- The method `delete_station_interactive` (lines 304-331): `id` is the
string read at the prompt and `choice` the character read at the
confirmation, when it is asked for. The listing of the stations and the name
looked up for the confirmation, that of an existing station, cannot fail. -/
def delete_station_interactive (ts : TransportSystem) (id : String)
    (choice : Char) : TransportSystem :=
  if id = "cancel" then ts
  else if !station_exists ts id then ts
  else if choice.toLower ≠ 'y' then ts
  else
    { stations := UMap.erase ts.stations id
      adjacency_list := remove_to_everywhere id (UMap.erase ts.adjacency_list id) }

/-- The method `get_station_name` (lines 100-102): `stations.at(id)` throws
for an id that is no station. -/
def get_station_name (ts : TransportSystem) (id : String) : Outcome String :=
  match UMap.find ts.stations id with
  | some station => Outcome.ok station.name
  | none => Outcome.fail Failure.out_of_range

/-- The inner loop of `print_connections` (lines 267-271) over the
connections of `from_id`, without the text it prints: each connection looks
up the name of `from_id` and of its target. -/
def print_connections_of (ts : TransportSystem) (from_id : String) :
    List Connection → Outcome Unit
  | [] => Outcome.ok ()
  | conn :: rest =>
    match get_station_name ts from_id with
    | Outcome.fail why => Outcome.fail why
    | Outcome.ok _ =>
      match get_station_name ts conn.to_id with
      | Outcome.fail why => Outcome.fail why
      | Outcome.ok _ => print_connections_of ts from_id rest

/-- The outer loop of `print_connections` (lines 266-272). -/
def print_connections_loop (ts : TransportSystem) :
    UMap (List Connection) → Outcome Unit
  | [] => Outcome.ok ()
  | (from_id, connections) :: rest =>
    match print_connections_of ts from_id connections with
    | Outcome.fail why => Outcome.fail why
    | Outcome.ok _ => print_connections_loop ts rest

/-- The method `print_connections` (lines 264-273), without the text it
prints. -/
def print_connections (ts : TransportSystem) : Outcome Unit :=
  print_connections_loop ts ts.adjacency_list

/-- Lines 335-354 of `delete_connection_interactive`, after the listing:
the new store and the message printed last. -/
def delete_connection_after_listing (ts : TransportSystem) (from_id to_id : String) :
    TransportSystem × String :=
  if !station_exists ts from_id || !station_exists ts to_id then
    (ts, "Invalid station IDs!\n")
  else
    let touched := UMap.touch ts.adjacency_list from_id []
    let connections := UMap.get touched from_id []
    let before := connections.length
    let remaining := remove_to to_id connections
    ({ ts with adjacency_list := UMap.assign touched from_id remaining },
      if remaining.length < before then "Connection deleted!\n"
      else "No connection found!\n")

/-- The method `delete_connection_interactive` (lines 333-355): it first
lists the connections, then reads the two ids and deletes. -/
def delete_connection_interactive (ts : TransportSystem) (from_id to_id : String) :
    Outcome (TransportSystem × String) :=
  match print_connections ts with
  | Outcome.fail why => Outcome.fail why
  | Outcome.ok _ => Outcome.ok (delete_connection_after_listing ts from_id to_id)

/-! ## Notions of the specification -/

/-- The connections out of `u`: the list `adjacency[u]`, empty when `u` has
no entry. -/
def connections_of (ts : TransportSystem) (u : String) : List Connection :=
  UMap.get ts.adjacency_list u []

/-- A connection of weight `w` from `u` to `v`. -/
def HasConnection (ts : TransportSystem) (u v : String) (w : Int) : Prop :=
  ∃ conn ∈ connections_of ts u, conn.to_id = v ∧ conn.weight = w

/-- Some sequence of connections leads from `s` to `v`, and `c` is its
total weight: the weights of its connections added up in `double`, one after
the other from `s` on, starting from `0.0`. -/
inductive Route (ts : TransportSystem) (s : String) : String → Double → Prop where
  | start : Route ts s s (Double.finite 0)
  | step {u v : String} {c : Double} {w : Int} :
      Route ts s u c → HasConnection ts u v w → Route ts s v (Double.add c w)

/-- The station `e` is reachable from `s` along connections. -/
def Reachable (ts : TransportSystem) (s e : String) : Prop :=
  ∃ c, Route ts s e c

/-- The station `e` is reachable from `s` along a sequence of connections
whose total weight is finite: adding up its weights does not overflow. -/
def FinitelyReachable (ts : TransportSystem) (s e : String) : Prop :=
  ∃ c, Route ts s e c ∧ c ≠ Double.pos_inf

/-- All connection weights are non-negative. -/
def NonNegWeights (ts : TransportSystem) : Prop :=
  ∀ u, ∀ conn ∈ connections_of ts u, 0 ≤ conn.weight

/-- All connections target existing stations. -/
def TargetsExist (ts : TransportSystem) : Prop :=
  ∀ u, ∀ conn ∈ connections_of ts u, station_exists ts conn.to_id = true

/-- The least weight of the connections of a list that lead to `target`. -/
def cheapest (target : String) : List Connection → Option Int
  | [] => none
  | conn :: rest =>
    if conn.to_id = target then
      match cheapest target rest with
      | none => some conn.weight
      | some w => some (min conn.weight w)
    else cheapest target rest

/-- The weight of the cheapest connection of each hop of a sequence of
stations, added to `total` in `double`, one hop after the other (a hop
without connection adds 0). -/
def path_weight_from (ts : TransportSystem) : Double → List String → Double
  | total, [] => total
  | total, [_] => total
  | total, u :: v :: rest =>
    path_weight_from ts (Double.add total ((cheapest v (connections_of ts u)).getD 0))
      (v :: rest)

/-- The total weight of a sequence of stations, taking the cheapest
connection for each hop and adding up in `double` from `0.0`. -/
def path_weight (ts : TransportSystem) (path : List String) : Double :=
  path_weight_from ts (Double.finite 0) path

/-- The store is well-formed: adjacency keys and connection targets are
existing stations and weights are strictly positive. -/
def WellFormed (ts : TransportSystem) : Prop :=
  ∀ kv ∈ ts.adjacency_list, station_exists ts kv.1 = true ∧
    ∀ conn ∈ kv.2, station_exists ts conn.to_id = true ∧ 0 < conn.weight

/-- Every connection of every adjacency list has an existing source and an
existing target. -/
def EndpointsExist (ts : TransportSystem) : Prop :=
  ∀ kv ∈ ts.adjacency_list, ∀ conn ∈ kv.2,
    station_exists ts kv.1 = true ∧ station_exists ts conn.to_id = true

/-- The identifier format of the specification: 1 to 10 characters, each
an ASCII letter, a digit or an underscore. -/
def IdFormat (id : String) : Prop :=
  1 ≤ id.length ∧ id.length ≤ 10 ∧
    ∀ c ∈ id.data, ('a' ≤ c ∧ c ≤ 'z') ∨ ('A' ≤ c ∧ c ≤ 'Z') ∨ ('0' ≤ c ∧ c ≤ '9') ∨ c = '_'

/-- The weight of the first connection, in insertion order, of each
consecutive pair of a path, added to `total` in `double`, one pair after the
other; a pair without connection adds nothing. -/
def first_match_sum_from (ts : TransportSystem) : Double → List String → Double
  | total, [] => total
  | total, [_] => total
  | total, u :: v :: rest =>
    match first_match v (connections_of ts u) with
    | some conn => first_match_sum_from ts (Double.add total conn.weight) (v :: rest)
    | none => first_match_sum_from ts total (v :: rest)

/-- The sum, over the consecutive pairs of a path in order, of the weight of
the first connection of the pair in insertion order, added up in `double`
from `0.0`. -/
def first_match_sum (ts : TransportSystem) (path : List String) : Double :=
  first_match_sum_from ts (Double.finite 0) path

/-- Every consecutive pair of the path has a connection in `adjacency[path[i]]`
whose `to` is `path[i+1]`. -/
def all_matched (ts : TransportSystem) : List String → Bool
  | [] => true
  | [_] => true
  | u :: v :: rest =>
    (first_match v (connections_of ts u)).isSome && all_matched ts (v :: rest)

/-- Every element of the path that has a successor has an adjacency entry. -/
def sources_present (ts : TransportSystem) : List String → Bool
  | [] => true
  | [_] => true
  | u :: v :: rest =>
    (UMap.find ts.adjacency_list u).isSome && sources_present ts (v :: rest)

/-- Two stations and no connection at all. -/
def isolated_pair : TransportSystem :=
  { stations := [("A", mk_station "A"), ("B", mk_station "B")]
    adjacency_list := [] }

/-- A single station whose id is the empty string, as the loader stores it
for a record with an empty first field. -/
def empty_id_store : TransportSystem :=
  { stations := [("", mk_station "")]
    adjacency_list := [] }

/-- Stations `A` and `cancel`, with a connection from the first to the second. -/
def cancel_store : TransportSystem :=
  { stations := [("A", mk_station "A"), ("cancel", mk_station "cancel")]
    adjacency_list := [("A", [⟨"cancel", whole 1, "bus"⟩])] }

/-- A loaded store with the connections `A→B` and `A→X`, where `X` is not a
station. -/
def half_dangling_store : TransportSystem :=
  { stations := [("A", mk_station "A"), ("B", mk_station "B")]
    adjacency_list := [("A", [⟨"B", whole 1, "bus"⟩, ⟨"X", whole 1, "bus"⟩])] }

/-! ## Notions used in the proofs about the search -/

/-- A cost the search can compute from non-negative weights: a finite double
that is not negative, or +∞. -/
def IsCost : Double → Prop
  | Double.finite x => 0 ≤ x ∧ round_nat x.toNat = x.toNat
  | Double.pos_inf => True
  | Double.neg_inf => False

/-- The distance the search has recorded for `v`: the value `distances[v]`. -/
def dist_of (st : SearchState) (v : String) : Double :=
  UMap.get st.distances v (Double.finite 0)

/-- What a distance counts in `inf_count`: 1 when it is +∞. -/
def inf_weight : Double → Nat
  | Double.pos_inf => 1
  | _ => 0

/-- What a distance counts in `fin_sum`: its units when it is finite and
positive. -/
def fin_weight : Double → Nat
  | Double.finite x => x.toNat
  | _ => 0

/-- The number of entries +∞ of a distance map. -/
def inf_count : UMap Double → Nat
  | [] => 0
  | (_, d) :: rest => inf_count rest + inf_weight d

/-- The sum of the finite entries of a distance map, in units, negative
ones counting 0. -/
def fin_sum : UMap Double → Nat
  | [] => 0
  | (_, d) :: rest => fin_sum rest + fin_weight d

/-- The quantity that decreases with every iteration of the search loop, in
the lexicographic order. -/
def rank (st : SearchState) : Nat × Nat × Nat :=
  (inf_count st.distances, fin_sum st.distances, st.pq.length)

/-- The search loop started in `st` ends, with the same result for every
sufficient number of iterations. -/
def Halts (pop : PopPolicy) (ts : TransportSystem) (end_id : String)
    (st : SearchState) : Prop :=
  ∃ (N : Nat) (r : Outcome SearchState), r ≠ Outcome.fail Failure.out_of_fuel ∧
    ∀ fuel, N ≤ fuel → search_loop pop ts end_id fuel st = r

/-- One iteration of the inner loop of the search (lines 129-134). -/
def relax_one (current_cost : Double) (current_id : String) (st : SearchState)
    (conn : Connection) : SearchState :=
  if Double.lt (Double.add current_cost conn.weight)
      (UMap.get (UMap.touch st.distances conn.to_id (Double.finite 0)) conn.to_id
        (Double.finite 0)) then
    { pq := ⟨Double.add current_cost conn.weight, conn.to_id⟩ :: st.pq
      distances := UMap.assign (UMap.touch st.distances conn.to_id (Double.finite 0))
        conn.to_id (Double.add current_cost conn.weight)
      previous := UMap.assign st.previous conn.to_id current_id }
  else
    { st with distances := UMap.touch st.distances conn.to_id (Double.finite 0) }

/-- The sequence `p` leads from `s` to the last station by following the
predecessor map backwards. -/
inductive PrevChain (previous : UMap String) (s : String) : String → List String → Prop where
  | base : PrevChain previous s s [s]
  | step {u v : String} {p : List String} :
      PrevChain previous s u p → UMap.find previous v = some u →
      PrevChain previous s v (p ++ [v])

/-- The invariant of the search, for the set `S` of the stations whose
connections have been relaxed. -/
structure CoreInv (ts : TransportSystem) (s : String) (S : String → Prop)
    (st : SearchState) : Prop where
  start_dist : dist_of st s = Double.finite 0
  start_noprev : UMap.find st.previous s = none
  dist_cost : ∀ v, IsCost (dist_of st v)
  pq_station : ∀ n ∈ st.pq, station_exists ts n.id = true
  pq_dist : ∀ n ∈ st.pq, Double.le (dist_of st n.id) n.cost ∧ n.cost ≠ Double.pos_inf
  realizable : ∀ v, station_exists ts v = true → dist_of st v ≠ Double.pos_inf →
    Route ts s v (dist_of st v)
  live : ∀ v, station_exists ts v = true → dist_of st v ≠ Double.pos_inf → ¬ S v →
    (⟨dist_of st v, v⟩ : QueueNode) ∈ st.pq
  settled_station : ∀ u, S u → station_exists ts u = true
  settled_opt : ∀ u, S u → dist_of st u ≠ Double.pos_inf ∧
    ∀ c, Route ts s u c → Double.le (dist_of st u) c
  settled_le : ∀ u, S u → ∀ n ∈ st.pq, Double.le (dist_of st u) n.cost
  prev_ok : ∀ v u, UMap.find st.previous v = some u →
    S u ∧ station_exists ts v = true ∧
      ∃ w, HasConnection ts u v w ∧ dist_of st v = Double.add (dist_of st u) w
  prev_def : ∀ v, station_exists ts v = true → dist_of st v ≠ Double.pos_inf → v ≠ s →
    ∃ u, UMap.find st.previous v = some u
  chain : ∀ u, S u → ∃ p, PrevChain st.previous s u p ∧ ∀ x ∈ p, S x

/-- Every connection out of a station of `S` has been relaxed, except the
connections `pending` of the station `u0` being processed. -/
def EdgesRelaxed (ts : TransportSystem) (S : String → Prop) (st : SearchState)
    (u0 : String) (pending : List Connection) : Prop :=
  ∀ x, S x → ∀ conn ∈ connections_of ts x, (x = u0 ∧ conn ∈ pending) ∨
    Double.le (dist_of st conn.to_id) (Double.add (dist_of st x) conn.weight)

/-- A sequence of stations from `s` with a connection for each hop, of
total weight `c`, added up in `double` from `s` on. -/
inductive Trail (ts : TransportSystem) (s : String) : String → List String → Double → Prop where
  | base : Trail ts s s [s] (Double.finite 0)
  | step {u v : String} {p : List String} {c : Double} {w : Int} :
      Trail ts s u p c → HasConnection ts u v w → Trail ts s v (p ++ [v]) (Double.add c w)

/-- What the search has established when its loop ends: the distance of
`e` is least, and the predecessor map leads from `e` back to `s` along
connections that add up to the recorded distances. -/
def SearchDone (ts : TransportSystem) (s e : String) (st : SearchState) : Prop :=
  ∃ p, (∀ c, Route ts s e c → Double.le (dist_of st e) c) ∧
    PrevChain st.previous s e p ∧ UMap.find st.previous s = none ∧
    dist_of st s = Double.finite 0 ∧
    ∀ v u, UMap.find st.previous v = some u → station_exists ts v = true ∧
      ∃ w, HasConnection ts u v w ∧ dist_of st v = Double.add (dist_of st u) w

/-- In every adjacency list the first connection to a station is a cheapest
one to that station. -/
def FirstIsCheapest (ts : TransportSystem) : Prop :=
  ∀ u v conn, first_match v (connections_of ts u) = some conn →
    ∀ conn' ∈ connections_of ts u, conn'.to_id = v → conn.weight ≤ conn'.weight

/-- Two connections from `A` to `B`, the dearer one first. -/
def parallel_store : TransportSystem :=
  { stations := [("A", mk_station "A"), ("B", mk_station "B")]
    adjacency_list := [("A", [⟨"B", whole 5, "bus"⟩, ⟨"B", whole 3, "train"⟩])] }

/-- A loaded store whose first station has the empty id, with a connection
from it to `B`. -/
def empty_start_store : TransportSystem :=
  { stations := [("", mk_station ""), ("B", mk_station "B")]
    adjacency_list := [("", [⟨"B", whole 1, "bus"⟩])] }

/-- The double `2 ^ 1023`, in units. -/
def two_pow_1023 : Int := (((2 ^ 256) ^ 8 * 2 ^ 49 : Nat) : Int)

/-- The connections `A→B` and `B→C`, both of weight `2 ^ 1023`: their sum is
no finite double. -/
def overflow_store : TransportSystem :=
  { stations := [("A", mk_station "A"), ("B", mk_station "B"), ("C", mk_station "C")]
    adjacency_list :=
      [("A", [⟨"B", two_pow_1023, "bus"⟩]), ("B", [⟨"C", two_pow_1023, "bus"⟩])] }

/-- The connections `A→B` of weight 9007199254740994, `B→C` of weight 1 and
`A→C` of weight 9007199254740996. -/
def rounding_store : TransportSystem :=
  { stations := [("A", mk_station "A"), ("B", mk_station "B"), ("C", mk_station "C")]
    adjacency_list :=
      [("A", [⟨"B", whole (2 ^ 53 + 2), "bus"⟩, ⟨"C", whole (2 ^ 53 + 4), "train"⟩]),
        ("B", [⟨"C", whole 1, "bus"⟩])] }

/-! ## Maps -/

theorem UMap.find_assign {V : Type} (m : UMap V) (k k' : String) (v : V) :
    UMap.find (UMap.assign m k v) k' = if k = k' then some v else UMap.find m k' := by
  induction m with
  | nil => simp [UMap.assign, UMap.find]
  | cons kv rest ih =>
    obtain ⟨k0, v0⟩ := kv
    simp only [UMap.assign]
    by_cases h0 : k0 = k
    · simp only [h0, if_true, UMap.find]
      by_cases h : k = k' <;> simp [h]
    · simp only [h0, if_false, UMap.find, ih]
      by_cases h1 : k0 = k'
      · have : k ≠ k' := fun h => h0 (h1.trans h.symm)
        simp [h1, this]
      · simp [h1]

theorem UMap.get_assign {V : Type} (m : UMap V) (k k' : String) (v dflt : V) :
    UMap.get (UMap.assign m k v) k' dflt = if k = k' then v else UMap.get m k' dflt := by
  unfold UMap.get
  rw [UMap.find_assign]
  by_cases h : k = k' <;> simp [h]

theorem UMap.get_touch {V : Type} (m : UMap V) (k k' : String) (dflt : V) :
    UMap.get (UMap.touch m k dflt) k' dflt = UMap.get m k' dflt := by
  unfold UMap.touch
  cases hf : UMap.find m k with
  | some x => rfl
  | none =>
    simp only [UMap.get_assign]
    by_cases h : k = k'
    · subst h
      simp [UMap.get, hf]
    · simp [h]

theorem UMap.find_touch_self {V : Type} (m : UMap V) (k : String) (dflt : V) :
    UMap.find (UMap.touch m k dflt) k = some (UMap.get m k dflt) := by
  unfold UMap.touch UMap.get
  cases hf : UMap.find m k with
  | some x => simp [hf]
  | none => simp [UMap.find_assign]

theorem UMap.find_touch_other {V : Type} (m : UMap V) (k k' : String) (dflt : V)
    (h : k ≠ k') : UMap.find (UMap.touch m k dflt) k' = UMap.find m k' := by
  unfold UMap.touch
  cases hf : UMap.find m k with
  | some x => rfl
  | none => simp [UMap.find_assign, h]

theorem UMap.find_erase {V : Type} (m : UMap V) (k k' : String) :
    UMap.find (UMap.erase m k) k' = if k = k' then none else UMap.find m k' := by
  induction m with
  | nil => simp [UMap.erase, UMap.find]
  | cons kv rest ih =>
    obtain ⟨k0, v0⟩ := kv
    simp only [UMap.erase]
    by_cases h0 : k0 = k
    · simp only [h0, if_true, UMap.find, ih]
      by_cases h : k = k' <;> simp [h]
    · simp only [h0, if_false, UMap.find, ih]
      by_cases h1 : k0 = k'
      · have : k ≠ k' := fun h => h0 (h1.trans h.symm)
        simp [h1, this]
      · simp [h1]

theorem UMap.mem_of_find {V : Type} (m : UMap V) (k : String) (v : V)
    (h : UMap.find m k = some v) : (k, v) ∈ m := by
  induction m with
  | nil => simp [UMap.find] at h
  | cons kv rest ih =>
    obtain ⟨k0, v0⟩ := kv
    by_cases h0 : k0 = k
    · subst h0
      simp [UMap.find] at h
      simp [h]
    · simp [UMap.find, h0] at h
      exact List.mem_cons_of_mem _ (ih h)

theorem UMap.find_isSome_of_mem {V : Type} (m : UMap V) (k : String) (v : V)
    (h : (k, v) ∈ m) : (UMap.find m k).isSome = true := by
  induction m with
  | nil => simp at h
  | cons kv rest ih =>
    obtain ⟨k0, v0⟩ := kv
    by_cases h0 : k0 = k
    · simp [UMap.find, h0]
    · simp only [List.mem_cons, Prod.mk.injEq] at h
      rcases h with h | h
      · exact absurd h.1.symm h0
      · simp [UMap.find, h0, ih h]
/-! ## Rounding and the order of doubles -/

theorem ulp_loop_spec : ∀ (fuel n : Nat), n ≤ fuel →
    ∃ e, ulp_loop fuel n = 2 ^ e ∧ n < 2 ^ (53 + e) ∧ (e = 0 ∨ 2 ^ (52 + e) ≤ n) := by
  intro fuel
  induction fuel with
  | zero =>
    intro n h
    have h0 : n = 0 := by omega
    subst h0
    exact ⟨0, rfl, by norm_num, Or.inl rfl⟩
  | succ fuel ih =>
    intro n h
    by_cases hlt : n < 2 ^ 53
    · exact ⟨0, by simp only [ulp_loop, if_pos hlt, pow_zero], hlt, Or.inl rfl⟩
    · by_cases hsmall : n / 2 ^ 64 < 2 ^ 52
      · obtain ⟨e, he, h1, h2⟩ := ih (n / 2) (by omega)
        have e1 : 2 ^ (53 + (e + 1)) = 2 * 2 ^ (53 + e) := by ring
        have e2 : 2 ^ (52 + (e + 1)) = 2 * 2 ^ (52 + e) := by ring
        refine ⟨e + 1, ?_, ?_, Or.inr ?_⟩
        · simp only [ulp_loop, if_neg hlt, if_pos hsmall, he]
          ring
        · rw [e1]
          omega
        · rw [e2]
          rcases h2 with h2 | h2
          · subst h2
            simp only [Nat.add_zero]
            omega
          · omega
      · obtain ⟨e, he, h1, h2⟩ := ih (n / 2 ^ 64) (by omega)
        have e1 : 2 ^ (53 + (e + 64)) = 2 ^ 64 * 2 ^ (53 + e) := by ring
        have e2 : 2 ^ (52 + (e + 64)) = 2 ^ 64 * 2 ^ (52 + e) := by ring
        have h3 : 2 ^ (52 + e) ≤ n / 2 ^ 64 := by
          rcases h2 with h2 | h2
          · subst h2
            simp only [Nat.add_zero]
            omega
          · exact h2
        refine ⟨e + 64, ?_, ?_, Or.inr ?_⟩
        · simp only [ulp_loop, if_neg hlt, if_neg hsmall, he]
          ring
        · rw [e1]
          omega
        · rw [e2]
          omega

/-- The spacing around `n` is the power of two that leaves `n` 53 bits. -/
theorem ulp_spec (n : Nat) :
    ∃ e, ulp n = 2 ^ e ∧ n < 2 ^ (53 + e) ∧ (e = 0 ∨ 2 ^ (52 + e) ≤ n) :=
  ulp_loop_spec n n (le_refl n)

theorem round_to_bounds (u n : Nat) :
    n / u * u ≤ round_to u n ∧ round_to u n ≤ (n / u + 1) * u := by
  have e1 : (n / u + 1) * u = n / u * u + u := by ring
  unfold round_to
  split_ifs <;> omega

theorem round_to_mono (u n m : Nat) (hu : 0 < u) (h : n ≤ m) :
    round_to u n ≤ round_to u m := by
  have hq : n / u ≤ m / u := Nat.div_le_div_right h
  rcases Nat.lt_or_ge (n / u) (m / u) with hlt | hge
  · have h1 := (round_to_bounds u n).2
    have h2 := (round_to_bounds u m).1
    have h3 : (n / u + 1) * u ≤ m / u * u := Nat.mul_le_mul_right u hlt
    omega
  · have heq : n / u = m / u := le_antisymm hq hge
    have hn := Nat.div_add_mod n u
    have hm := Nat.div_add_mod m u
    have hr : n % u ≤ m % u := by
      rw [heq] at hn
      omega
    have e1 : (m / u + 1) * u = m / u * u + u := by ring
    unfold round_to
    rw [heq]
    split_ifs <;> omega

theorem round_to_dvd (u n : Nat) (hu : 0 < u) (h : u ∣ n) : round_to u n = n := by
  have hr : n % u = 0 := Nat.mod_eq_zero_of_dvd h
  unfold round_to
  rw [hr, if_pos (by omega)]
  exact Nat.div_mul_cancel h

theorem ulp_pos (n : Nat) : 0 < ulp n := by
  obtain ⟨e, he, _, _⟩ := ulp_spec n
  rw [he]
  exact Nat.pos_pow_of_pos e (by norm_num)

/-- A magnitude of at most 53 significant bits is left as it is. -/
theorem round_nat_of_form (k e : Nat) (hk : k ≤ 2 ^ 53) :
    round_nat (k * 2 ^ e) = k * 2 ^ e := by
  obtain ⟨a, ha, h1, h2⟩ := ulp_spec (k * 2 ^ e)
  unfold round_nat
  apply round_to_dvd _ _ (ulp_pos _)
  rw [ha]
  rcases Nat.lt_or_ge e a with hlt | hge
  · have ha0 : a ≠ 0 := by omega
    have h3 : 2 ^ (52 + a) ≤ k * 2 ^ e := by
      rcases h2 with h2 | h2
      · exact absurd h2 ha0
      · exact h2
    have h4 : k * 2 ^ e ≤ 2 ^ 53 * 2 ^ e := Nat.mul_le_mul_right _ hk
    have h5 : (2 : Nat) ^ 53 * 2 ^ e = 2 ^ (53 + e) := by rw [pow_add]
    have h6 : (2 : Nat) ^ (52 + a) ≤ 2 ^ (53 + e) := by omega
    have h7 : 52 + a ≤ 53 + e := (Nat.pow_le_pow_iff_right (by norm_num)).1 h6
    have hae : a = e + 1 := by omega
    subst hae
    have h8 : (2 : Nat) ^ (52 + (e + 1)) = 2 ^ 53 * 2 ^ e := by
      rw [← pow_add]
      congr 1
      omega
    have h9 : k * 2 ^ e = 2 ^ 53 * 2 ^ e := by omega
    rw [h9, ← pow_add]
    exact pow_dvd_pow 2 (by omega)
  · exact Dvd.dvd.mul_left (pow_dvd_pow 2 hge) k

/-- The rounded magnitude has at most 53 significant bits. -/
theorem round_nat_form (n : Nat) : ∃ k e, round_nat n = k * 2 ^ e ∧ k ≤ 2 ^ 53 := by
  obtain ⟨a, ha, h1, _⟩ := ulp_spec n
  have hq : n / 2 ^ a < 2 ^ 53 := by
    rw [Nat.div_lt_iff_lt_mul (Nat.pos_pow_of_pos a (by norm_num)), ← pow_add]
    exact h1
  unfold round_nat round_to
  rw [ha]
  split_ifs
  · exact ⟨n / 2 ^ a, a, rfl, le_of_lt hq⟩
  · exact ⟨n / 2 ^ a + 1, a, rfl, hq⟩
  · exact ⟨n / 2 ^ a, a, rfl, le_of_lt hq⟩
  · exact ⟨n / 2 ^ a + 1, a, rfl, hq⟩

/-- Rounding a rounded magnitude changes nothing. -/
theorem round_nat_idem (n : Nat) : round_nat (round_nat n) = round_nat n := by
  obtain ⟨k, e, h, hk⟩ := round_nat_form n
  rw [h]
  exact round_nat_of_form k e hk

/-- Rounding keeps the order of magnitudes. -/
theorem round_nat_mono (n m : Nat) (h : n ≤ m) : round_nat n ≤ round_nat m := by
  obtain ⟨a, ha, a1, a2⟩ := ulp_spec n
  obtain ⟨b, hb, b1, b2⟩ := ulp_spec m
  have hab : a ≤ b := by
    by_contra hcon
    have hlt : b < a := by omega
    have ha0 : a ≠ 0 := by omega
    have h3 : 2 ^ (52 + a) ≤ n := by
      rcases a2 with a2 | a2
      · exact absurd a2 ha0
      · exact a2
    have h4 : (2 : Nat) ^ (53 + b) ≤ 2 ^ (52 + a) :=
      Nat.pow_le_pow_right (by norm_num) (by omega)
    omega
  unfold round_nat
  rcases Nat.eq_or_lt_of_le hab with heq | hlt
  · rw [hb, ← heq, ← ha]
    exact round_to_mono _ _ _ (ulp_pos n) h
  · have hb0 : b ≠ 0 := by omega
    have h3 : 2 ^ (52 + b) ≤ m := by
      rcases b2 with b2 | b2
      · exact absurd b2 hb0
      · exact b2
    have h1 := (round_to_bounds (ulp n) n).2
    have h2 := (round_to_bounds (ulp m) m).1
    rw [ha] at h1
    rw [hb] at h2
    have hq : n / 2 ^ a + 1 ≤ 2 ^ 53 := by
      have : n / 2 ^ a < 2 ^ 53 := by
        rw [Nat.div_lt_iff_lt_mul (Nat.pos_pow_of_pos a (by norm_num)), ← pow_add]
        exact a1
      omega
    have h5 : (n / 2 ^ a + 1) * 2 ^ a ≤ 2 ^ 53 * 2 ^ a := Nat.mul_le_mul_right _ hq
    have h6 : (2 : Nat) ^ 53 * 2 ^ a = 2 ^ (53 + a) := by rw [pow_add]
    have h7 : (2 : Nat) ^ (53 + a) ≤ 2 ^ (52 + b) :=
      Nat.pow_le_pow_right (by norm_num) (by omega)
    have hq2 : 2 ^ 52 ≤ m / 2 ^ b := by
      rw [Nat.le_div_iff_mul_le (Nat.pos_pow_of_pos b (by norm_num)), ← pow_add]
      exact h3
    have h8 : 2 ^ 52 * 2 ^ b ≤ m / 2 ^ b * 2 ^ b := Nat.mul_le_mul_right _ hq2
    have h9 : (2 : Nat) ^ 52 * 2 ^ b = 2 ^ (52 + b) := by rw [pow_add]
    rw [ha, hb]
    omega

theorem Double.le_refl (a : Double) : Double.le a a := by
  cases a <;> simp [Double.le, Double.lt]

theorem Double.le_trans {a b c : Double} (h1 : Double.le a b) (h2 : Double.le b c) :
    Double.le a c := by
  cases a <;> cases b <;> cases c <;> simp [Double.le, Double.lt] at *
  all_goals omega

theorem Double.le_antisymm {a b : Double} (h1 : Double.le a b) (h2 : Double.le b a) :
    a = b := by
  cases a <;> cases b <;> simp [Double.le, Double.lt] at *
  all_goals omega

theorem Double.le_of_lt {a b : Double} (h : Double.lt a b = true) : Double.le a b := by
  cases a <;> cases b <;> simp [Double.le, Double.lt] at *
  all_goals omega

theorem Double.lt_of_lt_of_le {a b c : Double} (h1 : Double.lt a b = true)
    (h2 : Double.le b c) : Double.lt a c = true := by
  cases a <;> cases b <;> cases c <;> simp [Double.le, Double.lt] at *
  all_goals omega

theorem Double.lt_of_le_of_lt {a b c : Double} (h1 : Double.le a b)
    (h2 : Double.lt b c = true) : Double.lt a c = true := by
  cases a <;> cases b <;> cases c <;> simp [Double.le, Double.lt] at *
  all_goals omega

theorem Double.lt_irrefl (a : Double) : Double.lt a a = false :=
  Double.le_refl a

theorem Double.le_pos_inf (a : Double) : Double.le a Double.pos_inf := by
  cases a <;> simp [Double.le, Double.lt]

theorem Double.pos_inf_le {a : Double} (h : Double.le Double.pos_inf a) :
    a = Double.pos_inf := by
  cases a <;> simp [Double.le, Double.lt] at *

theorem Double.ne_pos_inf_of_lt {a b : Double} (h : Double.lt a b = true) :
    a ≠ Double.pos_inf := by
  cases a <;> cases b <;> simp [Double.lt] at *

theorem Double.ne_pos_inf_of_le {a b : Double} (h : Double.le a b)
    (hb : b ≠ Double.pos_inf) : a ≠ Double.pos_inf := by
  intro ha
  subst ha
  exact hb (Double.pos_inf_le h)

theorem Double.add_pos_inf (w : Int) : Double.add Double.pos_inf w = Double.pos_inf :=
  rfl

/-- Rounding keeps the order. -/
theorem Double.round_mono (x y : Int) (h : x ≤ y) :
    Double.le (Double.round x) (Double.round y) := by
  unfold Double.round
  by_cases hx : 0 ≤ x
  · have hy : 0 ≤ y := by omega
    have hm := round_nat_mono x.toNat y.toNat (by omega)
    rw [if_pos hx, if_pos hy]
    split_ifs <;> simp [Double.le, Double.lt]
    all_goals omega
  · by_cases hy : 0 ≤ y
    · rw [if_neg hx, if_pos hy]
      split_ifs <;> simp [Double.le, Double.lt]
      all_goals omega
    · have hm := round_nat_mono (-y).toNat (-x).toNat (by omega)
      rw [if_neg hx, if_neg hy]
      split_ifs <;> simp [Double.le, Double.lt]
      all_goals omega

/-- The sum is monotone in the cost. -/
theorem Double.add_mono_left {a b : Double} (w : Int) (h : Double.le a b) :
    Double.le (Double.add a w) (Double.add b w) := by
  cases a with
  | finite x =>
    cases b with
    | finite y =>
      apply Double.round_mono
      simp [Double.le, Double.lt] at h
      omega
    | pos_inf => exact Double.le_pos_inf _
    | neg_inf => simp [Double.le, Double.lt] at h
  | pos_inf =>
    cases b with
    | finite y => simp [Double.le, Double.lt] at h
    | pos_inf => exact Double.le_refl _
    | neg_inf => simp [Double.le, Double.lt] at h
  | neg_inf =>
    cases b with
    | finite y =>
      simp only [Double.add, Double.round]
      split_ifs <;> simp [Double.le, Double.lt]
    | pos_inf => simp [Double.le, Double.lt, Double.add]
    | neg_inf => exact Double.le_refl _

/-- The sum is monotone in the weight. -/
theorem Double.add_mono_right (a : Double) {w w' : Int} (h : w ≤ w') :
    Double.le (Double.add a w) (Double.add a w') := by
  cases a with
  | finite x => exact Double.round_mono _ _ (by omega)
  | pos_inf => exact Double.le_refl _
  | neg_inf => exact Double.le_refl _

theorem is_cost_zero : IsCost (Double.finite 0) := by
  have h := round_nat_of_form 0 0 (by norm_num)
  simp only [Nat.zero_mul] at h
  exact ⟨le_refl _, h⟩

theorem IsCost.zero_le {c : Double} (h : IsCost c) : Double.le (Double.finite 0) c := by
  cases c with
  | finite x =>
    obtain ⟨h0, _⟩ := h
    simp [Double.le, Double.lt]
    exact h0
  | pos_inf => exact Double.le_pos_inf _
  | neg_inf => exact absurd h id

/-- Adding a non-negative weight to a cost gives a cost. -/
theorem IsCost.add {c : Double} (h : IsCost c) {w : Int} (hw : 0 ≤ w) :
    IsCost (Double.add c w) := by
  cases c with
  | finite x =>
    obtain ⟨h0, _⟩ := h
    have hs : 0 ≤ x + w := by omega
    simp only [Double.add, Double.round, if_pos hs]
    split_ifs
    · refine ⟨Int.natCast_nonneg _, ?_⟩
      simp only [Int.toNat_ofNat]
      exact round_nat_idem _
    · exact trivial
  | pos_inf => exact trivial
  | neg_inf => exact absurd h id

/-- Adding a non-negative weight to a cost does not lower it. -/
theorem IsCost.le_add {c : Double} (h : IsCost c) {w : Int} (hw : 0 ≤ w) :
    Double.le c (Double.add c w) := by
  cases c with
  | finite x =>
    obtain ⟨h0, hr⟩ := h
    have hs : 0 ≤ x + w := by omega
    have hm := round_nat_mono x.toNat (x + w).toNat (by omega)
    simp only [Double.add, Double.round, if_pos hs]
    split_ifs
    · simp [Double.le, Double.lt]
      omega
    · exact Double.le_pos_inf _
  | pos_inf => exact Double.le_refl _
  | neg_inf => exact absurd h id

/-- The double of an integer of at most 53 bits is left as it is by the
rounding. -/
theorem round_nat_whole (k : Nat) (hk : k ≤ 2 ^ 53) :
    round_nat (whole k).toNat = (whole k).toNat := by
  have hN : ((2 ^ 256) ^ 4 * 2 ^ 50 : Nat) = 2 ^ 1074 := by
    rw [← pow_mul, ← pow_add]
  have e : (whole k).toNat = k * 2 ^ 1074 := by
    unfold whole
    rw [hN, ← Nat.cast_mul, Int.toNat_ofNat]
  rw [e]
  exact round_nat_of_form k 1074 hk

/-- The rounding on examples: ties go to the even neighbour, the sum of the
largest double and half the spacing below it overflows, and a smaller
addend leaves the largest double as it is. -/
theorem round_examples :
    round_nat (2 ^ 53 - 1) = 2 ^ 53 - 1 ∧ round_nat (2 ^ 53 + 1) = 2 ^ 53 ∧
    round_nat (2 ^ 53 + 3) = 2 ^ 53 + 4 ∧ round_nat (2 ^ 54 + 2) = 2 ^ 54 ∧
    round_nat (2 ^ 54 + 5) = 2 ^ 54 + 4 ∧ round_nat (2 ^ 54 + 6) = 2 ^ 54 + 8 ∧
    Double.round (-(2 ^ 53 + 3)) = Double.finite (-(2 ^ 53 + 4)) ∧
    Double.add (Double.finite (whole 5)) (whole (-8)) = Double.finite (whole (-3)) ∧
    Double.add (Double.finite (((2 ^ 53 - 1) * ((2 ^ 256) ^ 7 * 2 ^ 253) : Nat) : Int))
      ((((2 ^ 256) ^ 7 * 2 ^ 252 : Nat) : Int)) = Double.pos_inf ∧
    Double.add (Double.finite (((2 ^ 53 - 1) * ((2 ^ 256) ^ 7 * 2 ^ 253) : Nat) : Int))
      ((((2 ^ 256) ^ 7 * 2 ^ 251 : Nat) : Int))
      = Double.finite (((2 ^ 53 - 1) * ((2 ^ 256) ^ 7 * 2 ^ 253) : Nat) : Int) := by
  decide

/-! ## `calculate_path_cost` -/

theorem cost_loop_present (ts : TransportSystem) :
    ∀ (rest : List String) (cur : String) (total : Double),
      sources_present ts (cur :: rest) = true →
      cost_loop ts cur rest total
        = Outcome.ok (first_match_sum_from ts total (cur :: rest)) := by
  intro rest
  induction rest with
  | nil =>
    intro cur total _
    simp [cost_loop, first_match_sum_from]
  | cons next rest ih =>
    intro cur total h
    simp only [sources_present, Bool.and_eq_true] at h
    obtain ⟨h1, h2⟩ := h
    cases hf : UMap.find ts.adjacency_list cur with
    | none => simp [hf] at h1
    | some conns =>
      have hc : connections_of ts cur = conns := by simp [connections_of, UMap.get, hf]
      simp only [cost_loop, hf, first_match_sum_from, hc]
      cases first_match next conns with
      | none => exact ih next total h2
      | some conn => exact ih next (Double.add total conn.weight) h2

theorem cost_loop_absent (ts : TransportSystem) :
    ∀ (rest : List String) (cur : String) (total : Double),
      sources_present ts (cur :: rest) = false →
      cost_loop ts cur rest total = Outcome.fail Failure.out_of_range := by
  intro rest
  induction rest with
  | nil =>
    intro cur total h
    simp [sources_present] at h
  | cons next rest ih =>
    intro cur total h
    cases hf : UMap.find ts.adjacency_list cur with
    | none => simp [cost_loop, hf]
    | some conns =>
      have h2 : sources_present ts (next :: rest) = false := by
        simpa [sources_present, hf] using h
      simp only [cost_loop, hf]
      cases first_match next conns with
      | none => simpa using ih next total h2
      | some conn => simpa using ih next (Double.add total conn.weight) h2

theorem sources_present_of_all_matched (ts : TransportSystem) :
    ∀ path : List String, all_matched ts path = true → sources_present ts path = true := by
  intro path
  induction path with
  | nil => intro _; rfl
  | cons u rest ih =>
    cases rest with
    | nil => intro _; rfl
    | cons v rest =>
      intro h
      simp only [all_matched, Bool.and_eq_true] at h
      simp only [sources_present, Bool.and_eq_true]
      refine ⟨?_, ih h.2⟩
      cases hf : UMap.find ts.adjacency_list u with
      | some conns => rfl
      | none =>
        have : connections_of ts u = [] := by simp [connections_of, UMap.get, hf]
        rw [this] at h
        simp [first_match] at h

/-- C8 (as amended): on a non-empty path `calculate_path_cost` returns the
sum of the weights of the first matching connections, added up in `double`
from `0.0` in the order of the path, when every consecutive pair has one;
more generally it returns that sum, a pair without matching connection
adding nothing, whenever every element with a successor has an adjacency
entry, and it fails with `out_of_range` exactly when some element with a
successor has no adjacency entry. -/
theorem calculate_path_cost_first_matches (ts : TransportSystem) (path : List String)
    (hne : path ≠ []) :
    (all_matched ts path = true →
      calculate_path_cost ts path = Outcome.ok (first_match_sum ts path)) ∧
    (sources_present ts path = true →
      calculate_path_cost ts path = Outcome.ok (first_match_sum ts path)) ∧
    (sources_present ts path = false →
      calculate_path_cost ts path = Outcome.fail Failure.out_of_range) := by
  cases path with
  | nil => exact absurd rfl hne
  | cons first rest =>
    have hp : sources_present ts (first :: rest) = true →
        calculate_path_cost ts (first :: rest)
          = Outcome.ok (first_match_sum ts (first :: rest)) := by
      intro h
      simp [calculate_path_cost, cost_loop_present ts rest first _ h, first_match_sum]
    refine ⟨fun h => hp (sources_present_of_all_matched ts _ h), hp, ?_⟩
    intro h
    simp [calculate_path_cost, cost_loop_absent ts rest first _ h]

/-- Witness of C8: the path `A, B, C` of the example store costs 5 + 3. -/
theorem calculate_path_cost_first_matches_witness :
    (["A", "B", "C"] : List String) ≠ [] ∧
    all_matched example_abc ["A", "B", "C"] = true ∧
    first_match_sum example_abc ["A", "B", "C"] = Double.finite (whole 8) ∧
    calculate_path_cost example_abc ["A", "B", "C"]
      = Outcome.ok (first_match_sum example_abc ["A", "B", "C"]) :=
  ⟨by decide, by decide, by decide,
    (calculate_path_cost_first_matches example_abc ["A", "B", "C"] (by decide)).1 (by decide)⟩

/-- C8 (as stated) fails: the pair `B, A` has no connection in the example
store, and the call returns the partial sum 5 instead of failing. -/
theorem calculate_path_cost_silent_partial_sum :
    first_match "A" (connections_of example_abc "B") = none ∧
    all_matched example_abc ["A", "B", "A"] = false ∧
    calculate_path_cost example_abc ["A", "B", "A"]
      = Outcome.ok (Double.finite (whole 5)) := by
  decide

/-! ## Trivial and failing queries -/

theorem LawfulPop.pop_singleton {pop : PopPolicy} (h : LawfulPop pop) (n : QueueNode) :
    pop [n] = some (n, []) := by
  obtain ⟨m, rest, hp, hperm, _⟩ := h.nonempty [n] (by simp)
  have hl := hperm.length_eq
  simp at hl
  subst hl
  have : n ∈ [m] := hperm.subset (by simp)
  simp at this
  subst this
  exact hp

/-- C4 (as amended): for every station id `s` other than the empty string,
`find_shortest_path(s, s)` returns exactly `[s]`, and `calculate_path_cost`
of that sequence is `0.0`. -/
theorem find_shortest_path_same (pop : PopPolicy) (hpop : LawfulPop pop)
    (ts : TransportSystem) (s : String) (fuel : Nat) (hs : s ≠ "") :
    find_shortest_path pop (fuel + 1) ts s s = Outcome.ok [s] ∧
    calculate_path_cost ts [s] = Outcome.ok (Double.finite 0) := by
  constructor
  · simp [find_shortest_path, search_loop, init_state, hpop.pop_singleton, walk_back,
      UMap.find, hs]
  · rfl

theorem pop_first_min_singleton (n : QueueNode) : pop_first_min [n] = some (n, []) := by
  simp [pop_first_min, first_min]

theorem first_min_mem : ∀ (q : List QueueNode) (n : QueueNode), first_min n q ∈ n :: q := by
  intro q
  induction q with
  | nil => intro n; simp [first_min]
  | cons m q ih =>
    intro n
    simp only [first_min]
    split
    · have := ih m
      simp only [List.mem_cons] at this ⊢
      tauto
    · have := ih n
      simp only [List.mem_cons] at this ⊢
      tauto

theorem first_min_le : ∀ (q : List QueueNode) (n : QueueNode),
    ∀ m ∈ n :: q, Double.le (first_min n q).cost m.cost := by
  intro q
  induction q with
  | nil =>
    intro n m hm
    simp at hm
    simp only [first_min, hm]
    exact Double.le_refl _
  | cons k q ih =>
    intro n m hm
    simp only [first_min]
    split
    next hlt =>
      have h1 := ih k
      simp only [List.mem_cons] at hm
      rcases hm with hm | hm | hm
      · subst hm
        exact Double.le_trans (h1 k (by simp)) (Double.le_of_lt hlt)
      · subst hm
        exact h1 m (by simp)
      · exact h1 m (by simp [hm])
    next hge =>
      have h1 := ih n
      have hnk : Double.le n.cost k.cost := by
        simpa [Double.le] using hge
      simp only [List.mem_cons] at hm
      rcases hm with hm | hm | hm
      · subst hm
        exact h1 m (by simp)
      · subst hm
        exact Double.le_trans (h1 n (by simp)) hnk
      · exact h1 m (by simp [hm])

theorem pop_first_min_lawful : LawfulPop pop_first_min := by
  constructor
  · rfl
  · intro q hq
    cases q with
    | nil => exact absurd rfl hq
    | cons n q =>
      refine ⟨first_min n q, (n :: q).erase (first_min n q), rfl, ?_, first_min_le q n⟩
      exact List.perm_cons_erase (first_min_mem q n)

/-- Witness of C4: the query from `A` to `A` in the example store. -/
theorem find_shortest_path_same_witness :
    LawfulPop pop_first_min ∧ ("A" : String) ≠ "" ∧
    find_shortest_path pop_first_min 1 example_abc "A" "A" = Outcome.ok ["A"] ∧
    calculate_path_cost example_abc ["A"] = Outcome.ok (Double.finite 0) :=
  ⟨pop_first_min_lawful, by decide,
    find_shortest_path_same pop_first_min pop_first_min_lawful example_abc "A" 0 (by decide)⟩

/-- C4 (as stated) fails: the store holds a station whose id is the empty
string, and the query from it to itself returns the empty sequence. -/
theorem find_shortest_path_empty_id :
    station_exists empty_id_store "" = true ∧
    find_shortest_path pop_first_min 10 empty_id_store "" "" = Outcome.ok [] := by
  decide

theorem route_no_connection (ts : TransportSystem) (s : String)
    (h : ∀ u, connections_of ts u = []) : ∀ v c, Route ts s v c → v = s := by
  intro v c hr
  induction hr with
  | start => rfl
  | step _ hc _ =>
    obtain ⟨conn, hmem, _⟩ := hc
    rw [h] at hmem
    simp at hmem

/-- C3 at its failing input: `A` and `B` are stations of a store without
connections, `B` is not reachable from `A`, and the query ends with the
`out_of_range` failure of `adjacency_list.at("A")`, whatever the number of
iterations allowed. -/
theorem find_shortest_path_absent_entry_fails :
    station_exists isolated_pair "A" = true ∧ station_exists isolated_pair "B" = true ∧
    NonNegWeights isolated_pair ∧ ¬ Reachable isolated_pair "A" "B" ∧
    ∀ fuel, find_shortest_path pop_first_min (fuel + 1) isolated_pair "A" "B"
      = Outcome.fail Failure.out_of_range := by
  have hnone : ∀ u, connections_of isolated_pair u = [] := fun u => rfl
  refine ⟨by decide, by decide, ?_, ?_, ?_⟩
  · intro u conn hmem
    rw [hnone] at hmem
    simp at hmem
  · rintro ⟨c, hr⟩
    have := route_no_connection isolated_pair "A" hnone _ _ hr
    exact absurd this (by decide)
  · intro fuel
    simp [find_shortest_path, search_loop, init_state, pop_first_min_singleton,
      isolated_pair, UMap.find, UMap.touch, UMap.get, UMap.assign, init_distances,
      Double.lt]


/-! ## Deleting stations and connections -/

theorem remove_to_eq_filter (id : String) (l : List Connection) :
    remove_to id l = l.filter (fun c => decide (c.to_id ≠ id)) := by
  induction l with
  | nil => rfl
  | cons c rest ih =>
    by_cases h : c.to_id = id <;> simp [remove_to, List.filter, h, ih]

theorem mem_remove_to (id : String) (l : List Connection) (c : Connection) :
    c ∈ remove_to id l ↔ c ∈ l ∧ c.to_id ≠ id := by
  rw [remove_to_eq_filter]
  simp [List.mem_filter]

theorem mem_remove_to_everywhere (id : String) (m : UMap (List Connection))
    (kv : String × List Connection) :
    kv ∈ remove_to_everywhere id m ↔ ∃ l, (kv.1, l) ∈ m ∧ kv.2 = remove_to id l := by
  induction m with
  | nil => simp [remove_to_everywhere]
  | cons e rest ih =>
    obtain ⟨k0, l0⟩ := e
    obtain ⟨k, l⟩ := kv
    simp only [remove_to_everywhere, List.mem_cons, ih, Prod.mk.injEq]
    constructor
    · rintro (⟨h1, h2⟩ | ⟨l', h1, h2⟩)
      · exact ⟨l0, Or.inl ⟨h1, rfl⟩, h2⟩
      · exact ⟨l', Or.inr h1, h2⟩
    · rintro ⟨l', (⟨h1, h3⟩ | h1), h2⟩
      · subst h3
        exact Or.inl ⟨h1, h2⟩
      · exact Or.inr ⟨l', h1, h2⟩

theorem find_remove_to_everywhere (id : String) (m : UMap (List Connection)) (k : String) :
    UMap.find (remove_to_everywhere id m) k = (UMap.find m k).map (remove_to id) := by
  induction m with
  | nil => rfl
  | cons e rest ih =>
    obtain ⟨k0, l0⟩ := e
    by_cases h : k0 = k <;> simp [remove_to_everywhere, UMap.find, h, ih]

theorem UMap.mem_erase {V : Type} (m : UMap V) (k : String) (kv : String × V) :
    kv ∈ UMap.erase m k ↔ kv ∈ m ∧ kv.1 ≠ k := by
  induction m with
  | nil => simp [UMap.erase]
  | cons e rest ih =>
    obtain ⟨k0, v0⟩ := e
    by_cases h : k0 = k
    · simp only [UMap.erase, h, if_true, ih, List.mem_cons]
      constructor
      · rintro ⟨h1, h2⟩
        exact ⟨Or.inr h1, h2⟩
      · rintro ⟨h1 | h1, h2⟩
        · subst h1
          exact absurd rfl h2
        · exact ⟨h1, h2⟩
    · simp only [UMap.erase, h, if_false, ih, List.mem_cons]
      constructor
      · rintro (h1 | ⟨h1, h2⟩)
        · subst h1
          exact ⟨Or.inl rfl, h⟩
        · exact ⟨Or.inr h1, h2⟩
      · rintro ⟨h1 | h1, h2⟩
        · exact Or.inl h1
        · exact Or.inr ⟨h1, h2⟩

theorem delete_station_confirmed (ts : TransportSystem) (id : String) (choice : Char)
    (hex : station_exists ts id = true) (hid : id ≠ "cancel") (hyes : choice.toLower = 'y') :
    delete_station_interactive ts id choice =
      { stations := UMap.erase ts.stations id
        adjacency_list := remove_to_everywhere id (UMap.erase ts.adjacency_list id) } := by
  simp [delete_station_interactive, hex, hid, hyes]

/-- C5 (as amended): for every store and every existing station id other
than the word `cancel`, after the confirmed deletion the id is no longer a
station, the adjacency mapping has no entry keyed by it, no remaining
adjacency list holds a connection to it, every other station record is
unchanged, and every other adjacency list is its former list with the
connections to the id filtered out; when the id is not an existing station
the store is left unchanged. -/
theorem delete_station_postcondition (ts : TransportSystem) (id : String) (choice : Char) :
    (station_exists ts id = true → id ≠ "cancel" → choice.toLower = 'y' →
      station_exists (delete_station_interactive ts id choice) id = false ∧
      UMap.find (delete_station_interactive ts id choice).adjacency_list id = none ∧
      (∀ kv ∈ (delete_station_interactive ts id choice).adjacency_list,
        ∀ conn ∈ kv.2, conn.to_id ≠ id) ∧
      (∀ k, k ≠ id →
        UMap.find (delete_station_interactive ts id choice).stations k
          = UMap.find ts.stations k) ∧
      (∀ k, k ≠ id →
        UMap.find (delete_station_interactive ts id choice).adjacency_list k
          = (UMap.find ts.adjacency_list k).map
              (List.filter (fun c => decide (c.to_id ≠ id))))) ∧
    (station_exists ts id = false → delete_station_interactive ts id choice = ts) := by
  constructor
  · intro hex hid hyes
    rw [delete_station_confirmed ts id choice hex hid hyes]
    refine ⟨?_, ?_, ?_, ?_, ?_⟩
    · simp [station_exists, UMap.find_erase]
    · simp [find_remove_to_everywhere, UMap.find_erase]
    · intro kv hkv conn hconn
      obtain ⟨l, _, h2⟩ := (mem_remove_to_everywhere id _ kv).1 hkv
      rw [h2] at hconn
      exact ((mem_remove_to id l conn).1 hconn).2
    · intro k hk
      simp [UMap.find_erase, Ne.symm hk]
    · intro k hk
      simp only [find_remove_to_everywhere, UMap.find_erase, Ne.symm hk, if_false]
      congr 1
      funext l
      exact remove_to_eq_filter id l
  · intro hex
    simp [delete_station_interactive, hex]

/-- Witness of C5: deleting `B` from the example store, and asking to delete
the absent `Z`. -/
theorem delete_station_postcondition_witness :
    station_exists example_abc "B" = true ∧
    station_exists (delete_station_interactive example_abc "B" 'y') "B" = false ∧
    UMap.find (delete_station_interactive example_abc "B" 'y').adjacency_list "A"
      = some [⟨"C", whole 10, "train"⟩] ∧
    delete_station_interactive example_abc "Z" 'y' = example_abc := by
  have h := (delete_station_postcondition example_abc "B" 'y').1
    (by decide) (by decide) (by decide)
  have h2 := (delete_station_postcondition example_abc "Z" 'y').2 (by decide)
  exact ⟨by decide, h.1, by decide, h2⟩

/-- C5 (as stated) fails: `cancel` is an existing station and the deletion
is confirmed, yet it is still a station afterwards. -/
theorem delete_station_cancel_kept :
    station_exists cancel_store "cancel" = true ∧
    station_exists (delete_station_interactive cancel_store "cancel" 'y') "cancel" = true := by
  decide

/-- C6 (as stated) fails: after `delete_station("cancel")`, confirmed, the
stations `A` and `cancel` still exist and the path found between them holds
`cancel`; and after `delete_station("B")` answered `n` at the confirmation,
the path from `A` to `C` in the example store still holds `B`. -/
theorem deleted_cancel_still_traversed :
    station_exists cancel_store "cancel" = true ∧
    station_exists (delete_station_interactive cancel_store "cancel" 'y') "A" = true ∧
    station_exists (delete_station_interactive cancel_store "cancel" 'y') "cancel" = true ∧
    find_shortest_path pop_first_min 10
      (delete_station_interactive cancel_store "cancel" 'y') "A" "cancel"
      = Outcome.ok ["A", "cancel"] ∧
    station_exists example_abc "B" = true ∧
    find_shortest_path pop_first_min 10
      (delete_station_interactive example_abc "B" 'n') "A" "C"
      = Outcome.ok ["A", "B", "C"] := by
  decide

theorem UMap.mem_assign {V : Type} (m : UMap V) (k : String) (v : V) (kv : String × V)
    (h : kv ∈ UMap.assign m k v) : kv = (k, v) ∨ kv ∈ m := by
  induction m with
  | nil =>
    simp [UMap.assign] at h
    exact Or.inl h
  | cons e rest ih =>
    obtain ⟨k0, v0⟩ := e
    by_cases h0 : k0 = k
    · simp only [UMap.assign, h0, if_true, List.mem_cons] at h
      rcases h with h | h
      · exact Or.inl h
      · exact Or.inr (List.mem_cons_of_mem _ h)
    · simp only [UMap.assign, h0, if_false, List.mem_cons] at h
      rcases h with h | h
      · exact Or.inr (by simp [h])
      · rcases ih h with h | h
        · exact Or.inl h
        · exact Or.inr (List.mem_cons_of_mem _ h)

theorem UMap.mem_touch {V : Type} (m : UMap V) (k : String) (d : V) (kv : String × V)
    (h : kv ∈ UMap.touch m k d) : kv = (k, d) ∨ kv ∈ m := by
  unfold UMap.touch at h
  cases hf : UMap.find m k with
  | some x =>
    rw [hf] at h
    exact Or.inr h
  | none =>
    rw [hf] at h
    exact UMap.mem_assign m k d kv h

theorem UMap.get_mem_of_ne {V : Type} (m : UMap (List V)) (k : String) (x : V)
    (h : x ∈ UMap.get m k []) : ∃ l, (k, l) ∈ m ∧ x ∈ l := by
  unfold UMap.get at h
  cases hf : UMap.find m k with
  | some l =>
    rw [hf] at h
    exact ⟨l, UMap.mem_of_find m k l hf, h⟩
  | none =>
    rw [hf] at h
    simp at h

theorem length_remove_to_lt (id : String) (l : List Connection) :
    (remove_to id l).length < l.length ↔ ∃ c ∈ l, c.to_id = id := by
  induction l with
  | nil => simp [remove_to]
  | cons c rest ih =>
    have hle : (remove_to id rest).length ≤ rest.length := by
      rw [remove_to_eq_filter]
      exact List.length_filter_le _ _
    by_cases h : c.to_id = id
    · simp only [remove_to, h, if_true, List.length_cons, List.mem_cons]
      constructor
      · intro _
        exact ⟨c, Or.inl rfl, h⟩
      · intro _
        omega
    · simp only [remove_to, h, if_false, List.length_cons, List.mem_cons,
        Nat.add_lt_add_iff_right, ih]
      constructor
      · rintro ⟨c', h1, h2⟩
        exact ⟨c', Or.inr h1, h2⟩
      · rintro ⟨c', h1 | h1, h2⟩
        · subst h1
          exact absurd h2 h
        · exact ⟨c', h1, h2⟩

theorem get_station_name_ok (ts : TransportSystem) (id : String)
    (h : station_exists ts id = true) : ∃ name, get_station_name ts id = Outcome.ok name := by
  unfold get_station_name
  cases hf : UMap.find ts.stations id with
  | some station => exact ⟨station.name, rfl⟩
  | none => simp [station_exists, hf] at h

theorem get_station_name_fail (ts : TransportSystem) (id : String)
    (h : station_exists ts id = false) :
    get_station_name ts id = Outcome.fail Failure.out_of_range := by
  unfold get_station_name
  cases hf : UMap.find ts.stations id with
  | some station => simp [station_exists, hf] at h
  | none => rfl

theorem print_connections_of_cases (ts : TransportSystem) (from_id : String) :
    ∀ conns : List Connection,
      ((∀ conn ∈ conns, station_exists ts from_id = true ∧
          station_exists ts conn.to_id = true) ∧
        print_connections_of ts from_id conns = Outcome.ok ()) ∨
      ((¬ ∀ conn ∈ conns, station_exists ts from_id = true ∧
          station_exists ts conn.to_id = true) ∧
        print_connections_of ts from_id conns = Outcome.fail Failure.out_of_range) := by
  intro conns
  induction conns with
  | nil => exact Or.inl ⟨by simp, rfl⟩
  | cons conn rest ih =>
    cases hf : station_exists ts from_id with
    | false =>
      right
      refine ⟨fun h => ?_, ?_⟩
      · have := (h conn (by simp)).1
        cases this
      · simp [print_connections_of, get_station_name_fail ts from_id hf]
    | true =>
      obtain ⟨n1, hn1⟩ := get_station_name_ok ts from_id hf
      cases ht : station_exists ts conn.to_id with
      | false =>
        right
        refine ⟨fun h => ?_, ?_⟩
        · have := (h conn (by simp)).2
          rw [ht] at this
          cases this
        · simp [print_connections_of, hn1, get_station_name_fail ts conn.to_id ht]
      | true =>
        obtain ⟨n2, hn2⟩ := get_station_name_ok ts conn.to_id ht
        have hstep : print_connections_of ts from_id (conn :: rest)
            = print_connections_of ts from_id rest := by
          simp [print_connections_of, hn1, hn2]
        rw [hstep]
        rcases ih with ⟨h1, h2⟩ | ⟨h1, h2⟩
        · left
          refine ⟨?_, h2⟩
          intro c hc
          simp only [List.mem_cons] at hc
          rcases hc with hc | hc
          · subst hc
            exact ⟨rfl, ht⟩
          · exact ⟨rfl, (h1 c hc).2⟩
        · right
          refine ⟨fun h => h1 ?_, h2⟩
          intro c hc
          exact ⟨hf, (h c (List.mem_cons_of_mem _ hc)).2⟩

theorem print_connections_loop_cases (ts : TransportSystem) :
    ∀ m : UMap (List Connection),
      ((∀ kv ∈ m, ∀ conn ∈ kv.2, station_exists ts kv.1 = true ∧
          station_exists ts conn.to_id = true) ∧
        print_connections_loop ts m = Outcome.ok ()) ∨
      ((¬ ∀ kv ∈ m, ∀ conn ∈ kv.2, station_exists ts kv.1 = true ∧
          station_exists ts conn.to_id = true) ∧
        print_connections_loop ts m = Outcome.fail Failure.out_of_range) := by
  intro m
  induction m with
  | nil => exact Or.inl ⟨by simp, rfl⟩
  | cons e rest ih =>
    obtain ⟨k, conns⟩ := e
    rcases print_connections_of_cases ts k conns with ⟨h1, h2⟩ | ⟨h1, h2⟩
    · have hstep : print_connections_loop ts ((k, conns) :: rest)
          = print_connections_loop ts rest := by
        simp [print_connections_loop, h2]
      rw [hstep]
      rcases ih with ⟨g1, g2⟩ | ⟨g1, g2⟩
      · left
        refine ⟨?_, g2⟩
        intro kv hkv
        simp only [List.mem_cons] at hkv
        rcases hkv with hkv | hkv
        · subst hkv
          exact h1
        · exact g1 kv hkv
      · right
        exact ⟨fun h => g1 (fun kv hkv => h kv (List.mem_cons_of_mem _ hkv)), g2⟩
    · right
      refine ⟨fun h => h1 (h (k, conns) (by simp)), ?_⟩
      simp [print_connections_loop, h2]

/-- The listing succeeds when every listed connection has existing
endpoints and throws `out_of_range` otherwise. -/
theorem print_connections_cases (ts : TransportSystem) :
    (EndpointsExist ts ∧ print_connections ts = Outcome.ok ()) ∨
    (¬ EndpointsExist ts ∧ print_connections ts = Outcome.fail Failure.out_of_range) :=
  print_connections_loop_cases ts ts.adjacency_list

theorem connections_of_mem (ts : TransportSystem) (u : String) (conn : Connection)
    (h : conn ∈ connections_of ts u) : ∃ l, (u, l) ∈ ts.adjacency_list ∧ conn ∈ l :=
  UMap.get_mem_of_ne ts.adjacency_list u conn h

theorem delete_connection_after_listing_spec (ts : TransportSystem) (from_id to_id : String)
    (hends : EndpointsExist ts) :
    connections_of (delete_connection_after_listing ts from_id to_id).1 from_id
      = (connections_of ts from_id).filter (fun c => decide (c.to_id ≠ to_id)) ∧
    (delete_connection_after_listing ts from_id to_id).1.stations = ts.stations ∧
    (∀ k, k ≠ from_id →
      UMap.find (delete_connection_after_listing ts from_id to_id).1.adjacency_list k
        = UMap.find ts.adjacency_list k) ∧
    ((delete_connection_after_listing ts from_id to_id).2 = "Connection deleted!\n" ↔
      ∃ c ∈ connections_of ts from_id, c.to_id = to_id) ∧
    (station_exists ts from_id = false ∨ station_exists ts to_id = false →
      delete_connection_after_listing ts from_id to_id = (ts, "Invalid station IDs!\n")) := by
  have hguard : station_exists ts from_id = false ∨ station_exists ts to_id = false →
      delete_connection_after_listing ts from_id to_id = (ts, "Invalid station IDs!\n") := by
    intro h
    rcases h with h | h <;> simp [delete_connection_after_listing, h]
  by_cases hboth : station_exists ts from_id = true ∧ station_exists ts to_id = true
  · obtain ⟨hf, ht⟩ := hboth
    have hget : UMap.get (UMap.touch ts.adjacency_list from_id []) from_id []
        = connections_of ts from_id := UMap.get_touch _ _ _ _
    have hdef : delete_connection_after_listing ts from_id to_id =
        ({ stations := ts.stations
           adjacency_list :=
             UMap.assign (UMap.touch ts.adjacency_list from_id []) from_id
               (remove_to to_id (connections_of ts from_id)) },
          if (remove_to to_id (connections_of ts from_id)).length
              < (connections_of ts from_id).length
          then "Connection deleted!\n" else "No connection found!\n") := by
      simp only [delete_connection_after_listing, hf, ht, Bool.not_true, Bool.or_self,
        Bool.false_eq_true, if_false, hget]
    rw [hdef]
    refine ⟨?_, rfl, ?_, ?_, ?_⟩
    · simp [connections_of, UMap.get_assign, remove_to_eq_filter]
    · intro k hk
      simp [UMap.find_assign, Ne.symm hk, UMap.find_touch_other _ _ _ _ (Ne.symm hk)]
    · rw [← length_remove_to_lt]
      by_cases hlt : (remove_to to_id (connections_of ts from_id)).length
          < (connections_of ts from_id).length
      · simp [hlt]
      · simp only [hlt, if_false, iff_false]
        decide
    · intro h
      rcases h with h | h
      · rw [hf] at h
        cases h
      · rw [ht] at h
        cases h
  · have hrej : station_exists ts from_id = false ∨ station_exists ts to_id = false := by
      cases hf : station_exists ts from_id with
      | false => exact Or.inl rfl
      | true =>
        cases ht : station_exists ts to_id with
        | false => exact Or.inr rfl
        | true => exact absurd ⟨hf, ht⟩ hboth
    have hnone : ∀ c ∈ connections_of ts from_id, c.to_id ≠ to_id := by
      intro c hc heq
      obtain ⟨l, hl, hcl⟩ := connections_of_mem ts from_id c hc
      obtain ⟨e1, e2⟩ := hends _ hl c hcl
      rcases hrej with h | h
      · simp only at e1
        rw [h] at e1
        cases e1
      · rw [heq, h] at e2
        cases e2
    rw [hguard hrej]
    refine ⟨?_, rfl, fun _ _ => rfl, ?_, fun _ => rfl⟩
    · symm
      apply List.filter_eq_self.2
      intro c hc
      simpa using hnone c hc
    · constructor
      · intro h
        have h' : ("Invalid station IDs!\n" : String) = "Connection deleted!\n" := h
        exact absurd h' (by decide)
      · rintro ⟨c, hc, heq⟩
        exact absurd heq (hnone c hc)

/-- What `delete_connection(from, to)` does when it returns, as it does when
every listed connection has an existing source and target: afterwards the
adjacency list of `from` (empty when absent) is its former list with every
connection to `to` filtered out, the station map and the lists of every
other source are unchanged, and `Connection deleted!` is printed exactly
when the former list held a connection to `to`; when `from` or `to` is not
an existing station the store is unchanged and `Invalid station IDs!` is
printed. -/
theorem delete_connection_effect (ts : TransportSystem) (from_id to_id : String) :
    (EndpointsExist ts →
      ∃ ts' msg, delete_connection_interactive ts from_id to_id = Outcome.ok (ts', msg)) ∧
    (∀ ts' msg, delete_connection_interactive ts from_id to_id = Outcome.ok (ts', msg) →
      connections_of ts' from_id
        = (connections_of ts from_id).filter (fun c => decide (c.to_id ≠ to_id)) ∧
      ts'.stations = ts.stations ∧
      (∀ k, k ≠ from_id → UMap.find ts'.adjacency_list k = UMap.find ts.adjacency_list k) ∧
      (msg = "Connection deleted!\n" ↔ ∃ c ∈ connections_of ts from_id, c.to_id = to_id) ∧
      (station_exists ts from_id = false ∨ station_exists ts to_id = false →
        ts' = ts ∧ msg = "Invalid station IDs!\n")) := by
  rcases print_connections_cases ts with ⟨hends, hprint⟩ | ⟨hends, hprint⟩
  · have hdef : delete_connection_interactive ts from_id to_id
        = Outcome.ok (delete_connection_after_listing ts from_id to_id) := by
      simp [delete_connection_interactive, hprint]
    refine ⟨fun _ => ⟨_, _, hdef⟩, ?_⟩
    intro ts' msg h
    rw [hdef] at h
    simp only [Outcome.ok.injEq] at h
    obtain ⟨s1, s2, s3, s4, s5⟩ :=
      delete_connection_after_listing_spec ts from_id to_id hends
    rw [h] at s1 s2 s3 s4 s5
    refine ⟨s1, s2, s3, s4, ?_⟩
    intro hrej
    have := s5 hrej
    simp only [Prod.mk.injEq] at this
    exact this
  · have hdef : delete_connection_interactive ts from_id to_id
        = Outcome.fail Failure.out_of_range := by
      simp [delete_connection_interactive, hprint]
    refine ⟨fun h => absurd h hends, ?_⟩
    intro ts' msg h
    rw [hdef] at h
    cases h

/-- C7 at its failing input: the loaded store holds the connections `A→B`
and `A→X`, where `A` and `B` are stations and `X` is not. The listing that
`delete_connection("A", "B")` prints first fails with the `out_of_range` of
`stations.at("X")`, so the call ends before the ids are read and removes
nothing; lines 335-354 alone would leave `A→X` as the only connection of `A`
and print `Connection deleted!`, as the claim says. -/
theorem delete_connection_listing_fails :
    station_exists half_dangling_store "A" = true ∧
    station_exists half_dangling_store "B" = true ∧
    connections_of half_dangling_store "A"
      = [⟨"B", whole 1, "bus"⟩, ⟨"X", whole 1, "bus"⟩] ∧
    get_station_name half_dangling_store "X" = Outcome.fail Failure.out_of_range ∧
    print_connections half_dangling_store = Outcome.fail Failure.out_of_range ∧
    delete_connection_interactive half_dangling_store "A" "B"
      = Outcome.fail Failure.out_of_range ∧
    delete_connection_after_listing half_dangling_store "A" "B"
      = (⟨half_dangling_store.stations, [("A", [⟨"X", whole 1, "bus"⟩])]⟩,
          "Connection deleted!\n") := by
  decide

/-! ## Adding stations and connections -/

theorem char_alnum_or_underscore (c : Char) :
    (c.isAlphanum || c == '_') = true ↔
      (('a' ≤ c ∧ c ≤ 'z') ∨ ('A' ≤ c ∧ c ≤ 'Z') ∨ ('0' ≤ c ∧ c ≤ '9') ∨ c = '_') := by
  simp only [Char.isAlphanum, Char.isAlpha, Char.isUpper, Char.isLower, Char.isDigit,
    Bool.or_eq_true, Bool.and_eq_true, decide_eq_true_eq, beq_iff_eq, Char.le_def,
    UInt32.le_def, ge_iff_le]
  tauto

theorem is_valid_id_iff (id : String) : is_valid_id id = true ↔ IdFormat id := by
  unfold is_valid_id IdFormat
  have hlen : id.length = id.data.length := rfl
  cases hd : id.data with
  | nil => simp [hlen, hd]
  | cons c cs =>
    by_cases h10 : id.length > 10
    · have : ¬ (cs.length + 1 ≤ 10) := by
        rw [hlen, hd] at h10
        simp at h10
        omega
      simp [hlen, hd, this]
    · have h10' : cs.length + 1 ≤ 10 := by
        rw [hlen, hd] at h10
        simp at h10
        omega
      have hno : ¬ (10 < cs.length + 1) := by omega
      simp only [List.isEmpty_cons, Bool.false_or, hlen, hd, List.length_cons, gt_iff_lt,
        decide_eq_true_eq, hno, if_false, List.all_eq_true, char_alnum_or_underscore]
      constructor
      · intro h
        exact ⟨by omega, h10', h⟩
      · intro h
        exact h.2.2

theorem read_station_id_cons (ts : TransportSystem) (id : String) (rest : List String) :
    (IdFormat id ∧ station_exists ts id = false →
      read_station_id ts (id :: rest) = some id) ∧
    (¬ (IdFormat id ∧ station_exists ts id = false) →
      read_station_id ts (id :: rest) = read_station_id ts rest) := by
  constructor
  · rintro ⟨h1, h2⟩
    simp [read_station_id, (is_valid_id_iff id).2 h1, h2]
  · intro h
    by_cases hv : is_valid_id id = true
    · have : station_exists ts id = true := by
        cases hs : station_exists ts id with
        | true => rfl
        | false => exact absurd ⟨(is_valid_id_iff id).1 hv, hs⟩ h
      simp [read_station_id, hv, this]
    · simp [read_station_id, hv]

theorem read_station_id_some (ts : TransportSystem) :
    ∀ (ids : List String) (id : String), read_station_id ts ids = some id →
      id ∈ ids ∧ IdFormat id ∧ station_exists ts id = false := by
  intro ids
  induction ids with
  | nil => intro id h; simp [read_station_id] at h
  | cons a rest ih =>
    intro id h
    by_cases hacc : IdFormat a ∧ station_exists ts a = false
    · rw [(read_station_id_cons ts a rest).1 hacc] at h
      cases h
      exact ⟨by simp, hacc.1, hacc.2⟩
    · rw [(read_station_id_cons ts a rest).2 hacc] at h
      obtain ⟨h1, h2⟩ := ih id h
      exact ⟨List.mem_cons_of_mem _ h1, h2⟩

theorem read_latitude_some :
    ∀ (lats : List (Option Int)) (lat : Int), read_latitude lats = some lat →
      some lat ∈ lats ∧ -90 ≤ lat ∧ lat ≤ 90 := by
  intro lats
  induction lats with
  | nil => intro lat h; simp [read_latitude] at h
  | cons a rest ih =>
    intro lat h
    cases a with
    | none =>
      simp only [read_latitude] at h
      obtain ⟨h1, h2⟩ := ih lat h
      exact ⟨List.mem_cons_of_mem _ h1, h2⟩
    | some x =>
      simp only [read_latitude] at h
      split at h
      · obtain ⟨h1, h2⟩ := ih lat h
        exact ⟨List.mem_cons_of_mem _ h1, h2⟩
      · next hx =>
        cases h
        simp only [Bool.or_eq_true, decide_eq_true_eq, not_or, not_lt] at hx
        exact ⟨by simp, hx.1, hx.2⟩

theorem read_longitude_some :
    ∀ (lons : List (Option Int)) (lon : Int), read_longitude lons = some lon →
      some lon ∈ lons ∧ -180 ≤ lon ∧ lon ≤ 180 := by
  intro lons
  induction lons with
  | nil => intro lon h; simp [read_longitude] at h
  | cons a rest ih =>
    intro lon h
    cases a with
    | none =>
      simp only [read_longitude] at h
      obtain ⟨h1, h2⟩ := ih lon h
      exact ⟨List.mem_cons_of_mem _ h1, h2⟩
    | some x =>
      simp only [read_longitude] at h
      split at h
      · obtain ⟨h1, h2⟩ := ih lon h
        exact ⟨List.mem_cons_of_mem _ h1, h2⟩
      · next hx =>
        cases h
        simp only [Bool.or_eq_true, decide_eq_true_eq, not_or, not_lt] at hx
        exact ⟨by simp, hx.1, hx.2⟩

/-- C9: the id prompt of `add_station` accepts an id exactly when it has 1
to 10 characters, each an ASCII letter, digit or underscore, and no station
has it, and otherwise asks again with the store unchanged; the latitude
prompt accepts exactly the values of [-90, 90] and the longitude prompt
those of [-180, 180]; and a station is inserted only with an accepted id,
latitude and longitude, the store being otherwise as before. -/
theorem add_station_acceptance (ts : TransportSystem) (id : String) (ids : List String)
    (name : String) (x : Int) (lats lons : List (Option Int)) :
    (IdFormat id ∧ station_exists ts id = false →
      read_station_id ts (id :: ids) = some id) ∧
    (¬ (IdFormat id ∧ station_exists ts id = false) →
      read_station_id ts (id :: ids) = read_station_id ts ids ∧
      add_station_interactive ts (id :: ids) name lats lons
        = add_station_interactive ts ids name lats lons) ∧
    (-90 ≤ x ∧ x ≤ 90 → read_latitude (some x :: lats) = some x) ∧
    (¬ (-90 ≤ x ∧ x ≤ 90) → read_latitude (some x :: lats) = read_latitude lats) ∧
    (-180 ≤ x ∧ x ≤ 180 → read_longitude (some x :: lons) = some x) ∧
    (¬ (-180 ≤ x ∧ x ≤ 180) → read_longitude (some x :: lons) = read_longitude lons) ∧
    (∀ ts', add_station_interactive ts ids name lats lons = some ts' →
      ∃ id' lat lon, id' ∈ ids ∧ IdFormat id' ∧ station_exists ts id' = false ∧
        some lat ∈ lats ∧ -90 ≤ lat ∧ lat ≤ 90 ∧
        some lon ∈ lons ∧ -180 ≤ lon ∧ lon ≤ 180 ∧
        ts' = { stations := UMap.assign ts.stations id' ⟨id', name, lat, lon⟩
                adjacency_list := ts.adjacency_list }) := by
  refine ⟨(read_station_id_cons ts id ids).1, ?_, ?_, ?_, ?_, ?_, ?_⟩
  · intro h
    have := (read_station_id_cons ts id ids).2 h
    exact ⟨this, by simp [add_station_interactive, this]⟩
  · rintro ⟨h1, h2⟩
    have : ¬ (x < -90 ∨ 90 < x) := by omega
    simp [read_latitude, this]
  · intro h
    have : x < -90 ∨ 90 < x := by omega
    simp [read_latitude, this]
  · rintro ⟨h1, h2⟩
    have : ¬ (x < -180 ∨ 180 < x) := by omega
    simp [read_longitude, this]
  · intro h
    have : x < -180 ∨ 180 < x := by omega
    simp [read_longitude, this]
  · intro ts' h
    unfold add_station_interactive at h
    cases hid : read_station_id ts ids with
    | none => simp [hid] at h
    | some id' =>
      cases hlat : read_latitude lats with
      | none => simp [hid, hlat] at h
      | some lat =>
        cases hlon : read_longitude lons with
        | none => simp [hid, hlat, hlon] at h
        | some lon =>
          simp only [hid, hlat, hlon, Option.some.injEq] at h
          obtain ⟨a1, a2, a3⟩ := read_station_id_some ts ids id' hid
          obtain ⟨b1, b2, b3⟩ := read_latitude_some lats lat hlat
          obtain ⟨c1, c2, c3⟩ := read_longitude_some lons lon hlon
          exact ⟨id', lat, lon, a1, a2, a3, b1, b2, b3, c1, c2, c3, h.symm⟩

/-- Witness of C9: an id of 11 characters, an id with a hyphen, the existing
id `A` and the latitude 91 are rejected, `D_1` and the latitude 90 are
accepted. -/
theorem add_station_acceptance_witness :
    read_station_id example_abc ["D_1"] = some "D_1" ∧
    read_station_id example_abc ["ABCDEFGHIJK", "D_1"] = read_station_id example_abc ["D_1"] ∧
    read_station_id example_abc ["a-b", "D_1"] = read_station_id example_abc ["D_1"] ∧
    add_station_interactive example_abc ["A", "D_1"] "Dee" [some 91, some 90] [some 0]
      = add_station_interactive example_abc ["D_1"] "Dee" [some 91, some 90] [some 0] ∧
    read_latitude [some 91, some 90] = read_latitude [some 90] ∧
    read_latitude [some 90] = some 90 := by
  refine ⟨?_, ?_, ?_, ?_, ?_, ?_⟩
  · exact (add_station_acceptance example_abc "D_1" [] "" 0 [] []).1
      ⟨(is_valid_id_iff "D_1").1 (by decide), by decide⟩
  · exact ((add_station_acceptance example_abc "ABCDEFGHIJK" ["D_1"] "" 0 [] []).2.1
      (fun h => absurd ((is_valid_id_iff _).2 h.1) (by decide))).1
  · exact ((add_station_acceptance example_abc "a-b" ["D_1"] "" 0 [] []).2.1
      (fun h => absurd ((is_valid_id_iff _).2 h.1) (by decide))).1
  · exact ((add_station_acceptance example_abc "A" ["D_1"] "Dee" 0
      [some 91, some 90] [some 0]).2.1 (fun h => absurd h.2 (by decide))).2
  · exact (add_station_acceptance example_abc "" [] "" 91 [some 90] []).2.2.2.1 (by decide)
  · exact (add_station_acceptance example_abc "" [] "" 90 [] []).2.2.1 (by decide)


/-! ## Referential integrity -/

theorem read_existing_id_some (ts : TransportSystem) :
    ∀ (ids : List String) (id : String), read_existing_id ts ids = some id →
      id ∈ ids ∧ station_exists ts id = true := by
  intro ids
  induction ids with
  | nil => intro id h; simp [read_existing_id] at h
  | cons a rest ih =>
    intro id h
    cases hs : station_exists ts a with
    | true =>
      simp [read_existing_id, hs] at h
      subst h
      exact ⟨by simp, hs⟩
    | false =>
      simp [read_existing_id, hs] at h
      obtain ⟨h1, h2⟩ := ih id h
      exact ⟨List.mem_cons_of_mem _ h1, h2⟩

theorem read_weight_some :
    ∀ (weights : List (Option Int)) (w : Int), read_weight weights = some w →
      some w ∈ weights ∧ 0 < w := by
  intro weights
  induction weights with
  | nil => intro w h; simp [read_weight] at h
  | cons a rest ih =>
    intro w h
    cases a with
    | none =>
      simp only [read_weight] at h
      obtain ⟨h1, h2⟩ := ih w h
      exact ⟨List.mem_cons_of_mem _ h1, h2⟩
    | some x =>
      simp only [read_weight] at h
      split at h
      · obtain ⟨h1, h2⟩ := ih w h
        exact ⟨List.mem_cons_of_mem _ h1, h2⟩
      · next hx =>
        cases h
        exact ⟨by simp, by omega⟩

theorem well_formed_add_station (ts : TransportSystem) (h : WellFormed ts)
    (id : String) (st : Station) :
    WellFormed { stations := UMap.assign ts.stations id st
                 adjacency_list := ts.adjacency_list } := by
  have hmono : ∀ k, station_exists ts k = true →
      station_exists ⟨UMap.assign ts.stations id st, ts.adjacency_list⟩ k = true := by
    intro k hk
    simp only [station_exists, UMap.find_assign] at hk ⊢
    by_cases hik : id = k <;> simp [hik, hk]
  intro kv hkv
  obtain ⟨h1, h2⟩ := h kv hkv
  exact ⟨hmono _ h1, fun conn hc => ⟨hmono _ (h2 conn hc).1, (h2 conn hc).2⟩⟩

theorem well_formed_push_connection (ts : TransportSystem) (h : WellFormed ts)
    (from_id : String) (conn : Connection) (hf : station_exists ts from_id = true)
    (ht : station_exists ts conn.to_id = true) (hw : 0 < conn.weight) :
    WellFormed { stations := ts.stations
                 adjacency_list := push_connection ts.adjacency_list from_id conn } := by
  intro kv hkv
  have hst : ∀ k, station_exists
      ⟨ts.stations, push_connection ts.adjacency_list from_id conn⟩ k
        = station_exists ts k := fun k => rfl
  simp only [hst]
  unfold push_connection at hkv
  simp only at hkv
  rcases UMap.mem_assign _ _ _ _ hkv with hkv | hkv
  · subst hkv
    refine ⟨hf, ?_⟩
    intro c hc
    simp only [List.mem_append, List.mem_singleton] at hc
    rcases hc with hc | hc
    · rw [UMap.get_touch] at hc
      obtain ⟨l, hl, hcl⟩ := UMap.get_mem_of_ne _ _ _ hc
      exact (h _ hl).2 c hcl
    · subst hc
      exact ⟨ht, hw⟩
  · rcases UMap.mem_touch _ _ _ _ hkv with hkv | hkv
    · subst hkv
      exact ⟨hf, by simp⟩
    · exact h kv hkv

theorem well_formed_delete_station (ts : TransportSystem) (h : WellFormed ts) (id : String) :
    WellFormed { stations := UMap.erase ts.stations id
                 adjacency_list := remove_to_everywhere id (UMap.erase ts.adjacency_list id) } := by
  have hst : ∀ k, k ≠ id → station_exists ts k = true →
      station_exists
        ⟨UMap.erase ts.stations id, remove_to_everywhere id (UMap.erase ts.adjacency_list id)⟩ k
        = true := by
    intro k hk hex
    simp only [station_exists, UMap.find_erase] at hex ⊢
    simp [Ne.symm hk, hex]
  intro kv hkv
  obtain ⟨l, hl, hkl⟩ := (mem_remove_to_everywhere id _ kv).1 hkv
  obtain ⟨hl1, hl2⟩ := (UMap.mem_erase _ _ _).1 hl
  obtain ⟨h1, h2⟩ := h _ hl1
  refine ⟨hst _ hl2 h1, ?_⟩
  intro conn hconn
  rw [hkl] at hconn
  obtain ⟨hc1, hc2⟩ := (mem_remove_to id l conn).1 hconn
  exact ⟨hst _ hc2 (h2 conn hc1).1, (h2 conn hc1).2⟩

theorem well_formed_delete_connection (ts : TransportSystem) (h : WellFormed ts)
    (from_id to_id : String) :
    WellFormed (delete_connection_after_listing ts from_id to_id).1 := by
  unfold delete_connection_after_listing
  split
  · exact h
  · next hguard =>
    have hf : station_exists ts from_id = true := by
      cases hs : station_exists ts from_id with
      | true => rfl
      | false => simp [hs] at hguard
    intro kv hkv
    simp only at hkv
    have hst : ∀ (adj : UMap (List Connection)) k,
        station_exists { stations := ts.stations, adjacency_list := adj } k
          = station_exists ts k := fun _ _ => rfl
    simp only [hst]
    rcases UMap.mem_assign _ _ _ _ hkv with hkv | hkv
    · subst hkv
      refine ⟨hf, ?_⟩
      intro c hc
      obtain ⟨hc1, _⟩ := (mem_remove_to _ _ _).1 hc
      rw [UMap.get_touch] at hc1
      obtain ⟨l, hl, hcl⟩ := UMap.get_mem_of_ne _ _ _ hc1
      exact (h _ hl).2 c hcl
    · rcases UMap.mem_touch _ _ _ _ hkv with hkv | hkv
      · subst hkv
        exact ⟨hf, by simp⟩
      · exact h kv hkv

theorem endpoints_of_well_formed (ts : TransportSystem) (h : WellFormed ts) :
    EndpointsExist ts :=
  fun kv hkv conn hconn => ⟨(h kv hkv).1, ((h kv hkv).2 conn hconn).1⟩

theorem delete_connection_returns (ts : TransportSystem) (h : WellFormed ts)
    (from_id to_id : String) :
    delete_connection_interactive ts from_id to_id
      = Outcome.ok (delete_connection_after_listing ts from_id to_id) := by
  rcases print_connections_cases ts with ⟨_, hprint⟩ | ⟨hends, _⟩
  · simp [delete_connection_interactive, hprint]
  · exact absurd (endpoints_of_well_formed ts h) hends

/-- C10: every interactive mutation of a well-formed store yields a
well-formed store, whatever its inputs; `add_connection` appends a connection
only with existing `from` and `to` and a weight above 0; and a rejected input
(an id of a wrong format or already in use, a latitude out of range, an
unknown id, an unparsable or non-positive weight, an unknown or unconfirmed
station to delete, an unknown endpoint of a connection to delete) leaves the
store as it was. -/
theorem mutations_preserve_well_formed (ts : TransportSystem) (h : WellFormed ts) :
    (∀ ids name lats lons ts', add_station_interactive ts ids name lats lons = some ts' →
      WellFormed ts') ∧
    (∀ froms tos transport weights ts',
      add_connection_interactive ts froms tos transport weights = some ts' →
      WellFormed ts' ∧
      ∃ from_id to_id weight, station_exists ts from_id = true ∧
        station_exists ts to_id = true ∧ 0 < weight ∧
        ts' = { stations := ts.stations
                adjacency_list :=
                  push_connection ts.adjacency_list from_id ⟨to_id, weight, transport⟩ }) ∧
    (∀ id choice, WellFormed (delete_station_interactive ts id choice)) ∧
    (∀ from_id to_id, ∃ ts' msg,
      delete_connection_interactive ts from_id to_id = Outcome.ok (ts', msg) ∧
      WellFormed ts') ∧
    (∀ id froms tos transport weights, station_exists ts id = false →
      add_connection_interactive ts (id :: froms) tos transport weights
        = add_connection_interactive ts froms tos transport weights) ∧
    (∀ id tos, station_exists ts id = false →
      read_existing_id ts (id :: tos) = read_existing_id ts tos) ∧
    (∀ w weights, w ≤ 0 → read_weight (some w :: weights) = read_weight weights) ∧
    (∀ weights, read_weight (none :: weights) = read_weight weights) ∧
    (∀ id choice, station_exists ts id = false ∨ choice.toLower ≠ 'y' →
      delete_station_interactive ts id choice = ts) ∧
    (∀ from_id to_id, station_exists ts from_id = false ∨ station_exists ts to_id = false →
      delete_connection_interactive ts from_id to_id
        = Outcome.ok (ts, "Invalid station IDs!\n")) ∧
    (∀ id ids name lats lons, ¬ (IdFormat id ∧ station_exists ts id = false) →
      add_station_interactive ts (id :: ids) name lats lons
        = add_station_interactive ts ids name lats lons) ∧
    (∀ ids name lat lats lons, ¬ (-90 ≤ lat ∧ lat ≤ 90) →
      add_station_interactive ts ids name (some lat :: lats) lons
        = add_station_interactive ts ids name lats lons) := by
  refine ⟨?_, ?_, ?_, ?_, ?_, ?_, ?_, ?_, ?_, ?_, ?_, ?_⟩
  · intro ids name lats lons ts' hadd
    unfold add_station_interactive at hadd
    cases hid : read_station_id ts ids with
    | none => simp [hid] at hadd
    | some id =>
      cases hlat : read_latitude lats with
      | none => simp [hid, hlat] at hadd
      | some lat =>
        cases hlon : read_longitude lons with
        | none => simp [hid, hlat, hlon] at hadd
        | some lon =>
          simp only [hid, hlat, hlon, Option.some.injEq] at hadd
          rw [← hadd]
          exact well_formed_add_station ts h id _
  · intro froms tos transport weights ts' hadd
    unfold add_connection_interactive at hadd
    cases hfrom : read_existing_id ts froms with
    | none => simp [hfrom] at hadd
    | some from_id =>
      cases hto : read_existing_id ts tos with
      | none => simp [hfrom, hto] at hadd
      | some to_id =>
        cases hw : read_weight weights with
        | none => simp [hfrom, hto, hw] at hadd
        | some weight =>
          simp only [hfrom, hto, hw, Option.some.injEq] at hadd
          have h1 := (read_existing_id_some ts froms from_id hfrom).2
          have h2 := (read_existing_id_some ts tos to_id hto).2
          have h3 := (read_weight_some weights weight hw).2
          rw [← hadd]
          exact ⟨well_formed_push_connection ts h from_id ⟨to_id, weight, transport⟩ h1 h2 h3,
            from_id, to_id, weight, h1, h2, h3, rfl⟩
  · intro id choice
    unfold delete_station_interactive
    split
    · exact h
    · split
      · exact h
      · split
        · exact h
        · exact well_formed_delete_station ts h id
  · intro from_id to_id
    exact ⟨_, _, delete_connection_returns ts h from_id to_id,
      well_formed_delete_connection ts h from_id to_id⟩
  · intro id froms tos transport weights hid
    simp [add_connection_interactive, read_existing_id, hid]
  · intro id tos hid
    simp [read_existing_id, hid]
  · intro w weights hw
    simp [read_weight, hw]
  · intro weights
    rfl
  · intro id choice hrej
    unfold delete_station_interactive
    rcases hrej with hrej | hrej
    · simp [hrej]
    · simp [hrej]
  · intro from_id to_id hrej
    rw [delete_connection_returns ts h from_id to_id]
    rcases hrej with hrej | hrej <;> simp [delete_connection_after_listing, hrej]
  · intro id ids name lats lons hrej
    simp [add_station_interactive, (read_station_id_cons ts id ids).2 hrej]
  · intro ids name lat lats lons hrej
    have : lat < -90 ∨ 90 < lat := by omega
    simp [add_station_interactive, read_latitude, this]

theorem example_abc_well_formed : WellFormed example_abc := by
  intro kv hkv
  simp only [example_abc, List.mem_cons, List.mem_singleton, List.not_mem_nil, or_false] at hkv
  rcases hkv with hkv | hkv
  · subst hkv
    refine ⟨by decide, ?_⟩
    intro conn hc
    simp only [List.mem_cons, List.mem_singleton, List.not_mem_nil, or_false] at hc
    rcases hc with hc | hc <;> subst hc <;> exact ⟨by decide, by decide⟩
  · subst hkv
    refine ⟨by decide, ?_⟩
    intro conn hc
    simp only [List.mem_cons, List.mem_singleton, List.not_mem_nil, or_false] at hc
    subst hc
    exact ⟨by decide, by decide⟩

/-- Witness of C10: the example store is well-formed, and so is it after
adding the connection `C→A` of weight 4, the attempts `Z` and weight 0
being rejected. -/
theorem mutations_preserve_well_formed_witness :
    WellFormed example_abc ∧
    add_connection_interactive example_abc ["Z", "C"] ["A"] "bus" [some 0, some (whole 4)]
      = some { stations := example_abc.stations
               adjacency_list :=
                 push_connection example_abc.adjacency_list "C" ⟨"A", whole 4, "bus"⟩ } ∧
    WellFormed { stations := example_abc.stations
                 adjacency_list :=
                   push_connection example_abc.adjacency_list "C" ⟨"A", whole 4, "bus"⟩ } :=
  ⟨example_abc_well_formed, by decide,
    ((mutations_preserve_well_formed example_abc example_abc_well_formed).2.1
      ["Z", "C"] ["A"] "bus" [some 0, some (whole 4)] _ (by decide)).1⟩


/-! ## A deleted station is not traversed -/

theorem LawfulPop.pop_none {pop : PopPolicy} (h : LawfulPop pop) {q : List QueueNode}
    (hq : pop q = none) : q = [] := by
  by_contra hne
  obtain ⟨n, rest, hp, _⟩ := h.nonempty q hne
  rw [hq] at hp
  cases hp

theorem LawfulPop.pop_some {pop : PopPolicy} (h : LawfulPop pop) {q rest : List QueueNode}
    {n : QueueNode} (hq : pop q = some (n, rest)) :
    List.Perm q (n :: rest) ∧ ∀ m ∈ q, Double.le n.cost m.cost := by
  have hne : q ≠ [] := by
    intro h0
    rw [h0, h.empty] at hq
    cases hq
  obtain ⟨n', rest', hp, hperm, hmin⟩ := h.nonempty q hne
  rw [hq] at hp
  cases hp
  exact ⟨hperm, hmin⟩

theorem relax_avoids (id : String) (cost : Double) (cur : String) (hcur : cur ≠ id) :
    ∀ (conns : List Connection) (st : SearchState),
      (∀ conn ∈ conns, conn.to_id ≠ id) →
      (∀ n ∈ st.pq, n.id ≠ id) → (∀ kv ∈ st.previous, kv.1 ≠ id ∧ kv.2 ≠ id) →
      (∀ n ∈ (relax cost cur conns st).pq, n.id ≠ id) ∧
      (∀ kv ∈ (relax cost cur conns st).previous, kv.1 ≠ id ∧ kv.2 ≠ id) := by
  intro conns
  induction conns with
  | nil =>
    intro st _ h1 h2
    exact ⟨h1, h2⟩
  | cons conn rest ih =>
    intro st hc h1 h2
    have hrest : ∀ c ∈ rest, c.to_id ≠ id := fun c hcm => hc c (List.mem_cons_of_mem _ hcm)
    have hconn : conn.to_id ≠ id := hc conn (by simp)
    simp only [relax]
    split
    · apply ih _ hrest
      · intro n hn
        simp only [List.mem_cons] at hn
        rcases hn with hn | hn
        · subst hn
          exact hconn
        · exact h1 n hn
      · intro kv hkv
        rcases UMap.mem_assign _ _ _ _ hkv with hkv | hkv
        · subst hkv
          exact ⟨hconn, hcur⟩
        · exact h2 kv hkv
    · exact ih _ hrest h1 h2

theorem search_loop_avoids (pop : PopPolicy) (hpop : LawfulPop pop) (ts : TransportSystem)
    (id end_id : String)
    (hts : ∀ kv ∈ ts.adjacency_list, ∀ conn ∈ kv.2, conn.to_id ≠ id) :
    ∀ (fuel : Nat) (st r : SearchState),
      (∀ n ∈ st.pq, n.id ≠ id) → (∀ kv ∈ st.previous, kv.1 ≠ id ∧ kv.2 ≠ id) →
      search_loop pop ts end_id fuel st = Outcome.ok r →
      ∀ kv ∈ r.previous, kv.1 ≠ id ∧ kv.2 ≠ id := by
  intro fuel
  induction fuel with
  | zero =>
    intro st r _ _ h
    simp [search_loop] at h
  | succ fuel ih =>
    intro st r h1 h2 h
    simp only [search_loop] at h
    cases hp : pop st.pq with
    | none =>
      simp only [hp, Outcome.ok.injEq] at h
      subst h
      exact h2
    | some res =>
      obtain ⟨node, pq⟩ := res
      obtain ⟨hperm, _⟩ := hpop.pop_some hp
      have hnode : node.id ≠ id := h1 node (hperm.symm.subset (by simp))
      have hpq : ∀ n ∈ pq, n.id ≠ id :=
        fun n hn => h1 n (hperm.symm.subset (List.mem_cons_of_mem _ hn))
      simp only [hp] at h
      split at h
      · simp only [Outcome.ok.injEq] at h
        subst h
        exact h2
      · split at h
        · exact ih ⟨pq, UMap.touch st.distances node.id (Double.finite 0), st.previous⟩ r hpq h2 h
        · cases hadj : UMap.find ts.adjacency_list node.id with
          | none => simp [hadj] at h
          | some conns =>
            simp only [hadj] at h
            have hconns : ∀ conn ∈ conns, conn.to_id ≠ id :=
              hts _ (UMap.mem_of_find _ _ _ hadj)
            obtain ⟨g1, g2⟩ := relax_avoids id node.cost node.id hnode conns
              { st with pq := pq, distances := UMap.touch st.distances node.id (Double.finite 0) }
              hconns hpq h2
            exact ih _ r g1 g2 h

theorem walk_back_avoids (previous : UMap String) (id : String)
    (hprev : ∀ kv ∈ previous, kv.1 ≠ id ∧ kv.2 ≠ id) :
    ∀ (fuel : Nat) (current : String) (acc path : List String),
      current ≠ id → (∀ x ∈ acc, x ≠ id) →
      walk_back previous fuel current acc = Outcome.ok path → ∀ x ∈ path, x ≠ id := by
  intro fuel
  induction fuel with
  | zero =>
    intro current acc path _ _ h
    simp [walk_back] at h
  | succ fuel ih =>
    intro current acc path hcur hacc h
    have hacc' : ∀ x ∈ acc ++ [current], x ≠ id := by
      intro x hx
      simp only [List.mem_append, List.mem_singleton] at hx
      rcases hx with hx | hx
      · exact hacc x hx
      · subst hx
        exact hcur
    simp only [walk_back] at h
    split at h
    · simp only [Outcome.ok.injEq] at h
      subst h
      exact hacc
    · cases hf : UMap.find previous current with
      | none =>
        simp only [hf, Outcome.ok.injEq] at h
        subst h
        exact hacc'
      | some p =>
        simp only [hf] at h
        exact ih p _ path (hprev _ (UMap.mem_of_find _ _ _ hf)).2 hacc' h

/-- A station that is neither the start nor the end nor the target of any
connection is on no path returned. -/
theorem find_shortest_path_avoids (pop : PopPolicy) (hpop : LawfulPop pop)
    (ts : TransportSystem) (id start end_id : String) (fuel : Nat) (path : List String)
    (hts : ∀ kv ∈ ts.adjacency_list, ∀ conn ∈ kv.2, conn.to_id ≠ id)
    (hs : start ≠ id) (he : end_id ≠ id)
    (h : find_shortest_path pop fuel ts start end_id = Outcome.ok path) : id ∉ path := by
  unfold find_shortest_path at h
  cases hloop : search_loop pop ts end_id fuel (init_state ts start) with
  | fail why => simp [hloop] at h
  | ok st =>
    have hprev := search_loop_avoids pop hpop ts id end_id hts fuel (init_state ts start) st
      (by
        intro n hn
        simp only [init_state, List.mem_singleton] at hn
        subst hn
        exact hs)
      (by
        intro kv hkv
        simp [init_state] at hkv) hloop
    simp only [hloop] at h
    split at h
    · simp only [Outcome.ok.injEq] at h
      subst h
      simp
    · cases hw : walk_back st.previous fuel end_id [] with
      | fail why => simp [hw] at h
      | ok p =>
        simp only [hw, Outcome.ok.injEq] at h
        subst h
        intro hmem
        have := walk_back_avoids st.previous id hprev fuel end_id [] p he (by simp) hw id
          (List.mem_reverse.1 hmem)
        exact this rfl

/-- C6 (as amended): for every store, every existing station id other than
the word `cancel`, and every pair start, end of stations that still exist
after the confirmed `delete_station(id)`: any sequence returned by
`find_shortest_path(start, end)` on the store after the deletion does not
contain id. -/
theorem deleted_station_not_traversed (pop : PopPolicy) (hpop : LawfulPop pop)
    (ts : TransportSystem) (id : String) (choice : Char) (start end_id : String)
    (fuel : Nat) (path : List String)
    (hex : station_exists ts id = true) (hid : id ≠ "cancel") (hyes : choice.toLower = 'y')
    (hs : station_exists (delete_station_interactive ts id choice) start = true)
    (he : station_exists (delete_station_interactive ts id choice) end_id = true)
    (h : find_shortest_path pop fuel (delete_station_interactive ts id choice) start end_id
      = Outcome.ok path) : id ∉ path := by
  have hgone : station_exists (delete_station_interactive ts id choice) id = false := by
    rw [delete_station_confirmed ts id choice hex hid hyes]
    simp [station_exists, UMap.find_erase]
  have hts : ∀ kv ∈ (delete_station_interactive ts id choice).adjacency_list,
      ∀ conn ∈ kv.2, conn.to_id ≠ id := by
    rw [delete_station_confirmed ts id choice hex hid hyes]
    intro kv hkv conn hconn
    obtain ⟨l, _, h2⟩ := (mem_remove_to_everywhere id _ kv).1 hkv
    rw [h2] at hconn
    exact ((mem_remove_to id l conn).1 hconn).2
  have hs' : start ≠ id := by
    intro heq
    rw [heq, hgone] at hs
    cases hs
  have he' : end_id ≠ id := by
    intro heq
    rw [heq, hgone] at he
    cases he
  exact find_shortest_path_avoids pop hpop _ id start end_id fuel path hts hs' he' h

/-- Witness of C6: after deleting `B` from the example store the path from
`A` to `C` is the direct connection. -/
theorem deleted_station_not_traversed_witness :
    LawfulPop pop_first_min ∧ station_exists example_abc "B" = true ∧
    find_shortest_path pop_first_min 10 (delete_station_interactive example_abc "B" 'y') "A" "C"
      = Outcome.ok ["A", "C"] ∧
    "B" ∉ ["A", "C"] :=
  ⟨pop_first_min_lawful, by decide, by decide,
    deleted_station_not_traversed pop_first_min pop_first_min_lawful example_abc "B" 'y'
      "A" "C" 10 ["A", "C"] (by decide) (by decide) (by decide) (by decide) (by decide)
      (by decide)⟩


/-! ## Termination of the search loop -/

theorem UMap.assign_absent {V : Type} (m : UMap V) (k : String) (v : V)
    (h : UMap.find m k = none) : UMap.assign m k v = m ++ [(k, v)] := by
  induction m with
  | nil => rfl
  | cons e rest ih =>
    obtain ⟨k0, v0⟩ := e
    by_cases h0 : k0 = k
    · simp [UMap.find, h0] at h
    · simp only [UMap.find, h0, if_false] at h
      simp [UMap.assign, h0, ih h]

theorem inf_count_append (m : UMap Double) (k : String) (x : Double) :
    inf_count (m ++ [(k, x)]) = inf_count m + inf_weight x := by
  induction m with
  | nil => simp [inf_count]
  | cons e rest ih =>
    obtain ⟨k0, v0⟩ := e
    show inf_count (rest ++ [(k, x)]) + inf_weight v0 = inf_count rest + inf_weight v0 + _
    rw [ih]
    omega

theorem fin_sum_append (m : UMap Double) (k : String) (x : Double) :
    fin_sum (m ++ [(k, x)]) = fin_sum m + fin_weight x := by
  induction m with
  | nil => simp [fin_sum]
  | cons e rest ih =>
    obtain ⟨k0, v0⟩ := e
    show fin_sum (rest ++ [(k, x)]) + fin_weight v0 = fin_sum rest + fin_weight v0 + _
    rw [ih]
    omega

theorem measure_touch (m : UMap Double) (k : String) :
    inf_count (UMap.touch m k (Double.finite 0)) = inf_count m ∧
    fin_sum (UMap.touch m k (Double.finite 0)) = fin_sum m := by
  unfold UMap.touch
  cases hf : UMap.find m k with
  | some x => exact ⟨rfl, rfl⟩
  | none =>
    simp only [UMap.assign_absent m k _ hf, inf_count_append, fin_sum_append]
    simp [inf_weight, fin_weight]

theorem measure_assign (m : UMap Double) (k : String) (x o : Double)
    (h : UMap.find m k = some o) :
    inf_count (UMap.assign m k x) + inf_weight o = inf_count m + inf_weight x ∧
    fin_sum (UMap.assign m k x) + fin_weight o = fin_sum m + fin_weight x := by
  induction m with
  | nil => simp [UMap.find] at h
  | cons e rest ih =>
    obtain ⟨k0, v0⟩ := e
    by_cases h0 : k0 = k
    · simp only [UMap.find, h0, if_true, Option.some.injEq] at h
      subst h
      simp only [UMap.assign, h0, if_true, inf_count, fin_sum]
      omega
    · simp only [UMap.find, h0, if_false] at h
      obtain ⟨i1, i2⟩ := ih h
      simp only [UMap.assign, h0, if_false, inf_count, fin_sum]
      omega

/-- A cost below a recorded distance lowers the pair (1 for +∞, units). -/
theorem measure_lower {x o : Double} (hx : IsCost x) (hlt : Double.lt x o = true) :
    inf_weight x < inf_weight o ∨
      (inf_weight x = inf_weight o ∧ fin_weight x < fin_weight o) := by
  cases x with
  | finite a =>
    obtain ⟨ha, _⟩ := hx
    cases o with
    | finite b =>
      right
      simp only [Double.lt, decide_eq_true_eq] at hlt
      simp only [inf_weight, fin_weight, true_and]
      omega
    | pos_inf =>
      left
      simp [inf_weight]
    | neg_inf => simp [Double.lt] at hlt
  | pos_inf => cases o <;> simp [Double.lt] at hlt
  | neg_inf => exact absurd hx id

/-- The inner loop either lowers the pair (number of infinite distances, sum
of the finite ones) in the lexicographic order or leaves distances and queue
as they are; it keeps the queued costs costs. -/
theorem relax_measure (cost : Double) (cur : String) (hcost : IsCost cost) :
    ∀ (conns : List Connection) (st : SearchState),
      (∀ conn ∈ conns, 0 ≤ conn.weight) →
      (inf_count (relax cost cur conns st).distances < inf_count st.distances ∨
        (inf_count (relax cost cur conns st).distances = inf_count st.distances ∧
          fin_sum (relax cost cur conns st).distances < fin_sum st.distances) ∨
        (inf_count (relax cost cur conns st).distances = inf_count st.distances ∧
          fin_sum (relax cost cur conns st).distances = fin_sum st.distances ∧
          (relax cost cur conns st).pq = st.pq)) ∧
      ((∀ n ∈ st.pq, IsCost n.cost) → ∀ n ∈ (relax cost cur conns st).pq, IsCost n.cost) := by
  intro conns
  induction conns with
  | nil =>
    intro st _
    exact ⟨Or.inr (Or.inr ⟨rfl, rfl, rfl⟩), fun h => h⟩
  | cons conn rest ih =>
    intro st hw
    have hrest : ∀ c ∈ rest, 0 ≤ c.weight := fun c hc => hw c (List.mem_cons_of_mem _ hc)
    have hconn : 0 ≤ conn.weight := hw conn (by simp)
    have hnew : IsCost (Double.add cost conn.weight) := hcost.add hconn
    obtain ⟨t1, t2⟩ := measure_touch st.distances conn.to_id
    have hfind := UMap.find_touch_self st.distances conn.to_id (Double.finite 0)
    simp only [relax]
    split
    · next himp =>
      obtain ⟨m1, m2⟩ := ih
        { pq := ⟨Double.add cost conn.weight, conn.to_id⟩ :: st.pq
          distances := UMap.assign (UMap.touch st.distances conn.to_id (Double.finite 0))
            conn.to_id (Double.add cost conn.weight)
          previous := UMap.assign st.previous conn.to_id cur } hrest
      simp only at m1 m2
      rw [UMap.get_touch] at himp
      constructor
      · obtain ⟨a1, a2⟩ := measure_assign _ _ (Double.add cost conn.weight) _ hfind
        have hl := measure_lower hnew himp
        omega
      · intro hpq
        apply m2
        intro n hn
        simp only [List.mem_cons] at hn
        rcases hn with hn | hn
        · subst hn
          exact hnew
        · exact hpq n hn
    · obtain ⟨m1, m2⟩ := ih
        { st with distances := UMap.touch st.distances conn.to_id (Double.finite 0) } hrest
      simp only [t1, t2] at m1 m2
      exact ⟨m1, m2⟩

/-- With non-negative weights the search loop ends from every state whose
queued costs are costs: each iteration lowers `rank`. -/
theorem search_halts (pop : PopPolicy) (hpop : LawfulPop pop) (ts : TransportSystem)
    (end_id : String) (hw : NonNegWeights ts) :
    ∀ (m : Nat × Nat × Nat) (st : SearchState), rank st = m →
      (∀ n ∈ st.pq, IsCost n.cost) → Halts pop ts end_id st := by
  intro m
  induction m using
    (WellFounded.prod_lex Nat.lt_wfRel.wf
      (WellFounded.prod_lex Nat.lt_wfRel.wf Nat.lt_wfRel.wf)).induction with
  | _ m ih =>
    intro st hm hpq
    cases hp : pop st.pq with
    | none =>
      refine ⟨1, Outcome.ok st, by simp, ?_⟩
      intro fuel hfuel
      obtain ⟨f, rfl⟩ : ∃ f, fuel = f + 1 := ⟨fuel - 1, by omega⟩
      simp [search_loop, hp]
    | some res =>
      obtain ⟨node, pq⟩ := res
      obtain ⟨hperm, _⟩ := hpop.pop_some hp
      have hlen : st.pq.length = pq.length + 1 := by simpa using hperm.length_eq
      have hnode : IsCost node.cost := hpq node (hperm.symm.subset (by simp))
      have hpq' : ∀ n ∈ pq, IsCost n.cost :=
        fun n hn => hpq n (hperm.symm.subset (List.mem_cons_of_mem _ hn))
      by_cases hend : node.id = end_id
      · refine ⟨1, Outcome.ok { st with pq := pq }, by simp, ?_⟩
        intro fuel hfuel
        obtain ⟨f, rfl⟩ : ∃ f, fuel = f + 1 := ⟨fuel - 1, by omega⟩
        simp [search_loop, hp, hend]
      · obtain ⟨t1, t2⟩ := measure_touch st.distances node.id
        by_cases hstale : Double.lt
            (UMap.get (UMap.touch st.distances node.id (Double.finite 0)) node.id
              (Double.finite 0)) node.cost = true
        · have hlt : Prod.Lex (· < ·) (Prod.Lex (· < ·) (· < ·))
              (rank ⟨pq, UMap.touch st.distances node.id (Double.finite 0), st.previous⟩) m := by
            rw [← hm]
            simp only [rank, t1, t2, hlen]
            exact Prod.Lex.right _ (Prod.Lex.right _ (Nat.lt_succ_self _))
          obtain ⟨N, r, hr, hN⟩ := ih _ hlt _ rfl hpq'
          refine ⟨N + 1, r, hr, ?_⟩
          intro fuel hfuel
          obtain ⟨f, rfl⟩ : ∃ f, fuel = f + 1 := ⟨fuel - 1, by omega⟩
          simp only [search_loop, hp, hend, if_false, hstale, if_true]
          exact hN f (by omega)
        · cases hadj : UMap.find ts.adjacency_list node.id with
          | none =>
            refine ⟨1, Outcome.fail Failure.out_of_range, by simp, ?_⟩
            intro fuel hfuel
            obtain ⟨f, rfl⟩ : ∃ f, fuel = f + 1 := ⟨fuel - 1, by omega⟩
            simp [search_loop, hp, hend, hstale, hadj]
          | some conns =>
            have hconns : ∀ conn ∈ conns, 0 ≤ conn.weight := by
              intro conn hc
              apply hw node.id
              simp [connections_of, UMap.get, hadj, hc]
            obtain ⟨m1, m2⟩ := relax_measure node.cost node.id hnode conns
              ⟨pq, UMap.touch st.distances node.id (Double.finite 0), st.previous⟩ hconns
            simp only [t1, t2] at m1
            have hlt : Prod.Lex (· < ·) (Prod.Lex (· < ·) (· < ·))
                (rank (relax node.cost node.id conns
                  ⟨pq, UMap.touch st.distances node.id (Double.finite 0), st.previous⟩)) m := by
              rw [← hm]
              simp only [rank]
              rcases m1 with m1 | ⟨m1, m1'⟩ | ⟨m1, m1', m1''⟩
              · exact Prod.Lex.left _ _ m1
              · rw [m1]
                exact Prod.Lex.right _ (Prod.Lex.left _ _ m1')
              · rw [m1, m1', m1'', hlen]
                exact Prod.Lex.right _ (Prod.Lex.right _ (Nat.lt_succ_self _))
            obtain ⟨N, r, hr, hN⟩ := ih _ hlt _ rfl (m2 hpq')
            refine ⟨N + 1, r, hr, ?_⟩
            intro fuel hfuel
            obtain ⟨f, rfl⟩ : ∃ f, fuel = f + 1 := ⟨fuel - 1, by omega⟩
            simp only [search_loop, hp, hend, if_false, hstale, hadj]
            exact hN f (by omega)


/-! ## The invariant of the search -/

theorem relax_cons (cost : Double) (cur : String) (conn : Connection) (rest : List Connection)
    (st : SearchState) :
    relax cost cur (conn :: rest) st = relax cost cur rest (relax_one cost cur st conn) := by
  simp only [relax, relax_one]
  split <;> rfl

theorem Double.not_le_of_lt {a b : Double} (h : Double.lt a b = true) : ¬ Double.le b a := by
  intro h'
  unfold Double.le at h'
  rw [h] at h'
  cases h'

/-- With non-negative weights the weight of a route is a cost. -/
theorem route_is_cost (ts : TransportSystem) (hw : NonNegWeights ts) (s : String) :
    ∀ v c, Route ts s v c → IsCost c := by
  intro v c h
  induction h with
  | start => exact is_cost_zero
  | step _ hc ih =>
    obtain ⟨conn, hmem, _, hwc⟩ := hc
    have := hw _ conn hmem
    exact ih.add (by omega)

theorem dist_of_relax_one_improved (cost : Double) (cur : String) (st : SearchState)
    (conn : Connection)
    (h : Double.lt (Double.add cost conn.weight) (dist_of st conn.to_id) = true)
    (v : String) :
    dist_of (relax_one cost cur st conn) v
      = if conn.to_id = v then Double.add cost conn.weight else dist_of st v := by
  have h' : Double.lt (Double.add cost conn.weight)
      (UMap.get (UMap.touch st.distances conn.to_id (Double.finite 0)) conn.to_id
        (Double.finite 0)) = true := by
    rw [UMap.get_touch]
    exact h
  unfold relax_one
  rw [if_pos h']
  simp only [dist_of, UMap.get_assign, UMap.get_touch]

theorem relax_one_improved (cost : Double) (cur : String) (st : SearchState)
    (conn : Connection)
    (h : Double.lt (Double.add cost conn.weight) (dist_of st conn.to_id) = true) :
    (relax_one cost cur st conn).pq = ⟨Double.add cost conn.weight, conn.to_id⟩ :: st.pq ∧
    (relax_one cost cur st conn).previous = UMap.assign st.previous conn.to_id cur := by
  have h' : Double.lt (Double.add cost conn.weight)
      (UMap.get (UMap.touch st.distances conn.to_id (Double.finite 0)) conn.to_id
        (Double.finite 0)) = true := by
    rw [UMap.get_touch]
    exact h
  unfold relax_one
  rw [if_pos h']
  exact ⟨rfl, rfl⟩

theorem relax_one_kept (cost : Double) (cur : String) (st : SearchState) (conn : Connection)
    (h : Double.lt (Double.add cost conn.weight) (dist_of st conn.to_id) = false) :
    (∀ v, dist_of (relax_one cost cur st conn) v = dist_of st v) ∧
    (relax_one cost cur st conn).pq = st.pq ∧
    (relax_one cost cur st conn).previous = st.previous := by
  have h' : Double.lt (Double.add cost conn.weight)
      (UMap.get (UMap.touch st.distances conn.to_id (Double.finite 0)) conn.to_id
        (Double.finite 0)) = false := by
    rw [UMap.get_touch]
    exact h
  unfold relax_one
  rw [if_neg (by rw [h']; simp)]
  exact ⟨fun v => UMap.get_touch _ _ _ _, rfl, rfl⟩

theorem CoreInv.transfer {ts : TransportSystem} {s : String} {S : String → Prop}
    {st st1 : SearchState} (h : CoreInv ts s S st)
    (hd : ∀ v, dist_of st1 v = dist_of st v) (hq : st1.pq = st.pq)
    (hp : st1.previous = st.previous) : CoreInv ts s S st1 := by
  constructor
  · rw [hd]; exact h.start_dist
  · rw [hp]; exact h.start_noprev
  · intro v
    rw [hd]
    exact h.dist_cost v
  · rw [hq]; exact h.pq_station
  · intro n hn
    rw [hq] at hn
    rw [hd]
    exact h.pq_dist n hn
  · intro v hv hdv
    rw [hd] at hdv ⊢
    exact h.realizable v hv hdv
  · intro v hv hdv hS
    rw [hd] at hdv ⊢
    rw [hq]
    exact h.live v hv hdv hS
  · exact h.settled_station
  · intro u hu
    rw [hd]
    exact h.settled_opt u hu
  · intro u hu n hn
    rw [hd]
    rw [hq] at hn
    exact h.settled_le u hu n hn
  · intro v u hvu
    rw [hp] at hvu
    simp only [hd]
    exact h.prev_ok v u hvu
  · intro v hv hdv hne
    rw [hd] at hdv
    rw [hp]
    exact h.prev_def v hv hdv hne
  · rw [hp]
    exact h.chain

theorem PrevChain.agree {previous previous1 : UMap String} {s v : String} {p : List String}
    (h : PrevChain previous s v p)
    (hagree : ∀ x ∈ p, UMap.find previous1 x = UMap.find previous x) :
    PrevChain previous1 s v p := by
  induction h with
  | base => exact PrevChain.base
  | step hc hf ih =>
    rename_i u v p
    have h1 : PrevChain previous1 s u p :=
      ih (fun x hx => hagree x (List.mem_append_left _ hx))
    have h2 : UMap.find previous1 v = some u := by
      rw [hagree v (by simp)]
      exact hf
    exact PrevChain.step h1 h2

/-- One iteration of the inner loop keeps the invariant while the station
`u`, of final distance `c`, is being processed, and takes the connection it
handles out of the pending ones. -/
theorem relax_one_inv (ts : TransportSystem) (s : String) (hw : NonNegWeights ts)
    (ht : TargetsExist ts) (S : String → Prop) (u : String) (c : Double) (hSu : S u)
    (hroute : Route ts s u c) (conn : Connection) (rest : List Connection)
    (st : SearchState) (hconn : conn ∈ connections_of ts u)
    (hI : CoreInv ts s S st) (hE : EdgesRelaxed ts S st u (conn :: rest))
    (hDu : dist_of st u = c)
    (hB : ∀ x, S x → Double.le (dist_of st x) c) :
    CoreInv ts s S (relax_one c u st conn) ∧
    EdgesRelaxed ts S (relax_one c u st conn) u rest ∧
    dist_of (relax_one c u st conn) u = c ∧
    (∀ x, S x → Double.le (dist_of (relax_one c u st conn) x) c) := by
  have hcc : IsCost c := route_is_cost ts hw s u c hroute
  have hwc : 0 ≤ conn.weight := hw u conn hconn
  have htst : station_exists ts conn.to_id = true := ht u conn hconn
  have hnew : IsCost (Double.add c conn.weight) := hcc.add hwc
  have hcnew : Double.le c (Double.add c conn.weight) := hcc.le_add hwc
  cases himp : Double.lt (Double.add c conn.weight) (dist_of st conn.to_id) with
  | false =>
    obtain ⟨hd, hq, hp⟩ := relax_one_kept c u st conn himp
    refine ⟨hI.transfer hd hq hp, ?_, ?_, ?_⟩
    · intro x hx conn' hc'
      simp only [hd]
      rcases hE x hx conn' hc' with ⟨hxu, hmem⟩ | hrel
      · simp only [List.mem_cons] at hmem
        rcases hmem with hmem | hmem
        · right
          subst hmem
          subst hxu
          rw [hDu]
          exact himp
        · exact Or.inl ⟨hxu, hmem⟩
      · exact Or.inr hrel
    · rw [hd]
      exact hDu
    · intro x hx
      rw [hd]
      exact hB x hx
  | true =>
    have hD1 := dist_of_relax_one_improved c u st conn himp
    obtain ⟨hq1, hp1⟩ := relax_one_improved c u st conn himp
    have hnS : ¬ S conn.to_id := by
      intro hSt
      exact Double.not_le_of_lt himp (Double.le_trans (hB _ hSt) hcnew)
    have hts : conn.to_id ≠ s := by
      intro h
      rw [h, hI.start_dist] at himp
      exact Double.not_le_of_lt himp hnew.zero_le
    have hDt : dist_of (relax_one c u st conn) conn.to_id = Double.add c conn.weight := by
      rw [hD1]
      simp
    have hDo : ∀ v, conn.to_id ≠ v →
        dist_of (relax_one c u st conn) v = dist_of st v := by
      intro v hv
      rw [hD1]
      simp [hv]
    have hDS : ∀ x, S x → dist_of (relax_one c u st conn) x = dist_of st x := by
      intro x hx
      apply hDo
      intro h
      rw [h] at hnS
      exact hnS hx
    have hPo : ∀ v, conn.to_id ≠ v →
        UMap.find (relax_one c u st conn).previous v = UMap.find st.previous v := by
      intro v hv
      rw [hp1, UMap.find_assign]
      simp [hv]
    have hPt : UMap.find (relax_one c u st conn).previous conn.to_id = some u := by
      rw [hp1, UMap.find_assign]
      simp
    refine ⟨?_, ?_, ?_, ?_⟩
    · constructor
      · rw [hDo s hts]
        exact hI.start_dist
      · rw [hPo s hts]
        exact hI.start_noprev
      · intro v
        by_cases hvt : conn.to_id = v
        · subst hvt
          rw [hDt]
          exact hnew
        · rw [hDo _ hvt]
          exact hI.dist_cost v
      · intro n hn
        rw [hq1] at hn
        simp only [List.mem_cons] at hn
        rcases hn with hn | hn
        · subst hn
          exact htst
        · exact hI.pq_station n hn
      · intro n hn
        rw [hq1] at hn
        simp only [List.mem_cons] at hn
        rcases hn with hn | hn
        · subst hn
          refine ⟨?_, Double.ne_pos_inf_of_lt himp⟩
          rw [hDt]
          exact Double.le_refl _
        · obtain ⟨hle, hfin⟩ := hI.pq_dist n hn
          refine ⟨?_, hfin⟩
          by_cases hnt : conn.to_id = n.id
          · rw [← hnt, hDt]
            rw [← hnt] at hle
            exact Double.le_trans (Double.le_of_lt himp) hle
          · rw [hDo _ hnt]
            exact hle
      · intro v hv hfin
        by_cases hvt : conn.to_id = v
        · subst hvt
          rw [hDt]
          exact Route.step hroute ⟨conn, hconn, rfl, rfl⟩
        · rw [hDo _ hvt] at hfin ⊢
          exact hI.realizable v hv hfin
      · intro v hv hfin hSv
        rw [hq1]
        by_cases hvt : conn.to_id = v
        · subst hvt
          rw [hDt]
          simp
        · rw [hDo _ hvt] at hfin ⊢
          exact List.mem_cons_of_mem _ (hI.live v hv hfin hSv)
      · exact hI.settled_station
      · intro x hx
        rw [hDS x hx]
        exact hI.settled_opt x hx
      · intro x hx n hn
        rw [hDS x hx]
        rw [hq1] at hn
        simp only [List.mem_cons] at hn
        rcases hn with hn | hn
        · subst hn
          exact Double.le_trans (hB x hx) hcnew
        · exact hI.settled_le x hx n hn
      · intro v u' hvu
        by_cases hvt : conn.to_id = v
        · subst hvt
          rw [hPt] at hvu
          cases hvu
          refine ⟨hSu, htst, conn.weight, ⟨conn, hconn, rfl, rfl⟩, ?_⟩
          rw [hDt, hDS u hSu, hDu]
        · rw [hPo _ hvt] at hvu
          obtain ⟨h1, h2, w, h4, h5⟩ := hI.prev_ok v u' hvu
          refine ⟨h1, h2, w, h4, ?_⟩
          rw [hDo _ hvt, hDS u' h1]
          exact h5
      · intro v hv hfin hvs
        by_cases hvt : conn.to_id = v
        · subst hvt
          exact ⟨u, hPt⟩
        · rw [hDo _ hvt] at hfin
          rw [hPo _ hvt]
          exact hI.prev_def v hv hfin hvs
      · intro x hx
        obtain ⟨p, hp, hpS⟩ := hI.chain x hx
        refine ⟨p, hp.agree ?_, hpS⟩
        intro y hy
        apply hPo
        intro h
        rw [h] at hnS
        exact hnS (hpS y hy)
    · intro x hx conn' hc'
      rcases hE x hx conn' hc' with ⟨hxu, hmem⟩ | h3
      · simp only [List.mem_cons] at hmem
        rcases hmem with hmem | hmem
        · right
          subst hmem
          subst hxu
          rw [hDt, hDS x hx, hDu]
          exact Double.le_refl _
        · exact Or.inl ⟨hxu, hmem⟩
      · right
        rw [hDS x hx]
        by_cases hct : conn.to_id = conn'.to_id
        · rw [← hct, hDt]
          rw [← hct] at h3
          exact Double.le_trans (Double.le_of_lt himp) h3
        · rw [hDo _ hct]
          exact h3
    · rw [hDS u hSu]
      exact hDu
    · intro x hx
      rw [hDS x hx]
      exact hB x hx

/-- The inner loop keeps the invariant and leaves no connection of `u`
pending. -/
theorem relax_inv (ts : TransportSystem) (s : String) (hw : NonNegWeights ts)
    (ht : TargetsExist ts) (S : String → Prop) (u : String) (c : Double) (hSu : S u)
    (hroute : Route ts s u c) :
    ∀ (conns : List Connection) (st : SearchState),
      (∀ conn ∈ conns, conn ∈ connections_of ts u) →
      CoreInv ts s S st → EdgesRelaxed ts S st u conns → dist_of st u = c →
      (∀ x, S x → Double.le (dist_of st x) c) →
      CoreInv ts s S (relax c u conns st) ∧ EdgesRelaxed ts S (relax c u conns st) u [] := by
  intro conns
  induction conns with
  | nil =>
    intro st _ hI hE _ _
    exact ⟨hI, hE⟩
  | cons conn rest ih =>
    intro st hmem hI hE hDu hB
    obtain ⟨g1, g2, g3, g4⟩ := relax_one_inv ts s hw ht S u c hSu hroute conn rest st
      (hmem conn (by simp)) hI hE hDu hB
    rw [relax_cons]
    exact ih _ (fun x hx => hmem x (List.mem_cons_of_mem _ hx)) g1 g2 g3 g4

theorem find_init_distances :
    ∀ (stations : UMap Station) (acc : UMap Double) (v : String),
      UMap.find (init_distances stations acc) v
        = if (UMap.find stations v).isSome then some Double.pos_inf else UMap.find acc v := by
  intro stations
  induction stations with
  | nil => intro acc v; simp [init_distances, UMap.find]
  | cons e rest ih =>
    intro acc v
    obtain ⟨id, st⟩ := e
    simp only [init_distances, ih, UMap.find_assign, UMap.find]
    by_cases h : id = v
    · simp [h]
    · simp [h]

theorem dist_of_init (ts : TransportSystem) (s v : String) :
    dist_of (init_state ts s) v
      = if s = v then Double.finite 0
        else if station_exists ts v then Double.pos_inf else Double.finite 0 := by
  simp only [dist_of, init_state, UMap.get, UMap.find_assign, find_init_distances,
    station_exists, UMap.find]
  by_cases h : s = v
  · simp [h]
  · by_cases h2 : (UMap.find ts.stations v).isSome <;> simp [h, h2]

/-- The invariant holds before the loop, no station being settled. -/
theorem init_inv (ts : TransportSystem) (s : String) (hs : station_exists ts s = true) :
    CoreInv ts s (fun _ => False) (init_state ts s) ∧
    EdgesRelaxed ts (fun _ => False) (init_state ts s) s [] := by
  have hD0 : dist_of (init_state ts s) s = Double.finite 0 := by
    rw [dist_of_init]
    simp
  have hfin : ∀ v, station_exists ts v = true →
      dist_of (init_state ts s) v ≠ Double.pos_inf → v = s := by
    intro v hv hd
    rw [dist_of_init] at hd
    by_cases h : s = v
    · exact h.symm
    · simp [h, hv] at hd
  refine ⟨?_, ?_⟩
  · constructor
    · exact hD0
    · rfl
    · intro v
      rw [dist_of_init]
      split_ifs
      · exact is_cost_zero
      · exact trivial
      · exact is_cost_zero
    · intro n hn
      simp only [init_state, List.mem_singleton] at hn
      subst hn
      exact hs
    · intro n hn
      simp only [init_state, List.mem_singleton] at hn
      subst hn
      refine ⟨?_, by simp⟩
      rw [hD0]
      exact Double.le_refl _
    · intro v hv hd
      have h1 := hfin v hv hd
      subst h1
      rw [hD0]
      exact Route.start
    · intro v hv hd _
      have h1 := hfin v hv hd
      subst h1
      rw [hD0]
      simp [init_state]
    · intro u hu
      exact absurd hu id
    · intro u hu
      exact absurd hu id
    · intro u hu
      exact absurd hu id
    · intro v u h
      simp [init_state, UMap.find] at h
    · intro v hv hd hne
      exact absurd (hfin v hv hd) hne
    · intro u hu
      exact absurd hu id
  · intro x hx
    exact absurd hx id

/-- Every route from `s` has overflowed, or ends in a settled station whose
recorded distance is at most the weight of the route, or weighs at least as
much as some queued cost. -/
theorem frontier (ts : TransportSystem) (s : String) (hw : NonNegWeights ts)
    (ht : TargetsExist ts) (hs : station_exists ts s = true) (S : String → Prop)
    (st : SearchState) (u0 : String) (hI : CoreInv ts s S st)
    (hE : EdgesRelaxed ts S st u0 []) :
    ∀ v c, Route ts s v c →
      c = Double.pos_inf ∨ (S v ∧ Double.le (dist_of st v) c) ∨
        ∃ n ∈ st.pq, Double.le n.cost c := by
  intro v c h
  induction h with
  | start =>
    right
    by_cases hS : S s
    · left
      refine ⟨hS, ?_⟩
      rw [hI.start_dist]
      exact Double.le_refl _
    · right
      refine ⟨⟨dist_of st s, s⟩, hI.live s hs (by rw [hI.start_dist]; simp) hS, ?_⟩
      simp only [hI.start_dist]
      exact Double.le_refl _
  | step hr hc ih =>
    rename_i u v c w
    obtain ⟨conn, hmem, hto, hwt⟩ := hc
    have hw0 : 0 ≤ w := by
      rw [← hwt]
      exact hw u conn hmem
    have hcu : IsCost c := route_is_cost ts hw s u c hr
    rcases ih with hinf | ⟨hSu, hle⟩ | ⟨n, hn, hle⟩
    · left
      rw [hinf]
      rfl
    · rcases hE u hSu conn hmem with ⟨_, hpend⟩ | h3
      · simp at hpend
      · rw [hto, hwt] at h3
        have h4 : Double.le (dist_of st v) (Double.add c w) :=
          Double.le_trans h3 (Double.add_mono_left w hle)
        by_cases hSv : S v
        · exact Or.inr (Or.inl ⟨hSv, h4⟩)
        · by_cases hfin : dist_of st v = Double.pos_inf
          · left
            rw [hfin] at h4
            exact Double.pos_inf_le h4
          · have hv : station_exists ts v = true := by
              rw [← hto]
              exact ht u conn hmem
            exact Or.inr (Or.inr ⟨⟨dist_of st v, v⟩, hI.live v hv hfin hSv, h4⟩)
    · exact Or.inr (Or.inr ⟨n, hn, Double.le_trans hle (hcu.le_add hw0)⟩)

/-- When the loop ends, by an empty queue or by taking the end station out
as a node of least cost, the search has established `SearchDone`. -/
theorem exit_done (ts : TransportSystem) (s e : String) (hw : NonNegWeights ts)
    (ht : TargetsExist ts) (hs : station_exists ts s = true)
    (hreach : FinitelyReachable ts s e)
    (S : String → Prop) (st : SearchState) (u0 : String) (hI : CoreInv ts s S st)
    (hE : EdgesRelaxed ts S st u0 [])
    (hexit : st.pq = [] ∨
      ∃ n ∈ st.pq, n.id = e ∧ ∀ m ∈ st.pq, Double.le n.cost m.cost)
    (st1 : SearchState) (hd1 : st1.distances = st.distances)
    (hp1 : st1.previous = st.previous) : SearchDone ts s e st1 := by
  have hdist : ∀ v, dist_of st1 v = dist_of st v := by
    intro v
    simp only [dist_of, hd1]
  have hfr := frontier ts s hw ht hs S st u0 hI hE
  have hprev : ∀ v u, UMap.find st.previous v = some u → station_exists ts v = true ∧
      ∃ w, HasConnection ts u v w ∧ dist_of st v = Double.add (dist_of st u) w :=
    fun v u h => (hI.prev_ok v u h).2
  unfold SearchDone
  simp only [hdist, hp1]
  rcases hexit with hempty | ⟨n, hn, hne, hmin⟩
  · obtain ⟨c0, hr0, hfin0⟩ := hreach
    rcases hfr e c0 hr0 with hinf | ⟨hSe, _⟩ | ⟨m, hm, _⟩
    · exact absurd hinf hfin0
    · obtain ⟨_, hopt⟩ := hI.settled_opt e hSe
      obtain ⟨p, hp, _⟩ := hI.chain e hSe
      exact ⟨p, hopt, hp, hI.start_noprev, hI.start_dist, hprev⟩
    · rw [hempty] at hm
      simp at hm
  · obtain ⟨hle, hnfin⟩ := hI.pq_dist n hn
    rw [hne] at hle
    have hfin : dist_of st e ≠ Double.pos_inf := Double.ne_pos_inf_of_le hle hnfin
    have hst : station_exists ts e = true := by
      rw [← hne]
      exact hI.pq_station n hn
    have hopt : ∀ c, Route ts s e c → Double.le (dist_of st e) c := by
      intro c hr
      rcases hfr e c hr with hinf | ⟨_, hle'⟩ | ⟨m, hm, hle'⟩
      · rw [hinf]
        exact Double.le_pos_inf _
      · exact hle'
      · exact Double.le_trans hle (Double.le_trans (hmin m hm) hle')
    have hchain : ∃ p, PrevChain st.previous s e p := by
      by_cases hes : e = s
      · rw [hes]
        exact ⟨[s], PrevChain.base⟩
      · obtain ⟨u, hu⟩ := hI.prev_def e hst hfin hes
        obtain ⟨p, hp, _⟩ := hI.chain u (hI.prev_ok e u hu).1
        exact ⟨p ++ [e], PrevChain.step hp hu⟩
    obtain ⟨p, hp⟩ := hchain
    exact ⟨p, hopt, hp, hI.start_noprev, hI.start_dist, hprev⟩

/-- Discarding a stale node keeps the invariant. -/
theorem stale_step_inv (ts : TransportSystem) (s : String) (S : String → Prop)
    (st st1 : SearchState) (u0 : String) (n : QueueNode) (hI : CoreInv ts s S st)
    (hE : EdgesRelaxed ts S st u0 []) (hperm : List.Perm st.pq (n :: st1.pq))
    (hstale : Double.lt (dist_of st n.id) n.cost = true)
    (hd : ∀ v, dist_of st1 v = dist_of st v) (hp : st1.previous = st.previous) :
    CoreInv ts s S st1 ∧ EdgesRelaxed ts S st1 u0 [] := by
  have hsub : ∀ m ∈ st1.pq, m ∈ st.pq :=
    fun m hm => hperm.symm.subset (List.mem_cons_of_mem _ hm)
  refine ⟨?_, ?_⟩
  · constructor
    · rw [hd]; exact hI.start_dist
    · rw [hp]; exact hI.start_noprev
    · intro v
      rw [hd]
      exact hI.dist_cost v
    · exact fun m hm => hI.pq_station m (hsub m hm)
    · intro m hm
      rw [hd]
      exact hI.pq_dist m (hsub m hm)
    · intro v hv hdv
      rw [hd] at hdv ⊢
      exact hI.realizable v hv hdv
    · intro v hv hdv hS
      rw [hd] at hdv ⊢
      have hmem := hperm.subset (hI.live v hv hdv hS)
      simp only [List.mem_cons] at hmem
      rcases hmem with hmem | hmem
      · subst hmem
        simp only at hstale
        rw [Double.lt_irrefl] at hstale
        cases hstale
      · exact hmem
    · exact hI.settled_station
    · intro u hu
      rw [hd]
      exact hI.settled_opt u hu
    · intro u hu m hm
      rw [hd]
      exact hI.settled_le u hu m (hsub m hm)
    · intro v u hvu
      rw [hp] at hvu
      simp only [hd]
      exact hI.prev_ok v u hvu
    · intro v hv hdv hne
      rw [hd] at hdv
      rw [hp]
      exact hI.prev_def v hv hdv hne
    · rw [hp]
      exact hI.chain
  · intro x hx conn hc
    simp only [hd]
    exact hE x hx conn hc

/-- Taking out a node of least cost that is not stale settles its station:
its recorded distance is least, and the invariant holds for the enlarged set
with all its connections pending. -/
theorem settle_step_inv (ts : TransportSystem) (s : String) (hw : NonNegWeights ts)
    (ht : TargetsExist ts) (hs : station_exists ts s = true) (S : String → Prop)
    (st st1 : SearchState) (u0 : String) (n : QueueNode) (hI : CoreInv ts s S st)
    (hE : EdgesRelaxed ts S st u0 []) (hperm : List.Perm st.pq (n :: st1.pq))
    (hmin : ∀ m ∈ st.pq, Double.le n.cost m.cost)
    (hfresh : Double.lt (dist_of st n.id) n.cost = false)
    (hd : ∀ v, dist_of st1 v = dist_of st v) (hp : st1.previous = st.previous) :
    CoreInv ts s (fun x => S x ∨ x = n.id) st1 ∧
    EdgesRelaxed ts (fun x => S x ∨ x = n.id) st1 n.id (connections_of ts n.id) ∧
    dist_of st1 n.id = n.cost ∧
    (∀ x, (S x ∨ x = n.id) → Double.le (dist_of st1 x) n.cost) ∧
    Route ts s n.id n.cost := by
  have hsub : ∀ m ∈ st1.pq, m ∈ st.pq :=
    fun m hm => hperm.symm.subset (List.mem_cons_of_mem _ hm)
  have hn : n ∈ st.pq := hperm.symm.subset (by simp)
  have hnst : station_exists ts n.id = true := hI.pq_station n hn
  obtain ⟨hle0, hnfin⟩ := hI.pq_dist n hn
  have hDn : dist_of st n.id = n.cost := Double.le_antisymm hle0 hfresh
  have hDfin : dist_of st n.id ≠ Double.pos_inf := by
    rw [hDn]
    exact hnfin
  have hroute : Route ts s n.id n.cost := by
    have := hI.realizable n.id hnst hDfin
    rw [hDn] at this
    exact this
  have hfr := frontier ts s hw ht hs S st u0 hI hE
  have hbound : ∀ x, (S x ∨ x = n.id) → Double.le (dist_of st x) n.cost := by
    intro x hx
    rcases hx with hx | hx
    · exact hI.settled_le x hx n hn
    · rw [hx, hDn]
      exact Double.le_refl _
  refine ⟨?_, ?_, ?_, ?_, hroute⟩
  · constructor
    · rw [hd]; exact hI.start_dist
    · rw [hp]; exact hI.start_noprev
    · intro v
      rw [hd]
      exact hI.dist_cost v
    · exact fun m hm => hI.pq_station m (hsub m hm)
    · intro m hm
      rw [hd]
      exact hI.pq_dist m (hsub m hm)
    · intro v hv hdv
      rw [hd] at hdv ⊢
      exact hI.realizable v hv hdv
    · intro v hv hdv hS
      rw [hd] at hdv ⊢
      have hSv : ¬ S v := fun h => hS (Or.inl h)
      have hvn : v ≠ n.id := fun h => hS (Or.inr h)
      have hmem := hperm.subset (hI.live v hv hdv hSv)
      simp only [List.mem_cons] at hmem
      rcases hmem with hmem | hmem
      · subst hmem
        exact absurd rfl hvn
      · exact hmem
    · intro u hu
      rcases hu with hu | hu
      · exact hI.settled_station u hu
      · rw [hu]
        exact hnst
    · intro u hu
      rw [hd]
      rcases hu with hu | hu
      · exact hI.settled_opt u hu
      · rw [hu]
        refine ⟨hDfin, ?_⟩
        intro c hr
        rcases hfr n.id c hr with hinf | ⟨_, hle'⟩ | ⟨m, hm, hle'⟩
        · rw [hinf]
          exact Double.le_pos_inf _
        · exact hle'
        · rw [hDn]
          exact Double.le_trans (hmin m hm) hle'
    · intro u hu m hm
      rw [hd]
      rcases hu with hu | hu
      · exact hI.settled_le u hu m (hsub m hm)
      · rw [hu, hDn]
        exact hmin m (hsub m hm)
    · intro v u hvu
      rw [hp] at hvu
      simp only [hd]
      obtain ⟨h1, h2⟩ := hI.prev_ok v u hvu
      exact ⟨Or.inl h1, h2⟩
    · intro v hv hdv hne
      rw [hd] at hdv
      rw [hp]
      exact hI.prev_def v hv hdv hne
    · intro x hx
      rw [hp]
      have hold : ∀ y, S y → ∃ p, PrevChain st.previous s y p ∧
          ∀ z ∈ p, S z ∨ z = n.id := by
        intro y hy
        obtain ⟨p, hp1, hp2⟩ := hI.chain y hy
        exact ⟨p, hp1, fun z hz => Or.inl (hp2 z hz)⟩
      rcases hx with hx | hx
      · exact hold x hx
      · rw [hx]
        by_cases hns : n.id = s
        · rw [hns]
          refine ⟨[s], PrevChain.base, ?_⟩
          intro z hz
          simp only [List.mem_singleton] at hz
          exact Or.inr hz
        · obtain ⟨u, hu⟩ := hI.prev_def n.id hnst hDfin hns
          obtain ⟨p, hp1, hp2⟩ := hold u (hI.prev_ok _ u hu).1
          refine ⟨p ++ [n.id], PrevChain.step hp1 hu, ?_⟩
          intro z hz
          simp only [List.mem_append, List.mem_singleton] at hz
          rcases hz with hz | hz
          · exact hp2 z hz
          · exact Or.inr hz
  · intro x hx conn hc
    simp only [hd]
    rcases hx with hx | hx
    · rcases hE x hx conn hc with ⟨_, hpend⟩ | hrel
      · simp at hpend
      · exact Or.inr hrel
    · rw [hx] at hc
      exact Or.inl ⟨hx, hc⟩
  · rw [hd]
    exact hDn
  · intro x hx
    rw [hd]
    exact hbound x hx

/-- Whatever the number of iterations allowed, a run of the loop that is not
cut short ends in a state that satisfies `SearchDone`; in particular it does
not fail in `at`. -/
theorem search_loop_done (pop : PopPolicy) (hpop : LawfulPop pop) (ts : TransportSystem)
    (s e : String) (hw : NonNegWeights ts) (ht : TargetsExist ts)
    (hs : station_exists ts s = true) (hreach : FinitelyReachable ts s e)
    (hadj : ∀ v, station_exists ts v = true → Reachable ts s v → v ≠ e →
      (UMap.find ts.adjacency_list v).isSome = true) :
    ∀ (fuel : Nat) (st : SearchState) (S : String → Prop) (u0 : String)
      (r : Outcome SearchState),
      CoreInv ts s S st → EdgesRelaxed ts S st u0 [] →
      search_loop pop ts e fuel st = r → r ≠ Outcome.fail Failure.out_of_fuel →
      ∃ st', r = Outcome.ok st' ∧ SearchDone ts s e st' := by
  intro fuel
  induction fuel with
  | zero =>
    intro st S u0 r _ _ h hr
    simp only [search_loop] at h
    exact absurd h.symm hr
  | succ fuel ih =>
    intro st S u0 r hI hE h hr
    simp only [search_loop] at h
    cases hp : pop st.pq with
    | none =>
      simp only [hp] at h
      exact ⟨st, h.symm,
        exit_done ts s e hw ht hs hreach S st u0 hI hE (Or.inl (hpop.pop_none hp)) st rfl rfl⟩
    | some res =>
      obtain ⟨node, pq⟩ := res
      obtain ⟨hperm, hmin⟩ := hpop.pop_some hp
      have hnode : node ∈ st.pq := hperm.symm.subset (by simp)
      simp only [hp] at h
      by_cases hend : node.id = e
      · simp only [hend, if_true] at h
        exact ⟨_, h.symm,
          exit_done ts s e hw ht hs hreach S st u0 hI hE (Or.inr ⟨node, hnode, hend, hmin⟩)
            _ rfl rfl⟩
      · simp only [hend, if_false, UMap.get_touch] at h
        have hdist : ∀ v, dist_of
            ⟨pq, UMap.touch st.distances node.id (Double.finite 0), st.previous⟩ v
              = dist_of st v :=
          fun v => UMap.get_touch _ _ _ _
        cases hstale : Double.lt (dist_of st node.id) node.cost with
        | true =>
          have hstale' : Double.lt (UMap.get st.distances node.id (Double.finite 0))
              node.cost = true := hstale
          simp only [hstale', if_true] at h
          obtain ⟨g1, g2⟩ := stale_step_inv ts s S st
            ⟨pq, UMap.touch st.distances node.id (Double.finite 0), st.previous⟩ u0 node
            hI hE hperm hstale hdist rfl
          exact ih _ S u0 r g1 g2 h hr
        | false =>
          have hstale' : Double.lt (UMap.get st.distances node.id (Double.finite 0))
              node.cost = false := hstale
          simp only [hstale', Bool.false_eq_true, if_false] at h
          obtain ⟨g1, g2, g3, g4, g5⟩ := settle_step_inv ts s hw ht hs S st
            ⟨pq, UMap.touch st.distances node.id (Double.finite 0), st.previous⟩ u0 node
            hI hE hperm hmin hstale hdist rfl
          have hsome := hadj node.id (hI.pq_station node hnode) ⟨node.cost, g5⟩ hend
          cases hfind : UMap.find ts.adjacency_list node.id with
          | none => simp [hfind] at hsome
          | some conns =>
            simp only [hfind] at h
            have hconns : connections_of ts node.id = conns := by
              simp [connections_of, UMap.get, hfind]
            rw [hconns] at g2
            obtain ⟨k1, k2⟩ := relax_inv ts s hw ht (fun x => S x ∨ x = node.id) node.id
              node.cost (Or.inr rfl) g5 conns _ (fun c hc => by rw [hconns]; exact hc)
              g1 g2 g3 g4
            exact ih _ _ node.id r k1 k2 h hr

/-! ## The reconstructed path -/

/-- A chain of predecessors is a trail whose weight is the recorded
distance of its last station. -/
theorem chain_trail (ts : TransportSystem) (s : String) (st : SearchState)
    (hs : station_exists ts s = true) (hD0 : dist_of st s = Double.finite 0)
    (hprev : ∀ v u, UMap.find st.previous v = some u → station_exists ts v = true ∧
      ∃ w, HasConnection ts u v w ∧ dist_of st v = Double.add (dist_of st u) w) :
    ∀ v p, PrevChain st.previous s v p →
      Trail ts s v p (dist_of st v) ∧ ∀ x ∈ p, station_exists ts x = true := by
  intro v p h
  induction h with
  | base =>
    refine ⟨?_, ?_⟩
    · rw [hD0]
      exact Trail.base
    · intro x hx
      simp only [List.mem_singleton] at hx
      rw [hx]
      exact hs
  | step hc hf ih =>
    rename_i u v p
    obtain ⟨htr, hst⟩ := ih
    obtain ⟨hv, w, h2, h3⟩ := hprev v u hf
    refine ⟨?_, ?_⟩
    · rw [h3]
      exact Trail.step htr h2
    · intro x hx
      simp only [List.mem_append, List.mem_singleton] at hx
      rcases hx with hx | hx
      · exact hst x hx
      · rw [hx]
        exact hv

/-- The walk back from `v` returns the chain of predecessors of `v`, last
station first, when no station of it has the empty id. -/
theorem walk_back_chain (previous : UMap String) (s : String)
    (hnoprev : UMap.find previous s = none) :
    ∀ v p, PrevChain previous s v p → (∀ x ∈ p, x ≠ "") →
      ∀ (fuel : Nat) (acc : List String), p.length ≤ fuel →
        walk_back previous fuel v acc = Outcome.ok (acc ++ p.reverse) := by
  intro v p h
  induction h with
  | base =>
    intro hne fuel acc hfuel
    obtain ⟨f, rfl⟩ : ∃ f, fuel = f + 1 := ⟨fuel - 1, by simp at hfuel; omega⟩
    have : s ≠ "" := hne s (by simp)
    simp [walk_back, this, hnoprev]
  | step hc hf ih =>
    rename_i u v p
    intro hne fuel acc hfuel
    obtain ⟨f, rfl⟩ : ∃ f, fuel = f + 1 := ⟨fuel - 1, by simp at hfuel; omega⟩
    have hv : v ≠ "" := hne v (by simp)
    have hlen : p.length ≤ f := by
      simp at hfuel
      omega
    simp only [walk_back, hv, if_false, hf]
    rw [ih (fun x hx => hne x (List.mem_append_left _ hx)) f (acc ++ [v]) hlen]
    simp

theorem prev_chain_end (previous : UMap String) (s v : String) (p : List String)
    (h : PrevChain previous s v p) : v = s ∨ ∃ u, UMap.find previous v = some u := by
  cases h with
  | base => exact Or.inl rfl
  | step _ hf => exact Or.inr ⟨_, hf⟩

theorem trail_snoc (ts : TransportSystem) (s : String) :
    ∀ v p c, Trail ts s v p c → ∃ q, p = q ++ [v] := by
  intro v p c h
  cases h with
  | base => exact ⟨[], rfl⟩
  | step _ _ => exact ⟨_, rfl⟩

theorem trail_route (ts : TransportSystem) (s : String) :
    ∀ v p c, Trail ts s v p c → Route ts s v c := by
  intro v p c h
  induction h with
  | base => exact Route.start
  | step _ hc ih => exact Route.step ih hc

theorem trail_ends (ts : TransportSystem) (s : String) :
    ∀ v p c, Trail ts s v p c → p.head? = some s ∧ p.getLast? = some v := by
  intro v p c h
  induction h with
  | base => exact ⟨rfl, rfl⟩
  | @step u v p c w htr _ ih =>
    obtain ⟨q, hq⟩ := trail_snoc ts s u p c htr
    refine ⟨?_, by simp⟩
    cases p with
    | nil => simp at hq
    | cons a p' =>
      simpa using ih.1

theorem trail_linked (ts : TransportSystem) (s : String) :
    ∀ v p c, Trail ts s v p c →
      List.Chain' (fun a b => ∃ w, HasConnection ts a b w) p := by
  intro v p c h
  induction h with
  | base => simp
  | @step u v p c w htr hc ih =>
    apply List.Chain'.append ih (by simp)
    intro x hx y hy
    rw [(trail_ends ts s u p c htr).2] at hx
    simp only [Option.mem_def, Option.some.injEq, List.head?_cons] at hx hy
    subst hx
    subst hy
    exact ⟨w, hc⟩

theorem path_weight_from_snoc (ts : TransportSystem) (u v : String) :
    ∀ (q : List String) (total : Double), path_weight_from ts total (q ++ [u, v])
      = Double.add (path_weight_from ts total (q ++ [u]))
          ((cheapest v (connections_of ts u)).getD 0) := by
  intro q
  induction q with
  | nil => intro total; simp [path_weight_from]
  | cons a q ih =>
    intro total
    cases q with
    | nil =>
      simp [path_weight_from]
    | cons b q' =>
      have e1 : ∀ l, path_weight_from ts total (a :: b :: l)
          = path_weight_from ts
              (Double.add total ((cheapest b (connections_of ts a)).getD 0)) (b :: l) :=
        fun l => rfl
      rw [List.cons_append, List.cons_append, e1] at *
      rw [List.cons_append, List.cons_append, e1]
      exact ih _

theorem path_weight_snoc (ts : TransportSystem) (u v : String) (q : List String) :
    path_weight ts (q ++ [u, v])
      = Double.add (path_weight ts (q ++ [u])) ((cheapest v (connections_of ts u)).getD 0) :=
  path_weight_from_snoc ts u v q _

theorem first_match_sum_from_snoc (ts : TransportSystem) (u v : String) :
    ∀ (q : List String) (total : Double), first_match_sum_from ts total (q ++ [u, v])
      = match first_match v (connections_of ts u) with
        | some conn => Double.add (first_match_sum_from ts total (q ++ [u])) conn.weight
        | none => first_match_sum_from ts total (q ++ [u]) := by
  intro q
  induction q with
  | nil =>
    intro total
    cases hf : first_match v (connections_of ts u) <;> simp [first_match_sum_from, hf]
  | cons a q ih =>
    intro total
    cases q with
    | nil =>
      cases hf : first_match u (connections_of ts a) with
      | none => simp [first_match_sum_from, hf]
      | some conn => simp [first_match_sum_from, hf]
    | cons b q' =>
      have e1 : ∀ l, first_match_sum_from ts total (a :: b :: l)
          = match first_match b (connections_of ts a) with
            | some conn => first_match_sum_from ts (Double.add total conn.weight) (b :: l)
            | none => first_match_sum_from ts total (b :: l) :=
        fun l => rfl
      rw [List.cons_append, List.cons_append, e1] at *
      rw [List.cons_append, List.cons_append, e1]
      cases first_match b (connections_of ts a) with
      | none => exact ih _
      | some conn => exact ih _

theorem first_match_sum_snoc (ts : TransportSystem) (u v : String) (q : List String) :
    first_match_sum ts (q ++ [u, v])
      = match first_match v (connections_of ts u) with
        | some conn => Double.add (first_match_sum ts (q ++ [u])) conn.weight
        | none => first_match_sum ts (q ++ [u]) :=
  first_match_sum_from_snoc ts u v q _

theorem sources_present_snoc (ts : TransportSystem) (u v : String) :
    ∀ q : List String, sources_present ts (q ++ [u, v])
      = (sources_present ts (q ++ [u]) && (UMap.find ts.adjacency_list u).isSome) := by
  intro q
  induction q with
  | nil => simp [sources_present]
  | cons a q ih =>
    cases q with
    | nil => simp [sources_present]
    | cons b q' =>
      have e1 : ∀ l, sources_present ts (a :: b :: l)
          = ((UMap.find ts.adjacency_list a).isSome && sources_present ts (b :: l)) :=
        fun l => rfl
      rw [List.cons_append, List.cons_append, e1] at *
      rw [List.cons_append, List.cons_append, e1, ih, Bool.and_assoc]

theorem cheapest_spec (v : String) :
    ∀ (conns : List Connection) (conn : Connection), conn ∈ conns → conn.to_id = v →
      ∃ m, cheapest v conns = some m ∧ m ≤ conn.weight ∧
        ∃ conn' ∈ conns, conn'.to_id = v ∧ conn'.weight = m := by
  intro conns
  induction conns with
  | nil => intro conn h; simp at h
  | cons a rest ih =>
    intro conn hmem hto
    by_cases ha : a.to_id = v
    · simp only [cheapest, ha, if_true]
      cases hrest : cheapest v rest with
      | none =>
        have hconn : conn = a := by
          simp only [List.mem_cons] at hmem
          rcases hmem with hmem | hmem
          · exact hmem
          · obtain ⟨m, hm, _⟩ := ih conn hmem hto
            rw [hrest] at hm
            cases hm
        refine ⟨a.weight, rfl, by rw [hconn], a, by simp, ha, rfl⟩
      | some m0 =>
        have hatt : ∃ conn' ∈ rest, conn'.to_id = v ∧ conn'.weight = m0 := by
          have : ∀ (l : List Connection) (m : Int), cheapest v l = some m →
              ∃ conn' ∈ l, conn'.to_id = v ∧ conn'.weight = m := by
            intro l
            induction l with
            | nil => intro m h; simp [cheapest] at h
            | cons b l ihl =>
              intro m h
              by_cases hb : b.to_id = v
              · simp only [cheapest, hb, if_true] at h
                cases hl : cheapest v l with
                | none =>
                  simp only [hl, Option.some.injEq] at h
                  exact ⟨b, by simp, hb, h⟩
                | some m1 =>
                  simp only [hl, Option.some.injEq] at h
                  obtain ⟨c', hc1, hc2, hc3⟩ := ihl m1 hl
                  by_cases hle : b.weight ≤ m1
                  · exact ⟨b, by simp, hb, by rw [← h]; simp [hle]⟩
                  · refine ⟨c', List.mem_cons_of_mem _ hc1, hc2, ?_⟩
                    rw [← h, hc3]
                    simp only [not_le] at hle
                    simp [le_of_lt hle]
              · simp only [cheapest, hb, if_false] at h
                obtain ⟨c', hc1, hc2, hc3⟩ := ihl m h
                exact ⟨c', List.mem_cons_of_mem _ hc1, hc2, hc3⟩
          exact this rest m0 hrest
        refine ⟨min a.weight m0, rfl, ?_, ?_⟩
        · simp only [List.mem_cons] at hmem
          rcases hmem with hmem | hmem
          · rw [hmem]
            exact min_le_left _ _
          · obtain ⟨m, hm, hle, _⟩ := ih conn hmem hto
            rw [hrest] at hm
            cases hm
            exact le_trans (min_le_right _ _) hle
        · by_cases hle : a.weight ≤ m0
          · exact ⟨a, by simp, ha, by simp [hle]⟩
          · obtain ⟨c', hc1, hc2, hc3⟩ := hatt
            refine ⟨c', List.mem_cons_of_mem _ hc1, hc2, ?_⟩
            simp only [not_le] at hle
            rw [hc3]
            simp [le_of_lt hle]
    · have hmem' : conn ∈ rest := by
        simp only [List.mem_cons] at hmem
        rcases hmem with hmem | hmem
        · rw [hmem] at hto
          exact absurd hto ha
        · exact hmem
      obtain ⟨m, hm, hle, c', hc1, hc2, hc3⟩ := ih conn hmem' hto
      exact ⟨m, by simp [cheapest, ha, hm], hle, c', List.mem_cons_of_mem _ hc1, hc2, hc3⟩

theorem first_match_spec (v : String) :
    ∀ (conns : List Connection) (conn : Connection), conn ∈ conns → conn.to_id = v →
      ∃ c0, first_match v conns = some c0 ∧ c0 ∈ conns ∧ c0.to_id = v := by
  intro conns
  induction conns with
  | nil => intro conn h; simp at h
  | cons a rest ih =>
    intro conn hmem hto
    by_cases ha : a.to_id = v
    · exact ⟨a, by simp [first_match, ha], by simp, ha⟩
    · have hmem' : conn ∈ rest := by
        simp only [List.mem_cons] at hmem
        rcases hmem with hmem | hmem
        · rw [hmem] at hto
          exact absurd hto ha
        · exact hmem
      obtain ⟨c0, h1, h2, h3⟩ := ih conn hmem' hto
      exact ⟨c0, by simp [first_match, ha, h1], List.mem_cons_of_mem _ h2, h3⟩

/-- The cheapest-connection weight of a trail is at most its weight and is
the weight of a route; every station of it but the last has an adjacency
entry; and when first connections are cheapest the first-match sum is that
weight. -/
theorem trail_weight (ts : TransportSystem) (s : String) :
    ∀ v p c, Trail ts s v p c →
      Double.le (path_weight ts p) c ∧ Route ts s v (path_weight ts p) ∧
      sources_present ts p = true ∧
      (FirstIsCheapest ts → first_match_sum ts p = path_weight ts p) := by
  intro v p c h
  induction h with
  | base => exact ⟨Double.le_refl _, Route.start, rfl, fun _ => rfl⟩
  | @step u v p c w htr hc ih =>
    obtain ⟨q, hq⟩ := trail_snoc ts s u p c htr
    obtain ⟨i1, i2, i3, i4⟩ := ih
    obtain ⟨conn, hmem, hto, hwt⟩ := hc
    obtain ⟨m, hm, hle, conn', hc1, hc2, hc3⟩ := cheapest_spec v _ conn hmem hto
    obtain ⟨c0, hf1, hf2, hf3⟩ := first_match_spec v _ conn hmem hto
    have hsome : (UMap.find ts.adjacency_list u).isSome = true := by
      cases hfind : UMap.find ts.adjacency_list u with
      | some l => rfl
      | none =>
        simp [connections_of, UMap.get, hfind] at hmem
    have happ : p ++ [v] = q ++ [u, v] := by
      rw [hq]
      simp
    rw [happ, path_weight_snoc, first_match_sum_snoc, sources_present_snoc, ← hq, hm, hf1]
    simp only [Option.getD_some]
    refine ⟨?_, ?_, ?_, ?_⟩
    · exact Double.le_trans (Double.add_mono_left m i1)
        (Double.add_mono_right c (by omega))
    · exact Route.step i2 ⟨conn', hc1, hc2, hc3⟩
    · simp [i3, hsome]
    · intro hfc
      rw [i4 hfc]
      have h1 : c0.weight ≤ conn'.weight := hfc u v c0 hf1 conn' hc1 hc2
      obtain ⟨m', hm', hle', _⟩ := cheapest_spec v _ c0 hf2 hf3
      rw [hm] at hm'
      cases hm'
      have : c0.weight = m := by omega
      rw [this]

/-! ## Optimality of `find_shortest_path` -/

theorem trail_reachable (ts : TransportSystem) (s : String) :
    ∀ v p c, Trail ts s v p c → ∀ x ∈ p, Reachable ts s x := by
  intro v p c h
  induction h with
  | base =>
    intro x hx
    simp only [List.mem_singleton] at hx
    rw [hx]
    exact ⟨_, Route.start⟩
  | @step u v p c w htr hc ih =>
    intro x hx
    simp only [List.mem_append, List.mem_singleton] at hx
    rcases hx with hx | hx
    · exact ih x hx
    · rw [hx]
      exact ⟨_, Route.step (trail_route ts s u p c htr) hc⟩

/-- The search returns a trail from `s` to `e` whose weight is the distance
recorded for `e`, and no route from `s` to `e` weighs less. -/
theorem search_core (pop : PopPolicy) (hpop : LawfulPop pop) (ts : TransportSystem)
    (s e : String) (hw : NonNegWeights ts) (ht : TargetsExist ts)
    (hempty : ∀ v, Reachable ts s v → v ≠ "") (hs : station_exists ts s = true)
    (hreach : FinitelyReachable ts s e)
    (hadj : ∀ v, station_exists ts v = true → Reachable ts s v → v ≠ e →
      (UMap.find ts.adjacency_list v).isSome = true) :
    ∃ N, ∀ fuel, N ≤ fuel → ∃ st path,
      search_loop pop ts e fuel (init_state ts s) = Outcome.ok st ∧
      find_shortest_path pop fuel ts s e = Outcome.ok path ∧
      Trail ts s e path (dist_of st e) ∧ ∀ c, Route ts s e c → Double.le (dist_of st e) c := by
  obtain ⟨hI0, hE0⟩ := init_inv ts s hs
  obtain ⟨N, r, hr, hN⟩ := search_halts pop hpop ts e hw _ (init_state ts s) rfl
    (by
      intro n hn
      simp only [init_state, List.mem_singleton] at hn
      subst hn
      exact is_cost_zero)
  obtain ⟨st, hst, hdone⟩ := search_loop_done pop hpop ts s e hw ht hs hreach hadj N
    (init_state ts s) _ s r hI0 hE0 (hN N (le_refl _)) hr
  obtain ⟨p, hopt, hchain, hnoprev, hD0, hprev⟩ := hdone
  obtain ⟨htrail, hstations⟩ := chain_trail ts s st hs hD0 hprev e p hchain
  have hne : ∀ x ∈ p, x ≠ "" :=
    fun x hx => hempty x (trail_reachable ts s e p _ htrail x hx)
  refine ⟨max N p.length, ?_⟩
  intro fuel hfuel
  have hloop : search_loop pop ts e fuel (init_state ts s) = Outcome.ok st := by
    rw [hN fuel (le_trans (le_max_left _ _) hfuel), hst]
  have hwalk := walk_back_chain st.previous s hnoprev e p hchain hne fuel []
    (le_trans (le_max_right _ _) hfuel)
  have hcheck : ¬ ((UMap.find st.previous e).isNone = true ∧ e ≠ s) := by
    rintro ⟨h1, h2⟩
    rcases prev_chain_end st.previous s e p hchain with h | ⟨u, hu⟩
    · exact h2 h
    · rw [hu] at h1
      cases h1
  refine ⟨st, p, hloop, ?_, htrail, hopt⟩
  unfold find_shortest_path
  simp only [hloop, hcheck, if_false, hwalk, List.nil_append, List.reverse_reverse]

/-- C1 (as amended): for every graph with non-negative weights whose
connections all target existing stations, and for every pair of existing
stations `s`, `e` such that `e` is reachable from `s` along a sequence of
connections whose total weight is finite, no station reachable from `s` (`s`
included) has the empty id, and every station reachable from `s` other than
`e` has an adjacency entry: with enough iterations allowed,
`find_shortest_path(s, e)` returns a sequence that starts with `s`, ends with
`e`, has a connection from each element to the next, and whose total weight
(the cheapest connection for each hop) is the total weight of a sequence of
connections from `s` to `e` and is at most the total weight of every such
sequence; a total weight is the `double` obtained by adding the weights one
after the other from `s` on, as the search and `calculate_path_cost` do. -/
theorem shortest_path_optimal (pop : PopPolicy) (hpop : LawfulPop pop)
    (ts : TransportSystem) (s e : String) (hw : NonNegWeights ts) (ht : TargetsExist ts)
    (hempty : ∀ v, Reachable ts s v → v ≠ "") (hs : station_exists ts s = true)
    (_he : station_exists ts e = true) (hreach : FinitelyReachable ts s e)
    (hadj : ∀ v, station_exists ts v = true → Reachable ts s v → v ≠ e →
      (UMap.find ts.adjacency_list v).isSome = true) :
    ∃ N, ∀ fuel, N ≤ fuel → ∃ path,
      find_shortest_path pop fuel ts s e = Outcome.ok path ∧
      path.head? = some s ∧ path.getLast? = some e ∧
      List.Chain' (fun a b => ∃ w, HasConnection ts a b w) path ∧
      Route ts s e (path_weight ts path) ∧
      ∀ c, Route ts s e c → Double.le (path_weight ts path) c := by
  obtain ⟨N, hN⟩ := search_core pop hpop ts s e hw ht hempty hs hreach hadj
  refine ⟨N, ?_⟩
  intro fuel hfuel
  obtain ⟨st, path, _, hpath, htrail, hopt⟩ := hN fuel hfuel
  obtain ⟨h1, h2⟩ := trail_ends ts s e path _ htrail
  obtain ⟨w1, w2, _, _⟩ := trail_weight ts s e path _ htrail
  exact ⟨path, hpath, h1, h2, trail_linked ts s e path _ htrail, w2,
    fun c hc => Double.le_trans w1 (hopt c hc)⟩

/-- C2 (as amended): for every graph with non-negative weights whose
connections all target existing stations and in which the first connection
of each from-to pair is a cheapest one of that pair, and for every pair of
existing stations `s`, `e` with `e` reachable from `s` along a sequence of
connections whose total weight is finite (no station reachable from `s`
having the empty id, and every station reachable from `s` other than `e`
having an adjacency entry): with enough iterations allowed,
`calculate_path_cost` of the path returned by `find_shortest_path(s, e)`
equals the distance the search has recorded for `e`, which is the minimum
total weight over all sequences of connections from `s` to `e`; a total
weight is the `double` obtained by adding the weights one after the other
from `s` on. -/
theorem recomputed_cost_is_distance (pop : PopPolicy) (hpop : LawfulPop pop)
    (ts : TransportSystem) (s e : String) (hw : NonNegWeights ts) (ht : TargetsExist ts)
    (hempty : ∀ v, Reachable ts s v → v ≠ "") (hfirst : FirstIsCheapest ts)
    (hs : station_exists ts s = true) (_he : station_exists ts e = true)
    (hreach : FinitelyReachable ts s e)
    (hadj : ∀ v, station_exists ts v = true → Reachable ts s v → v ≠ e →
      (UMap.find ts.adjacency_list v).isSome = true) :
    ∃ N, ∀ fuel, N ≤ fuel → ∃ st path d,
      search_loop pop ts e fuel (init_state ts s) = Outcome.ok st ∧
      find_shortest_path pop fuel ts s e = Outcome.ok path ∧
      calculate_path_cost ts path = Outcome.ok d ∧
      dist_of st e = d ∧
      Route ts s e d ∧ ∀ c, Route ts s e c → Double.le d c := by
  obtain ⟨N, hN⟩ := search_core pop hpop ts s e hw ht hempty hs hreach hadj
  refine ⟨N, ?_⟩
  intro fuel hfuel
  obtain ⟨st, path, hloop, hpath, htrail, hopt⟩ := hN fuel hfuel
  obtain ⟨w1, w2, w3, w4⟩ := trail_weight ts s e path _ htrail
  have hroute : Route ts s e (dist_of st e) := trail_route ts s e path _ htrail
  have heq : path_weight ts path = dist_of st e := Double.le_antisymm w1 (hopt _ w2)
  refine ⟨st, path, dist_of st e, hloop, hpath, ?_, rfl, hroute, hopt⟩
  obtain ⟨q, hq⟩ := trail_snoc ts s e path _ htrail
  cases path with
  | nil => simp at hq
  | cons first rest =>
    simp only [calculate_path_cost]
    rw [cost_loop_present ts rest first _ w3]
    have h4 := w4 hfirst
    unfold first_match_sum at h4
    rw [h4, heq]

theorem example_abc_connections (u : String) (conn : Connection)
    (h : conn ∈ connections_of example_abc u) :
    (u = "A" ∧ (conn = ⟨"B", whole 5, "bus"⟩ ∨ conn = ⟨"C", whole 10, "train"⟩)) ∨
    (u = "B" ∧ conn = ⟨"C", whole 3, "bus"⟩) := by
  simp only [connections_of, UMap.get, example_abc, UMap.find] at h
  by_cases hA : "A" = u
  · simp only [hA, if_true, List.mem_cons, List.mem_singleton, List.not_mem_nil,
      or_false] at h
    exact Or.inl ⟨hA.symm, h⟩
  · by_cases hB : "B" = u
    · simp only [hA, hB, if_true, if_false, List.mem_cons, List.mem_singleton,
        List.not_mem_nil, or_false] at h
      exact Or.inr ⟨hB.symm, h⟩
    · simp [hA, hB] at h

theorem example_abc_non_neg : NonNegWeights example_abc := by
  intro u conn h
  rcases example_abc_connections u conn h with ⟨_, h | h⟩ | ⟨_, h⟩ <;> subst h <;> decide

theorem example_abc_targets : TargetsExist example_abc := by
  intro u conn h
  rcases example_abc_connections u conn h with ⟨_, h | h⟩ | ⟨_, h⟩ <;> subst h <;> decide

theorem example_abc_stations (v : String) (h : station_exists example_abc v = true) :
    v = "A" ∨ v = "B" ∨ v = "C" := by
  simp only [station_exists, example_abc, UMap.find] at h
  by_cases hA : "A" = v
  · exact Or.inl hA.symm
  · by_cases hB : "B" = v
    · exact Or.inr (Or.inl hB.symm)
    · by_cases hC : "C" = v
      · exact Or.inr (Or.inr hC.symm)
      · simp [hA, hB, hC] at h

theorem example_abc_entries (v : String) (h : station_exists example_abc v = true)
    (hne : v ≠ "C") : (UMap.find example_abc.adjacency_list v).isSome = true := by
  rcases example_abc_stations v h with h | h | h
  · subst h
    decide
  · subst h
    decide
  · exact absurd h hne

theorem example_abc_no_empty (v : String) (h : Reachable example_abc "A" v) : v ≠ "" := by
  obtain ⟨c, hr⟩ := h
  cases hr with
  | start => decide
  | step _ hc =>
    obtain ⟨conn, hmem, hto, _⟩ := hc
    rcases example_abc_connections _ conn hmem with ⟨_, h | h⟩ | ⟨_, h⟩ <;>
      subst h <;> subst hto <;> decide

theorem example_abc_reachable : FinitelyReachable example_abc "A" "C" :=
  ⟨Double.add (Double.finite 0) (whole 10),
    Route.step Route.start ⟨⟨"C", whole 10, "train"⟩, by decide, rfl, rfl⟩, by decide⟩

theorem example_abc_first_is_cheapest : FirstIsCheapest example_abc := by
  intro u v conn hfirst conn' hmem hto
  rcases example_abc_connections u conn' hmem with ⟨hu, h | h⟩ | ⟨hu, h⟩
  · subst hu
    subst h
    subst hto
    have : first_match "B" (connections_of example_abc "A") = some ⟨"B", whole 5, "bus"⟩ := by
      decide
    rw [this] at hfirst
    cases hfirst
    decide
  · subst hu
    subst h
    subst hto
    have : first_match "C" (connections_of example_abc "A") = some ⟨"C", whole 10, "train"⟩ := by
      decide
    rw [this] at hfirst
    cases hfirst
    decide
  · subst hu
    subst h
    subst hto
    have : first_match "C" (connections_of example_abc "B") = some ⟨"C", whole 3, "bus"⟩ := by
      decide
    rw [this] at hfirst
    cases hfirst
    decide

/-- Witness of C1: the example of the specification, where the path from
`A` to `C` is `A, B, C` of weight 8, not the direct connection of weight 10. -/
theorem shortest_path_optimal_witness :
    LawfulPop pop_first_min ∧ NonNegWeights example_abc ∧ TargetsExist example_abc ∧
    FinitelyReachable example_abc "A" "C" ∧
    find_shortest_path pop_first_min 10 example_abc "A" "C" = Outcome.ok ["A", "B", "C"] ∧
    path_weight example_abc ["A", "B", "C"] = Double.finite (whole 8) ∧
    ∃ N, ∀ fuel, N ≤ fuel → ∃ path,
      find_shortest_path pop_first_min fuel example_abc "A" "C" = Outcome.ok path ∧
      path.head? = some "A" ∧ path.getLast? = some "C" ∧
      List.Chain' (fun a b => ∃ w, HasConnection example_abc a b w) path ∧
      Route example_abc "A" "C" (path_weight example_abc path) ∧
      ∀ c, Route example_abc "A" "C" c → Double.le (path_weight example_abc path) c :=
  ⟨pop_first_min_lawful, example_abc_non_neg, example_abc_targets, example_abc_reachable,
    by decide, by decide,
    shortest_path_optimal pop_first_min pop_first_min_lawful example_abc "A" "C"
      example_abc_non_neg example_abc_targets example_abc_no_empty (by decide) (by decide)
      example_abc_reachable (fun v hv _ hne => example_abc_entries v hv hne)⟩

/-- Witness of C2: in the example of the specification the recomputed cost
of the returned path is the recorded distance 8. -/
theorem recomputed_cost_is_distance_witness :
    LawfulPop pop_first_min ∧ NonNegWeights example_abc ∧ TargetsExist example_abc ∧
    FirstIsCheapest example_abc ∧ FinitelyReachable example_abc "A" "C" ∧
    calculate_path_cost example_abc ["A", "B", "C"] = Outcome.ok (Double.finite (whole 8)) ∧
    ∃ N, ∀ fuel, N ≤ fuel → ∃ st path d,
      search_loop pop_first_min example_abc "C" fuel (init_state example_abc "A")
        = Outcome.ok st ∧
      find_shortest_path pop_first_min fuel example_abc "A" "C" = Outcome.ok path ∧
      calculate_path_cost example_abc path = Outcome.ok d ∧
      dist_of st "C" = d ∧
      Route example_abc "A" "C" d ∧ ∀ c, Route example_abc "A" "C" c → Double.le d c :=
  ⟨pop_first_min_lawful, example_abc_non_neg, example_abc_targets,
    example_abc_first_is_cheapest, example_abc_reachable, by decide,
    recomputed_cost_is_distance pop_first_min pop_first_min_lawful example_abc "A" "C"
      example_abc_non_neg example_abc_targets example_abc_no_empty
      example_abc_first_is_cheapest (by decide) (by decide) example_abc_reachable
      (fun v hv _ hne => example_abc_entries v hv hne)⟩

theorem empty_start_connections (u : String) (conn : Connection)
    (h : conn ∈ connections_of empty_start_store u) : u = "" ∧ conn = ⟨"B", whole 1, "bus"⟩ := by
  simp only [connections_of, UMap.get, empty_start_store, UMap.find] at h
  by_cases h0 : "" = u
  · simp only [h0, if_true, List.mem_singleton] at h
    exact ⟨h0.symm, h⟩
  · simp [h0] at h

/-- C1 (as stated) fails: the loaded store has a station with the empty id
and a connection from it to `B`; all the conditions of the claim hold, and
the query from the empty id to `B` returns `[B]`, which does not start with
the start station. -/
theorem shortest_path_empty_start_dropped :
    NonNegWeights empty_start_store ∧ TargetsExist empty_start_store ∧
    station_exists empty_start_store "" = true ∧
    station_exists empty_start_store "B" = true ∧
    Reachable empty_start_store "" "B" ∧
    (∀ v, station_exists empty_start_store v = true → Reachable empty_start_store "" v →
      v ≠ "B" → (UMap.find empty_start_store.adjacency_list v).isSome = true) ∧
    (∀ fuel, find_shortest_path pop_first_min (fuel + 2) empty_start_store "" "B"
      = Outcome.ok ["B"]) ∧
    (["B"] : List String).head? ≠ some "" := by
  refine ⟨?_, ?_, by decide, by decide, ?_, ?_, ?_, by decide⟩
  · intro u conn h
    obtain ⟨_, h⟩ := empty_start_connections u conn h
    subst h
    decide
  · intro u conn h
    obtain ⟨_, h⟩ := empty_start_connections u conn h
    subst h
    decide
  · exact ⟨_, Route.step Route.start ⟨⟨"B", whole 1, "bus"⟩, by decide, rfl, rfl⟩⟩
  · intro v hv _ hne
    simp only [station_exists, empty_start_store, UMap.find] at hv
    by_cases h0 : "" = v
    · subst h0
      decide
    · by_cases hB : "B" = v
      · exact absurd hB.symm hne
      · simp [h0, hB] at hv
  · intro fuel
    have h1 : Double.add (Double.finite 0) (whole 1) = Double.finite (whole 1) := by decide
    simp [find_shortest_path, search_loop, init_state, pop_first_min_singleton,
      empty_start_store, mk_station, UMap.find, UMap.touch, UMap.get, UMap.assign,
      init_distances, Double.lt, relax, h1, walk_back]

theorem parallel_connections (u : String) (conn : Connection)
    (h : conn ∈ connections_of parallel_store u) :
    u = "A" ∧ (conn = ⟨"B", whole 5, "bus"⟩ ∨ conn = ⟨"B", whole 3, "train"⟩) := by
  simp only [connections_of, UMap.get, parallel_store, UMap.find] at h
  by_cases h0 : "A" = u
  · simp only [h0, if_true, List.mem_cons, List.mem_singleton, List.not_mem_nil,
      or_false] at h
    exact ⟨h0.symm, h⟩
  · simp [h0] at h

/-- C2 (as stated) fails: the store holds two connections from `A` to `B`,
of weights 5 and 3 in this order; all the conditions of the claim hold, the
search records the distance 3 for `B` and returns `A, B`, and
`calculate_path_cost` of that path is 5. It also fails without parallel
connections in the store with a station of empty id: the search from it to
`B` records the distance 1 and returns `[B]`, whose recomputed cost is 0. -/
theorem recomputed_cost_exceeds_distance :
    NonNegWeights parallel_store ∧ TargetsExist parallel_store ∧
    station_exists parallel_store "A" = true ∧ station_exists parallel_store "B" = true ∧
    Route parallel_store "A" "B" (Double.finite (whole 3)) ∧
    (∀ v, station_exists parallel_store v = true → Reachable parallel_store "A" v →
      v ≠ "B" → (UMap.find parallel_store.adjacency_list v).isSome = true) ∧
    (∃ st, search_loop pop_first_min parallel_store "B" 10 (init_state parallel_store "A")
        = Outcome.ok st ∧ dist_of st "B" = Double.finite (whole 3)) ∧
    find_shortest_path pop_first_min 10 parallel_store "A" "B" = Outcome.ok ["A", "B"] ∧
    calculate_path_cost parallel_store ["A", "B"] = Outcome.ok (Double.finite (whole 5)) ∧
    (∃ st, search_loop pop_first_min empty_start_store "B" 10
        (init_state empty_start_store "") = Outcome.ok st ∧
      dist_of st "B" = Double.finite (whole 1)) ∧
    find_shortest_path pop_first_min 10 empty_start_store "" "B" = Outcome.ok ["B"] ∧
    calculate_path_cost empty_start_store ["B"] = Outcome.ok (Double.finite 0) := by
  refine ⟨?_, ?_, by decide, by decide, ?_, ?_, ?_, by decide, by decide,
    ⟨_, rfl, by decide⟩, by decide, by decide⟩
  · intro u conn h
    rcases parallel_connections u conn h with ⟨_, h | h⟩ <;> subst h <;> decide
  · intro u conn h
    rcases parallel_connections u conn h with ⟨_, h | h⟩ <;> subst h <;> decide
  · have h3 : Double.add (Double.finite 0) (whole 3) = Double.finite (whole 3) := by decide
    have : Route parallel_store "A" "B" (Double.add (Double.finite 0) (whole 3)) :=
      Route.step Route.start ⟨⟨"B", whole 3, "train"⟩, by decide, rfl, rfl⟩
    rw [h3] at this
    exact this
  · intro v hv _ hne
    simp only [station_exists, parallel_store, UMap.find] at hv
    by_cases hA : "A" = v
    · subst hA
      decide
    · by_cases hB : "B" = v
      · exact absurd hB.symm hne
      · simp [hA, hB] at hv
  · exact ⟨_, rfl, by decide⟩

theorem overflow_connections (u : String) (conn : Connection)
    (h : conn ∈ connections_of overflow_store u) :
    (u = "A" ∧ conn = ⟨"B", two_pow_1023, "bus"⟩) ∨
    (u = "B" ∧ conn = ⟨"C", two_pow_1023, "bus"⟩) := by
  simp only [connections_of, UMap.get, overflow_store, UMap.find] at h
  by_cases hA : "A" = u
  · simp only [hA, if_true, List.mem_singleton] at h
    exact Or.inl ⟨hA.symm, h⟩
  · by_cases hB : "B" = u
    · simp only [hA, hB, if_true, if_false, List.mem_singleton] at h
      exact Or.inr ⟨hB.symm, h⟩
    · simp [hA, hB] at h

theorem overflow_routes (v : String) (c : Double) (h : Route overflow_store "A" v c) :
    (v = "A" ∧ c = Double.finite 0) ∨ (v = "B" ∧ c = Double.finite two_pow_1023) ∨
      (v = "C" ∧ c = Double.pos_inf) := by
  have h1 : Double.add (Double.finite 0) two_pow_1023 = Double.finite two_pow_1023 := by
    decide
  have h2 : Double.add (Double.finite two_pow_1023) two_pow_1023 = Double.pos_inf := by
    decide
  induction h with
  | start => exact Or.inl ⟨rfl, rfl⟩
  | step _ hc ih =>
    obtain ⟨conn, hmem, hto, hwt⟩ := hc
    rcases overflow_connections _ conn hmem with ⟨hu, hconn⟩ | ⟨hu, hconn⟩
    · subst hconn
      subst hto
      subst hwt
      rcases ih with ⟨_, hc0⟩ | ⟨hv, _⟩ | ⟨hv, _⟩
      · rw [hc0, h1]
        exact Or.inr (Or.inl ⟨rfl, rfl⟩)
      · rw [hv] at hu
        exact absurd hu (by decide)
      · rw [hv] at hu
        exact absurd hu (by decide)
    · subst hconn
      subst hto
      subst hwt
      rcases ih with ⟨hv, _⟩ | ⟨_, hc0⟩ | ⟨hv, _⟩
      · rw [hv] at hu
        exact absurd hu (by decide)
      · rw [hc0, h2]
        exact Or.inr (Or.inr ⟨rfl, rfl⟩)
      · rw [hv] at hu
        exact absurd hu (by decide)

/-- Why optimality asks for a sequence of finite total weight: with `A→B` and
`B→C` of weight `2 ^ 1023` the weights are non-negative, the targets exist,
`C` is reachable from `A`, the adjacency entries are there and no station
has the empty id, but the only sequence of connections from `A` to `C` has
the total weight +∞, which is not below the initial distance of `C`: the
query returns the empty sequence. -/
theorem shortest_path_overflow_dropped :
    NonNegWeights overflow_store ∧ TargetsExist overflow_store ∧
    station_exists overflow_store "A" = true ∧ station_exists overflow_store "C" = true ∧
    Reachable overflow_store "A" "C" ∧
    (∀ v, station_exists overflow_store v = true → Reachable overflow_store "A" v →
      v ≠ "C" → (UMap.find overflow_store.adjacency_list v).isSome = true) ∧
    (∀ v, Reachable overflow_store "A" v → v ≠ "") ∧
    ¬ FinitelyReachable overflow_store "A" "C" ∧
    find_shortest_path pop_first_min 10 overflow_store "A" "C" = Outcome.ok [] := by
  refine ⟨?_, ?_, by decide, by decide, ?_, ?_, ?_, ?_, by decide⟩
  · intro u conn h
    rcases overflow_connections u conn h with ⟨_, h⟩ | ⟨_, h⟩ <;> subst h <;> decide
  · intro u conn h
    rcases overflow_connections u conn h with ⟨_, h⟩ | ⟨_, h⟩ <;> subst h <;> decide
  · exact ⟨_, Route.step (Route.step Route.start
      ⟨⟨"B", two_pow_1023, "bus"⟩, by decide, rfl, rfl⟩)
      ⟨⟨"C", two_pow_1023, "bus"⟩, by decide, rfl, rfl⟩⟩
  · rintro v _ ⟨c, hr⟩ hne
    rcases overflow_routes v c hr with ⟨hv, _⟩ | ⟨hv, _⟩ | ⟨hv, _⟩
    · subst hv
      decide
    · subst hv
      decide
    · exact absurd hv hne
  · rintro v ⟨c, hr⟩
    rcases overflow_routes v c hr with ⟨hv, _⟩ | ⟨hv, _⟩ | ⟨hv, _⟩ <;> subst hv <;> decide
  · rintro ⟨c, hr, hfin⟩
    rcases overflow_routes "C" c hr with ⟨hv, _⟩ | ⟨hv, _⟩ | ⟨_, hc⟩
    · exact absurd hv (by decide)
    · exact absurd hv (by decide)
    · exact hfin hc

/-- Why optimality is about the rounded total weight: with `A→B` of weight
9007199254740994, `B→C` of weight 1 and `A→C` of weight 9007199254740996 the
query from `A` to `C` returns the direct connection, although the real
number 9007199254740995 is lower; added up in `double`, the weights of `A→B`
and `B→C` give 9007199254740996 as well. -/
theorem shortest_path_rounded_sum :
    find_shortest_path pop_first_min 10 rounding_store "A" "C" = Outcome.ok ["A", "C"] ∧
    HasConnection rounding_store "A" "B" (whole (2 ^ 53 + 2)) ∧
    HasConnection rounding_store "B" "C" (whole 1) ∧
    HasConnection rounding_store "A" "C" (whole (2 ^ 53 + 4)) ∧
    whole (2 ^ 53 + 2) + whole 1 < whole (2 ^ 53 + 4) ∧
    Double.add (Double.add (Double.finite 0) (whole (2 ^ 53 + 2))) (whole 1)
      = Double.finite (whole (2 ^ 53 + 4)) ∧
    path_weight rounding_store ["A", "B", "C"] = path_weight rounding_store ["A", "C"] := by
  refine ⟨by decide, ?_, ?_, ?_, by decide, by decide, by decide⟩
  · exact ⟨⟨"B", whole (2 ^ 53 + 2), "bus"⟩, by decide, rfl, rfl⟩
  · exact ⟨⟨"C", whole 1, "bus"⟩, by decide, rfl, rfl⟩
  · exact ⟨⟨"C", whole (2 ^ 53 + 4), "train"⟩, by decide, rfl, rfl⟩

end TransportPlanner
